import Mathlib

/-!
Verification development for the Knowledge-base crawler (src/source.py).

The Python source is shallowly embedded below.  Pure helper functions of the
crawler (`clean_url`, `classify_page`, `should_crawl_domain`, paragraph
extraction, duplicate removal, …) become Lean functions; the stateful
`crawl_page` / `crawl_website` procedures become state-passing functions over
an explicit `CrawlState`, with the HTTP fetch and robots answers supplied by
an oracle `Env` (the spec treats transport and HTML parsing as external
collaborators).  Python dictionaries are modelled as association lists with
insertion-order semantics (append new key at the end, update in place), which
matches the insertion-ordered behaviour of `dict`.

The crawler builds URLs with `urllib.parse`; those library functions
(`urlparse`, `urlunparse`, `parse_qs`, `urlencode`, `quote_plus`, `unquote`,
`urljoin`) are modelled character-by-character from the CPython 3.11
implementation, totalised (the rarely-hit `ValueError` paths for bracketed
IPv6 hosts and non-NFKC netlocs are omitted; no claim depends on them).
Python `str.lower` / whitespace predicates are modelled on the ASCII range.
-/

/-! ## Character and list-of-character utilities -/

def isAsciiAlphaCh (c : Char) : Bool :=
  ('a' ≤ c && c ≤ 'z') || ('A' ≤ c && c ≤ 'Z')

def isAsciiDigitCh (c : Char) : Bool :=
  '0' ≤ c && c ≤ '9'

def isAsciiAlnumCh (c : Char) : Bool :=
  isAsciiAlphaCh c || isAsciiDigitCh c

def asciiLowerCh (c : Char) : Char :=
  if 'A' ≤ c && c ≤ 'Z' then Char.ofNat (c.toNat + 32) else c

/-- Python `str.lower`, restricted to the ASCII range. -/
def pyLower (s : String) : String := ⟨s.data.map asciiLowerCh⟩

/-- Python whitespace for `str.strip` / `\s`, ASCII range. -/
def isPyWs (c : Char) : Bool :=
  c = ' ' || c = '\t' || c = '\n' || c = '\r' || c.toNat = 11 || c.toNat = 12

def stripEndsBy (p : Char → Bool) (l : List Char) : List Char :=
  ((l.dropWhile p).reverse.dropWhile p).reverse

/-- Python `str.strip()` (ASCII whitespace). -/
def pyStrip (s : String) : String := ⟨stripEndsBy isPyWs s.data⟩

theorem dropWhile_len_le (p : Char → Bool) : ∀ l : List Char,
    (l.dropWhile p).length ≤ l.length := by
  intro l
  induction l with
  | nil => simp
  | cons c cs ih =>
    by_cases hc : p c
    · rw [List.dropWhile_cons_of_pos hc]
      simp only [List.length_cons]
      omega
    · rw [List.dropWhile_cons_of_neg hc]

/-- Python `str.strip(chars)`. -/
def pyStripChars (cs : List Char) (s : String) : String :=
  ⟨stripEndsBy (fun c => cs.contains c) s.data⟩

def isPrefixL : List Char → List Char → Bool
  | [], _ => true
  | _ :: _, [] => false
  | a :: as, b :: bs => a = b && isPrefixL as bs

def containsSubL (pat : List Char) : List Char → Bool
  | [] => isPrefixL pat []
  | c :: cs => isPrefixL pat (c :: cs) || containsSubL pat cs

/-- Python `pat in s` substring test. -/
def containsSub (pat s : String) : Bool := containsSubL pat.data s.data

def startsWithS (pre s : String) : Bool := isPrefixL pre.data s.data

def endsWithS (suf s : String) : Bool := isPrefixL suf.data.reverse s.data.reverse

/-- Split at the first occurrence of `c`; `none` when `c` does not occur. -/
def splitAtFirst (c : Char) : List Char → Option (List Char × List Char)
  | [] => none
  | x :: xs =>
    if x = c then some ([], xs)
    else (splitAtFirst c xs).map (fun p => (x :: p.1, p.2))

/-- Python `s.split(sep)` for a one-character separator (never returns `[]`). -/
def splitOnChar (c : Char) : List Char → List (List Char)
  | [] => [[]]
  | x :: xs =>
    let r := splitOnChar c xs
    if x = c then [] :: r
    else
      match r with
      | h :: t => (x :: h) :: t
      | [] => [[x]]

/-- Python `str.replace(pat, rep)` (all non-overlapping occurrences, left to
right), written with a fuel argument so that it reduces in the kernel; each
step consumes at least one character, so `fuel = s.length` always suffices;
our callers always use a non-empty `pat`. -/
def replaceFuel (pat rep : List Char) : Nat → List Char → List Char
  | 0, s => s
  | _ + 1, [] => []
  | f + 1, c :: cs =>
    if pat.isEmpty then c :: cs
    else if isPrefixL pat (c :: cs) then rep ++ replaceFuel pat rep f (List.drop (pat.length - 1) cs)
    else c :: replaceFuel pat rep f cs

def replaceAllL (pat rep s : List Char) : List Char := replaceFuel pat rep s.length s

def replaceAllS (pat rep s : String) : String :=
  ⟨replaceAllL pat.data rep.data s.data⟩

/-! ## UTF-8 (used by `quote` / `unquote`) -/

def utf8Enc (c : Char) : List Nat :=
  let n := c.toNat
  if n < 0x80 then [n]
  else if n < 0x800 then [0xC0 + n / 64, 0x80 + n % 64]
  else if n < 0x10000 then [0xE0 + n / 4096, 0x80 + (n / 64) % 64, 0x80 + n % 64]
  else [0xF0 + n / 0x40000, 0x80 + (n / 4096) % 64, 0x80 + (n / 64) % 64, 0x80 + n % 64]

def utf8EncL (l : List Char) : List Nat := (l.map utf8Enc).flatten

/-- U+FFFD replacement character. -/
def replCh : Char := Char.ofNat 0xFFFD

def utf8ContB (b : Nat) : Bool := 0x80 ≤ b && b ≤ 0xBF

/-- UTF-8 decoding with `errors='replace'` (maximal-subpart replacement, as in
CPython's `bytes.decode('utf-8', 'replace')`). -/
def utf8DecodeReplace : List Nat → List Char
  | [] => []
  | b :: bs =>
    if b < 0x80 then Char.ofNat b :: utf8DecodeReplace bs
    else if 0xC2 ≤ b && b ≤ 0xDF then
      match bs with
      | b1 :: bs1 =>
        if utf8ContB b1 then Char.ofNat ((b - 0xC0) * 64 + (b1 - 0x80)) :: utf8DecodeReplace bs1
        else replCh :: utf8DecodeReplace (b1 :: bs1)
      | [] => [replCh]
    else if 0xE0 ≤ b && b ≤ 0xEF then
      let lo := if b = 0xE0 then 0xA0 else 0x80
      let hi := if b = 0xED then 0x9F else 0xBF
      match bs with
      | b1 :: bs1 =>
        if lo ≤ b1 && b1 ≤ hi then
          match bs1 with
          | b2 :: bs2 =>
            if utf8ContB b2 then
              Char.ofNat ((b - 0xE0) * 4096 + (b1 - 0x80) * 64 + (b2 - 0x80)) :: utf8DecodeReplace bs2
            else replCh :: utf8DecodeReplace (b2 :: bs2)
          | [] => [replCh]
        else replCh :: utf8DecodeReplace (b1 :: bs1)
      | [] => [replCh]
    else if 0xF0 ≤ b && b ≤ 0xF4 then
      let lo := if b = 0xF0 then 0x90 else 0x80
      let hi := if b = 0xF4 then 0x8F else 0xBF
      match bs with
      | b1 :: bs1 =>
        if lo ≤ b1 && b1 ≤ hi then
          match bs1 with
          | b2 :: bs2 =>
            if utf8ContB b2 then
              match bs2 with
              | b3 :: bs3 =>
                if utf8ContB b3 then
                  Char.ofNat ((b - 0xF0) * 0x40000 + (b1 - 0x80) * 4096 + (b2 - 0x80) * 64 + (b3 - 0x80)) ::
                    utf8DecodeReplace bs3
                else replCh :: utf8DecodeReplace (b3 :: bs3)
              | [] => [replCh]
            else replCh :: utf8DecodeReplace (b2 :: bs2)
          | [] => [replCh]
        else replCh :: utf8DecodeReplace (b1 :: bs1)
      | [] => [replCh]
    else replCh :: utf8DecodeReplace bs

/-! ## `urllib.parse` model: quoting -/

def hexVal? (c : Char) : Option Nat :=
  if '0' ≤ c && c ≤ '9' then some (c.toNat - 48)
  else if 'a' ≤ c && c ≤ 'f' then some (c.toNat - 87)
  else if 'A' ≤ c && c ≤ 'F' then some (c.toNat - 55)
  else none

/-- `unquote` first pass: `%XX` hex pairs become bytes, everything else its
UTF-8 bytes (CPython decodes per ASCII chunk; the result agrees). -/
def unquoteBytes : List Char → List Nat
  | [] => []
  | '%' :: c1 :: c2 :: rest =>
    match hexVal? c1, hexVal? c2 with
    | some a, some b => (a * 16 + b) :: unquoteBytes rest
    | _, _ => utf8Enc '%' ++ unquoteBytes (c1 :: c2 :: rest)
  | c :: cs => utf8Enc c ++ unquoteBytes cs

/-- Python `urllib.parse.unquote` (utf-8, errors='replace'). -/
def unquotePy (s : String) : String := ⟨utf8DecodeReplace (unquoteBytes s.data)⟩

/-- The `_ALWAYS_SAFE` characters of `urllib.parse.quote`. -/
def alwaysSafeCh (c : Char) : Bool :=
  isAsciiAlnumCh c || c = '_' || c = '.' || c = '-' || c = '~'

def hexUpper (n : Nat) : Char := if n < 10 then Char.ofNat (48 + n) else Char.ofNat (55 + n)

def pctEncByte (b : Nat) : List Char := ['%', hexUpper (b / 16), hexUpper (b % 16)]

def quoteCh (safe : List Char) (c : Char) : List Char :=
  if alwaysSafeCh c || safe.contains c then [c] else ((utf8Enc c).map pctEncByte).flatten

/-- Python `urllib.parse.quote(s, safe)`. -/
def quotePy (safe : List Char) (s : String) : String :=
  ⟨(s.data.map (quoteCh safe)).flatten⟩

/-- Python `urllib.parse.quote_plus(s)` (with `safe=''`, as `urlencode` uses it). -/
def quotePlus (s : String) : String :=
  if ' ' ∈ s.data then ⟨(quotePy [' '] s).data.map (fun c => if c = ' ' then '+' else c)⟩
  else quotePy [] s

/-! ## `urllib.parse` model: query strings -/

def plusToSpace (l : List Char) : List Char := l.map (fun c => if c = '+' then ' ' else c)

/-- Python `parse_qsl(qs)` with default arguments (blank values dropped). -/
def parseQsl (qs : String) : List (String × String) :=
  if qs = "" then []
  else
    (splitOnChar '&' qs.data).filterMap (fun nv =>
      if nv = [] then none
      else
        match splitAtFirst '=' nv with
        | none => none
        | some (n, v) =>
          if v = [] then none
          else some (unquotePy ⟨plusToSpace n⟩, unquotePy ⟨plusToSpace v⟩))

def alistAddVal (acc : List (String × List String)) (k v : String) : List (String × List String) :=
  if acc.any (fun kv => kv.1 == k) then
    acc.map (fun kv => if kv.1 == k then (kv.1, kv.2 ++ [v]) else kv)
  else acc ++ [(k, [v])]

/-- Python `parse_qs(qs)`: group `parse_qsl` pairs into an insertion-ordered map. -/
def parseQs (qs : String) : List (String × List String) :=
  (parseQsl qs).foldl (fun acc p => alistAddVal acc p.1 p.2) []

/-- Python `urlencode(query, doseq=True)` (quote via `quote_plus`). -/
def urlencodePy (q : List (String × List String)) : String :=
  ⟨(List.intercalate ['&']
      ((q.map (fun kv => kv.2.map (fun v => (quotePlus kv.1).data ++ '=' :: (quotePlus v).data))).flatten))⟩

/-! ## `urllib.parse` model: URL splitting and joining -/

structure UrlParts where
  scheme : String
  netloc : String
  path : String
  par : String
  query : String
  fragment : String
deriving DecidableEq, Repr

def schemeCh (c : Char) : Bool := isAsciiAlnumCh c || c = '+' || c = '-' || c = '.'

def c0OrSpace (c : Char) : Bool := c.toNat ≤ 0x20

def tabCrLf (c : Char) : Bool := c = '\t' || c = '\r' || c = '\n'

def netlocDelim (c : Char) : Bool := c = '/' || c = '?' || c = '#'

/-- Leading C0-control/space strip and tab/CR/LF removal of `urlsplit`. -/
def urlPre (u : String) : List Char :=
  (u.data.dropWhile c0OrSpace).filter (fun c => !tabCrLf c)

/-- Scheme detection of `urlsplit`: split at the first `:` when the prefix is
a letter followed by scheme characters; otherwise keep the default. -/
def splitScheme (dflt : List Char) (l : List Char) : List Char × List Char :=
  match splitAtFirst ':' l with
  | some (pre, post) =>
    match pre with
    | [] => (dflt, l)
    | p0 :: _ =>
      if isAsciiAlphaCh p0 && pre.all schemeCh then (pre.map asciiLowerCh, post)
      else (dflt, l)
  | none => (dflt, l)

/-- Netloc extraction of `urlsplit`: after a leading `//`, up to `/`, `?` or `#`. -/
def splitNetloc (rest : List Char) : List Char × List Char :=
  if rest.take 2 = ['/', '/'] then
    let after := rest.drop 2
    (after.takeWhile (fun c => !netlocDelim c), after.dropWhile (fun c => !netlocDelim c))
  else ([], rest)

/-- Fragment split of `urlsplit` (at the first `#`). -/
def splitFrag (rest2 : List Char) : List Char × List Char :=
  match splitAtFirst '#' rest2 with
  | some (a, b) => (a, b)
  | none => (rest2, [])

/-- Query split of `urlsplit` (at the first `?`). -/
def splitQuery (rest3 : List Char) : List Char × List Char :=
  match splitAtFirst '?' rest3 with
  | some (a, b) => (a, b)
  | none => (rest3, [])

/-- CPython `urlsplit(url, scheme)` (3.11), without the IPv6-bracket and
NFKC-netloc `ValueError`s: returns `(scheme, netloc, path-with-params, query,
fragment)`. -/
def urlsplitPy (dfltScheme : String) (u : String) : String × String × String × String × String :=
  let l := urlPre u
  let (scheme, rest) := splitScheme dfltScheme.data l
  let (netloc, rest2) := splitNetloc rest
  let (rest3, frag) := splitFrag rest2
  let (pathPart, query) := splitQuery rest3
  (⟨scheme⟩, ⟨netloc⟩, ⟨pathPart⟩, ⟨query⟩, ⟨frag⟩)

/-- CPython `_splitparams`. -/
def splitParamsL (l : List Char) : List Char × List Char :=
  if '/' ∈ l then
    let revSplit := splitAtFirst '/' l.reverse
    match revSplit with
    | some (afterRev, beforeRev) =>
      -- l = beforeRev.reverse ++ '/' :: afterRev.reverse, and '/' ∉ afterRev.reverse
      let before := beforeRev.reverse
      let after := afterRev.reverse
      match splitAtFirst ';' after with
      | none => (l, [])
      | some (a, b) => (before ++ '/' :: a, b)
    | none => (l, [])
  else
    match splitAtFirst ';' l with
    | none => (l, [])
    | some (a, b) => (a, b)

def usesParams : List String :=
  ["", "ftp", "hdl", "prospero", "http", "imap", "https", "shttp", "rtsp", "rtsps",
   "rtspu", "sip", "sips", "mms", "sftp", "tel"]

def usesNetloc : List String :=
  ["", "ftp", "http", "gopher", "nntp", "telnet", "imap", "wais", "file", "mms",
   "https", "shttp", "snews", "prospero", "rtsp", "rtsps", "rtspu", "rsync", "svn",
   "svn+ssh", "sftp", "nfs", "git", "git+ssh", "ws", "wss"]

def usesRelative : List String :=
  ["", "ftp", "http", "gopher", "nntp", "imap", "wais", "file", "https", "shttp",
   "mms", "prospero", "rtsp", "rtsps", "rtspu", "sftp", "svn", "svn+ssh", "ws", "wss"]

/-- The path/params step of `urlparse`: split params off the path iff the
scheme uses them and a `;` is present. -/
def pathParams (scheme : String) (pathPart : List Char) : List Char × List Char :=
  if usesParams.contains scheme && ';' ∈ pathPart then splitParamsL pathPart
  else (pathPart, [])

/-- CPython `urlparse(url, scheme)` (3.11). -/
def urlparsePy (dfltScheme : String) (u : String) : UrlParts :=
  let (scheme, netloc, pathPart, query, frag) := urlsplitPy dfltScheme u
  let pp := pathParams scheme pathPart.data
  ⟨scheme, netloc, ⟨pp.1⟩, ⟨pp.2⟩, query, frag⟩

def parseUrl (u : String) : UrlParts := urlparsePy "" u

/-- CPython `urlunsplit` (3.11): note the `uses_netloc` clause in the guard. -/
def urlunsplitPy (scheme netloc : String) (url0 : List Char) (query frag : String) : String :=
  let url1 :=
    if netloc ≠ "" || (scheme ≠ "" && usesNetloc.contains scheme && url0.take 2 ≠ ['/', '/']) then
      let url := if url0 ≠ [] && url0.take 1 ≠ ['/'] then '/' :: url0 else url0
      '/' :: '/' :: netloc.data ++ url
    else url0
  let url2 := if scheme ≠ "" then scheme.data ++ ':' :: url1 else url1
  let url3 := if query ≠ "" then url2 ++ '?' :: query.data else url2
  let url4 := if frag ≠ "" then url3 ++ '#' :: frag.data else url3
  ⟨url4⟩

/-- CPython `urlunparse`. -/
def unparseUrl (p : UrlParts) : String :=
  let composite := if p.par ≠ "" then p.path.data ++ ';' :: p.par.data else p.path.data
  urlunsplitPy p.scheme p.netloc composite p.query p.fragment

/-- CPython `urljoin(base, url)` (3.11). -/
def urljoinPy (base url : String) : String :=
  if base = "" then url
  else if url = "" then base
  else
    let b := urlparsePy "" base
    let p := urlparsePy b.scheme url
    if p.scheme ≠ b.scheme || !usesRelative.contains p.scheme then url
    else
      let (retEarly, netloc) :=
        if usesNetloc.contains p.scheme then
          if p.netloc ≠ "" then (true, p.netloc) else (false, b.netloc)
        else (false, p.netloc)
      if retEarly then unparseUrl { p with netloc := netloc }
      else if p.path = "" && p.par = "" then
        let query := if p.query = "" then b.query else p.query
        unparseUrl { scheme := p.scheme, netloc := netloc, path := b.path, par := b.par,
                     query := query, fragment := p.fragment }
      else
        let baseParts0 := splitOnChar '/' b.path.data
        let baseParts := if baseParts0.getLast? ≠ some [] then baseParts0.dropLast else baseParts0
        let segments :=
          if p.path.data.take 1 = ['/'] then splitOnChar '/' p.path.data
          else
            let segs := baseParts ++ splitOnChar '/' p.path.data
            match segs with
            | [] => []
            | [a] => [a]
            | a :: rest =>
              a :: (rest.dropLast.filter (fun x => x ≠ [])) ++
                (match rest.getLast? with | some lst => [lst] | none => [])
        let resolved := segments.foldl
          (fun acc seg =>
            if seg = ['.', '.'] then acc.dropLast
            else if seg = ['.'] then acc
            else acc ++ [seg]) []
        let resolved :=
          if segments.getLast? = some ['.'] || segments.getLast? = some ['.', '.'] then
            resolved ++ [[]]
          else resolved
        let joined := List.intercalate ['/'] resolved
        let path : String := if joined = [] then "/" else ⟨joined⟩
        unparseUrl { scheme := p.scheme, netloc := netloc, path := path, par := p.par,
                     query := p.query, fragment := p.fragment }

/-! ## The crawler's URL helpers (src/source.py lines 67‑148) -/

def trackingParams : List String :=
  ["utm_source", "utm_medium", "utm_campaign", "utm_term", "utm_content",
   "fbclid", "gclid", "msclkid", "ref", "source", "intcmp", "cmp", "mc_cid",
   "mc_eid", "sb_referer_host", "_hsenc", "_hsmi", "_ga", "form", "lang"]

/-- `KnowledgeBaseGenerator.clean_url` (lines 83‑143). -/
def cleanUrl (u : String) : String :=
  let p := parseUrl u
  if p.netloc = "www.alz.org" then
    unparseUrl { p with query := "", fragment := "" }
  else if p.netloc = "www.webmd.com" then
    let fq := urlencodePy ((parseQs p.query).filter (fun kv => kv.1 == "pg"))
    unparseUrl { p with query := fq, fragment := "" }
  else
    let fq := urlencodePy
      ((parseQs p.query).filter (fun kv => !trackingParams.contains (pyLower kv.1)))
    unparseUrl { p with query := fq, fragment := "" }

/-- `KnowledgeBaseGenerator.get_domain` (lines 67‑70). -/
def getDomain (u : String) : String := (parseUrl u).netloc

/-- `KnowledgeBaseGenerator.normalize_url` (lines 72‑81). -/
def normalizeUrl (url base : String) : String :=
  let noFrag : String :=
    match splitAtFirst '#' url.data with
    | some (a, _) => ⟨a⟩
    | none => url
  if startsWithS "http://" noFrag || startsWithS "https://" noFrag then noFrag
  else urljoinPy base noFrag

/-- `KnowledgeBaseGenerator.is_internal_link` (lines 145‑148). -/
def isInternalLink (url baseDomain : String) : Bool :=
  let d := getDomain url
  d == baseDomain || d == "www." ++ baseDomain || "www." ++ d == baseDomain

/-! ## Page classification (src/source.py lines 28‑38, 410‑488) -/

def contentPageTypes : List String :=
  ["article", "blog", "news", "resource", "guide", "faq",
   "research", "publication", "study", "report"]

/-- The deny set (`avoid_page_types`, lines 34‑38).  In Python it is a `set`,
whose iteration order is a per-process artefact of string hashing; membership
tests do not depend on it, and functions that iterate the set take the order
as an explicit parameter below. -/
def avoidPageTypes : List String :=
  ["login", "register", "signup", "signin", "account",
   "cart", "checkout", "contact", "about", "team", "privacy",
   "terms", "policy", "legal", "copyright", "search"]

def isWordCh (c : Char) : Bool := isAsciiAlnumCh c || c = '_'

/-- One position of `re.search(rf'\b{w}s?\b', s)` for an alphabetic `w`:
`w` is a prefix here, followed by a word boundary or by `'s'` and a word
boundary. -/
def wwHere (w : List Char) (s : List Char) : Bool :=
  isPrefixL w s &&
    (match s.drop w.length with
     | [] => true
     | c :: rest =>
       if c = 's' then
         match rest with
         | [] => true
         | d :: _ => !isWordCh d
       else !isWordCh c)

/-- `re.search(rf'\b{w}s?\b', s)` for an alphabetic deny-list term `w`. -/
def wholeWordHit (w : List Char) : Option Char → List Char → Bool
  | prev, s =>
    let bOk := match prev with | none => true | some c => !isWordCh c
    (bOk && wwHere w s) ||
      (match s with
       | [] => false
       | c :: cs => wholeWordHit w (some c) cs)

def wholeWord (w s : String) : Bool := wholeWordHit w.data none s.data

/-- `re.search(r'(w₁|w₂|…)s?/', path, re.I)` over a lower-cased path. -/
def groupSlashHit (ws : List String) (lowPath : String) : Bool :=
  ws.any (fun w => containsSub (w ++ "/") lowPath || containsSub (w ++ "s/") lowPath)

/-- Abstraction of a parsed HTML document: exactly the features the crawler
reads from a `BeautifulSoup` object. -/
structure Doc where
  /-- `len(soup.find_all('p'))` over the whole document. -/
  pCount : Nat
  /-- `sum(len(p.get_text()) for p in soup.find_all('p'))`. -/
  pTextLen : Nat
  /-- an `<article>` element or `itemtype~Article` attribute is present. -/
  hasArticleSchema : Bool
  /-- an element with a content/article/post/blog/entry/main-content class. -/
  hasContentClass : Bool
  /-- `len(soup.find_all(['ul','ol']))`. -/
  listCount : Nat
  /-- `p.get_text()` of the paragraph elements of the selected main-content
  container, in document order (input to `extract_text_with_structure`'s
  paragraph loop). -/
  containerParas : List String
  /-- the `href` values of `soup.find_all('a', href=True)`, in document order. -/
  links : List String
deriving DecidableEq, Repr

/-- `KnowledgeBaseGenerator.classify_page` (lines 410‑461); `avoidOrder` is
the iteration order of the `avoid_page_types` set. -/
def classifyPage (avoidOrder : List String) (url baseUrl : String) (doc? : Option Doc) : String :=
  let path := pyStripChars ['/'] (replaceAllS baseUrl "" url)
  if path = "" then "homepage"
  else
    let lowPath := pyLower path
    let denyHit :=
      if avoidOrder.any (fun a => containsSub a lowPath) then
        avoidOrder.find? (fun a => wholeWord a lowPath)
      else none
    match denyHit with
    | some a => a
    | none =>
      if groupSlashHit ["article", "post", "blog"] lowPath then "article"
      else if groupSlashHit ["news", "press", "release"] lowPath then "news"
      else if groupSlashHit ["resource", "guide", "handbook", "help"] lowPath then "resource"
      else if ["faq", "question", "answer"].any (fun w => containsSub w lowPath) then "faq"
      else if groupSlashHit ["research", "publication", "study", "report"] lowPath then "research"
      else
        let fromDoc :=
          match doc? with
          | some d =>
            if d.pCount > 5 && d.pTextLen > 1000 then some "article"
            else if d.hasArticleSchema then some "article"
            else if d.hasContentClass then some "article"
            else none
          | none => none
        match fromDoc with
        | some t => t
        | none =>
          if '/' ∈ path.data then ⟨path.data.takeWhile (fun c => c ≠ '/')⟩
          else "other"

/-- `KnowledgeBaseGenerator.is_content_rich_page` (lines 463‑488). -/
def isContentRichPage (pageType : String) (doc? : Option Doc) : Bool :=
  if contentPageTypes.contains (pyLower pageType) then true
  else if avoidPageTypes.contains (pyLower pageType) then false
  else
    match doc? with
    | some d =>
      if d.pCount > 5 && d.pTextLen > 1000 then true
      else if d.listCount > 2 then true
      else pageType == "homepage"
    | none => pageType == "homepage"

/-! ## Paragraph extraction (src/source.py lines 351‑368) -/

/-- `splitAtFirst` characterisation: used throughout. -/
theorem splitAtFirst_some {c : Char} : ∀ {l a b : List Char},
    splitAtFirst c l = some (a, b) → l = a ++ c :: b ∧ c ∉ a := by
  intro l
  induction l with
  | nil => intro a b h; simp [splitAtFirst] at h
  | cons x xs ih =>
    intro a b h
    by_cases hx : x = c
    · subst hx
      rw [splitAtFirst, if_pos rfl] at h
      simp only [Option.some.injEq, Prod.mk.injEq] at h
      obtain ⟨rfl, rfl⟩ := h
      simp
    · rw [splitAtFirst, if_neg hx, Option.map_eq_some'] at h
      obtain ⟨⟨a1, b1⟩, hs, heq⟩ := h
      simp only [Prod.mk.injEq] at heq
      obtain ⟨rfl, rfl⟩ := heq
      obtain ⟨hl, hnotin⟩ := ih hs
      constructor
      · rw [List.cons_append, hl]
      · simp only [List.mem_cons, not_or]
        exact ⟨fun hc => hx hc.symm, hnotin⟩

theorem splitAtFirst_none {c : Char} : ∀ {l : List Char},
    splitAtFirst c l = none ↔ c ∉ l := by
  intro l
  induction l with
  | nil => simp [splitAtFirst]
  | cons x xs ih =>
    by_cases hx : x = c
    · subst hx; simp [splitAtFirst]
    · rw [splitAtFirst, if_neg hx]
      rw [Option.map_eq_none']
      rw [ih]
      simp only [List.mem_cons, not_or]
      constructor
      · intro h; exact ⟨fun hc => hx hc.symm, h⟩
      · intro h; exact h.2

/-- Body-and-tail of a placeholder match of `re.sub(r'%\x7b[^\x7d]+\x7d%', '', text)`
after its opening `%\x7b`: one or more non-`\x7d` characters, then `\x7d%`;
returns the remainder after the whole match. -/
def phTail? (rest : List Char) : Option (List Char) :=
  match splitAtFirst '}' rest with
  | none => none
  | some (body, after) =>
    if body = [] then none
    else if after.head? = some '%' then some after.tail else none

/-- A placeholder match starting at the head of `l`; returns the remainder. -/
def phSkip? (l : List Char) : Option (List Char) :=
  if l.take 2 = ['%', '{'] then phTail? (l.drop 2) else none

theorem phTail?_shorter {rest tail : List Char} (h : phTail? rest = some tail) :
    tail.length + 2 ≤ rest.length := by
  unfold phTail? at h
  rcases hs : splitAtFirst '}' rest with _ | ⟨body, after⟩ <;> rw [hs] at h
  · simp at h
  · by_cases hb : body = []
    · simp [hb] at h
    · simp only [hb, if_neg, if_false] at h
      by_cases hh : after.head? = some '%'
      · simp only [hh, if_pos, if_true, Option.some.injEq] at h
        subst h
        obtain ⟨rfl, -⟩ := splitAtFirst_some hs
        rcases after with _ | ⟨a0, as⟩
        · simp at hh
        · simp only [List.head?_cons, Option.some.injEq] at hh
          subst hh
          rcases body with _ | ⟨b0, bs⟩
          · exact absurd rfl hb
          · simp [List.length_append]
            omega
      · simp [hh] at h

theorem phSkip?_shorter {l tail : List Char} (h : phSkip? l = some tail) :
    tail.length < l.length := by
  unfold phSkip? at h
  by_cases ht : l.take 2 = ['%', '{']
  · rw [if_pos ht] at h
    have h2 := phTail?_shorter h
    have hlen : 2 ≤ l.length := by
      have := congrArg List.length ht
      simp only [List.length_take, List.length_cons, List.length_nil] at this
      omega
    have hd : (l.drop 2).length = l.length - 2 := by simp
    omega
  · rw [if_neg ht] at h
    simp at h

/-- `re.sub(r'%\x7b[^\x7d]+\x7d%', '', text)` (scan left to right, drop
every match, resume after it); fuel-indexed so that it reduces in the kernel.
A match consumes at least one character (`phSkip?_shorter`), so
`fuel = s.length` always suffices. -/
def removePHF : Nat → List Char → List Char
  | 0, s => s
  | _ + 1, [] => []
  | f + 1, c :: cs =>
    match phSkip? (c :: cs) with
    | some tail => removePHF f tail
    | none => c :: removePHF f cs

def removePH (l : List Char) : List Char := removePHF l.length l

def removePlaceholdersS (s : String) : String := ⟨removePH s.data⟩

/-- `re.sub(r'ARTICLE CONTINUES AFTER ADVERTISEMENT', '', text)`: the pattern
is literal, so this is plain replacement. -/
def removeAdMarker (s : String) : String :=
  replaceAllS "ARTICLE CONTINUES AFTER ADVERTISEMENT" "" s

def boilerSubs : List String :=
  ["login", "sign in", "subscribe", "newsletter", "privacy policy", "terms"]

/-- One iteration of the paragraph-collection loop of
`extract_text_with_structure` (lines 353‑368): `acc` is
(`content["paragraphs"]`, `extracted_texts`); the Python `extracted_texts`
set is modelled as a list used only through membership. -/
def extractStep (acc : List String × List String) (t0 : String) :
    List String × List String :=
  let text := pyStrip t0
  if text ≠ "" && text.length > 20 && !containsSub "%\x7b" text &&
      !boilerSubs.any (fun b => containsSub b (pyLower text)) &&
      !(startsWithS "you are now leaving" (pyLower text) ||
        startsWithS "already a member" (pyLower text)) &&
      !acc.2.contains text then
    let t2 := pyStrip (removeAdMarker (removePlaceholdersS text))
    if t2 ≠ "" && !acc.2.contains (pyLower t2) then
      (acc.1 ++ [t2], acc.2 ++ [pyLower t2])
    else acc
  else acc

/-- The paragraph-collection loop of `extract_text_with_structure`
(lines 351‑368): `ps` is the list of `p.get_text()` texts of the selected
container, the result is `content["paragraphs"]`. -/
def extractParagraphs (ps : List String) : List String :=
  (ps.foldl extractStep ([], [])).1

/-! ## Knowledge-base state (src/source.py lines 12‑27, 586‑618) -/

/-- A stored page (`knowledge_base[domain]["pages"][url]`); `crawled_at` is a
wall-clock string and is not modelled, `content` is represented by the
`paragraphs` component the later passes read. -/
structure PageRec where
  ptype : String
  depth : Nat
  paragraphs : List String
deriving DecidableEq, Repr

structure DomainRec where
  base_url : String
  pages : List (String × PageRec)
  pagesCrawledStat : Nat
  byType : List (String × Nat)
deriving DecidableEq, Repr

structure ErrEntry where
  url : String
  msg : String
deriving DecidableEq, Repr

structure CrawlState where
  kb : List (String × DomainRec)
  visited : List String
  errorUrls : List ErrEntry
  statsPagesCrawled : Nat
  statsPagesSkipped : Nat
  statsErrors : Nat
  /-- ghost trace: the URLs passed to `requests.get`, in order. -/
  fetched : List String
deriving DecidableEq, Repr

def initState : CrawlState := ⟨[], [], [], 0, 0, 0, []⟩

def alistGet? {β : Type} (l : List (String × β)) (k : String) : Option β :=
  (l.find? (fun kv => kv.1 == k)).map (fun kv => kv.2)

def alistHas {β : Type} (l : List (String × β)) (k : String) : Bool :=
  l.any (fun kv => kv.1 == k)

/-- Python `d[k] = v`: update in place, else append. -/
def alistPut {β : Type} (l : List (String × β)) (k : String) (v : β) : List (String × β) :=
  if alistHas l k then l.map (fun kv => if kv.1 == k then (kv.1, v) else kv)
  else l ++ [(k, v)]

/-- Python `d[k] = d.get(k, 0) + 1` as done for `by_type` (lines 616‑618). -/
def bumpCount (l : List (String × Nat)) (k : String) : List (String × Nat) :=
  if alistHas l k then l.map (fun kv => if kv.1 == k then (kv.1, kv.2 + 1) else kv)
  else l ++ [(k, 1)]

structure Cfg where
  maxPages : Nat
  contentOnly : Bool
  respectRobots : Bool
deriving DecidableEq, Repr

/-- Number of stored pages of a domain whose type is content-rich
(lines 500‑503). -/
def contentCount (pages : List (String × PageRec)) : Nat :=
  (pages.filter (fun kv => contentPageTypes.contains (pyLower kv.2.ptype))).length

/-- `KnowledgeBaseGenerator.should_crawl_domain` (lines 490‑515). -/
def shouldCrawlDomain (kb : List (String × DomainRec)) (cfg : Cfg) (domain : String) : Bool :=
  match alistGet? kb domain with
  | none => true
  | some dr =>
    if contentCount dr.pages ≥ cfg.maxPages then false
    else if dr.pages.length ≥ cfg.maxPages * 3 then false
    else true

/-- Lines 588‑596: create the domain record on first store. -/
def ensureDomain (s : CrawlState) (domain baseUrl : String) : CrawlState :=
  if alistHas s.kb domain then s
  else { s with kb := s.kb ++ [(domain, ⟨baseUrl, [], 0, []⟩)] }

/-- Lines 604‑618: store the page record and update statistics. -/
def storePage (s : CrawlState) (domain url : String) (pr : PageRec) : CrawlState :=
  { s with
    kb := s.kb.map (fun kv =>
      if kv.1 == domain then
        (kv.1, { kv.2 with
                 pages := alistPut kv.2.pages url pr,
                 pagesCrawledStat := kv.2.pagesCrawledStat + 1,
                 byType := bumpCount kv.2.byType pr.ptype })
      else kv),
    statsPagesCrawled := s.statsPagesCrawled + 1 }

/-! ## Fetch environment -/

structure FetchRes where
  status : Nat
  isHtml : Bool
  doc : Doc
deriving DecidableEq, Repr

/-- Oracle for the external collaborators: `fetch url = none` models
`requests.get` raising, `some r` a response; `robotsAllowed` is the
`can_fetch("*", url)` answer (robots read failures, which `is_allowed_by_robots`
turns into "allowed", are folded into the oracle). -/
structure Env where
  fetch : String → Option FetchRes
  robotsAllowed : String → Bool

/-! ## Link partitioning inside `crawl_page` (src/source.py lines 645‑731) -/

def anySubOf (pats : List String) (s : String) : Bool :=
  pats.any (fun p => containsSub p s)

def caregiverPats : List String :=
  ["/corporate-partners/", "/caregiver-story/", "/guide/", "/blueprint-", "/hipaa-",
   "/stroke", "/traumatic-brain-injury/", "/ptsd/", "/lighting-your-way/"]

/-- One step of the link loop: route `nextUrl` into (content_links, other_links);
`insert 0` for caregiveraction toolbox links, append otherwise. -/
def routeLink (baseDomain : String) (acc : List String × List String) (nextUrl : String) :
    List String × List String :=
  let lowerHref := pyLower nextUrl
  if baseDomain = "www.caregiveraction.org" then
    if containsSub "/toolbox/" lowerHref then (nextUrl :: acc.1, acc.2)
    else if anySubOf caregiverPats lowerHref then (acc.1 ++ [nextUrl], acc.2)
    else (acc.1, acc.2 ++ [nextUrl])
  else if baseDomain = "www.asaging.org" then (acc.1 ++ [nextUrl], acc.2)
  else if baseDomain = "www.webmd.com" then
    if anySubOf ["/a-to-z-guides/", "/diet/news/", "/guide/"] lowerHref then
      (acc.1 ++ [nextUrl], acc.2)
    else (acc.1, acc.2 ++ [nextUrl])
  else if baseDomain = "www.aarp.org" then
    if containsSub "/caregiving/" lowerHref then (acc.1 ++ [nextUrl], acc.2)
    else (acc.1, acc.2 ++ [nextUrl])
  else if baseDomain = "www.nia.nih.gov" then
    if containsSub "/research/" lowerHref then (acc.1 ++ [nextUrl], acc.2)
    else (acc.1, acc.2 ++ [nextUrl])
  else if baseDomain = "www.alz.org" then
    if anySubOf ["/blog/", "/help-support/"] lowerHref then (acc.1 ++ [nextUrl], acc.2)
    else (acc.1, acc.2 ++ [nextUrl])
  else if baseDomain = "www.ncoa.org" then
    if containsSub "/older-adults/" lowerHref || containsSub "/caregivers/" lowerHref then
      (acc.1 ++ [nextUrl], acc.2)
    else (acc.1, acc.2 ++ [nextUrl])
  else if baseDomain = "www.seniorliving.org" then
    if anySubOf ["/care/", "/health/", "/finance/"] lowerHref then (acc.1 ++ [nextUrl], acc.2)
    else (acc.1, acc.2 ++ [nextUrl])
  else
    if anySubOf ["article", "post", "blog", "news", "resource"] lowerHref then
      (acc.1 ++ [nextUrl], acc.2)
    else (acc.1, acc.2 ++ [nextUrl])

/-- The link enumeration loop (lines 651‑731): normalise each href against the
current page URL, skip empty/`javascript:`/`mailto:`/`tel:` targets, skip
already-visited URLs, keep internal links, and route them. -/
def partitionLinks (links : List String) (pageUrl baseDomain : String)
    (visited : List String) : List String × List String :=
  links.foldl
    (fun acc href0 =>
      let href := pyStrip href0
      if href = "" || startsWithS "javascript:" href || startsWithS "mailto:" href ||
          startsWithS "tel:" href then acc
      else
        let nextUrl := normalizeUrl href pageUrl
        if visited.contains nextUrl then acc
        else if isInternalLink nextUrl baseDomain then routeLink baseDomain acc nextUrl
        else acc)
    ([], [])

/-! ## `crawl_page` (src/source.py lines 517‑746) -/

/-- `KnowledgeBaseGenerator.crawl_page`, with a fuel argument bounding the
recursion depth (the Python recursion terminates on every claim-relevant run;
fuel exhaustion returns the state unchanged and is a modelling artefact). -/
def crawlPage (env : Env) (cfg : Cfg) : Nat → String → String → String → Nat → CrawlState → CrawlState
  | 0, _, _, _, _, s => s
  | fuel + 1, url0, baseUrl, baseDomain, depth, s =>
    let url := cleanUrl url0
    if s.visited.contains url then s
    else
      let preDomain := getDomain url
      if !shouldCrawlDomain s.kb cfg preDomain then
        { s with statsPagesSkipped := s.statsPagesSkipped + 1 }
      else if cfg.respectRobots && !env.robotsAllowed url then
        { s with statsPagesSkipped := s.statsPagesSkipped + 1 }
      else
        let s := { s with visited := s.visited ++ [url], fetched := s.fetched ++ [url] }
        match env.fetch url with
        | none =>
          { s with
            errorUrls := s.errorUrls ++ [⟨url, "Error crawling " ++ url⟩],
            statsErrors := s.statsErrors + 1 }
        | some r =>
          if r.status ≠ 200 then
            { s with
              errorUrls := s.errorUrls ++
                [⟨url, "Failed to fetch " ++ url ++ ": Status code " ++ toString r.status⟩],
              statsErrors := s.statsErrors + 1 }
          else if !r.isHtml then { s with statsPagesSkipped := s.statsPagesSkipped + 1 }
          else
            let pageType := classifyPage avoidPageTypes url baseUrl (some r.doc)
            if cfg.contentOnly && !isContentRichPage pageType (some r.doc) &&
                pageType ≠ "homepage" then
              { s with statsPagesSkipped := s.statsPagesSkipped + 1 }
            else
              let paras := extractParagraphs r.doc.containerParas
              let domain := getDomain baseUrl
              let s := ensureDomain s domain baseUrl
              if !shouldCrawlDomain s.kb cfg domain then
                { s with statsPagesSkipped := s.statsPagesSkipped + 1 }
              else
                let s := storePage s domain url ⟨pageType, depth, paras⟩
                if !shouldCrawlDomain s.kb cfg domain then s
                else
                  let links := partitionLinks r.doc.links url baseDomain s.visited
                  let s := links.1.foldl
                    (fun s n =>
                      if shouldCrawlDomain s.kb cfg domain then
                        crawlPage env cfg fuel n baseUrl baseDomain (depth + 1) s
                      else s) s
                  links.2.foldl
                    (fun s n =>
                      if shouldCrawlDomain s.kb cfg domain then
                        crawlPage env cfg fuel n baseUrl baseDomain (depth + 1) s
                      else s) s

/-! ## `crawl_website`, `crawl_websites`, metadata, dedup pass
(src/source.py lines 748‑875) -/

/-- Lines 763‑768: reset the domain statistics when a seed of an
already-present domain starts a fresh run. -/
def resetDomainStats (s : CrawlState) (baseDomain : String) : CrawlState :=
  if alistHas s.kb baseDomain then
    { s with kb := s.kb.map (fun kv =>
        if kv.1 == baseDomain then (kv.1, { kv.2 with pagesCrawledStat := 0, byType := [] })
        else kv) }
  else s

/-- `KnowledgeBaseGenerator.crawl_website` (lines 748‑798). -/
def crawlWebsite (env : Env) (cfg : Cfg) (fuel : Nat) (url0 : String) (s : CrawlState) :
    CrawlState :=
  let url := if endsWithS "/" url0 then url0 else url0 ++ "/"
  let p := parseUrl url
  let baseUrl := p.scheme ++ "://" ++ p.netloc
  let baseDomain := getDomain url
  let s := resetDomainStats s baseDomain
  crawlPage env cfg fuel url baseUrl baseDomain 0 s

/-- Normalisation used by the dedup pass (line 857):
`re.sub(r'\s+', ' ', paragraph.lower()).strip()`.  The flag records whether
the previous character was whitespace (so a run collapses to one space). -/
def collapseWsF : Bool → List Char → List Char
  | _, [] => []
  | skipping, c :: cs =>
    if isPyWs c then
      if skipping then collapseWsF true cs else ' ' :: collapseWsF true cs
    else c :: collapseWsF false cs

def collapseWs (l : List Char) : List Char := collapseWsF false l

/-- The normalised text whose md5 the pass hashes; md5 is modelled as the
identity on the normalised text (hash collisions are ignored). -/
def normPara (p : String) : String := pyStrip ⟨collapseWs (pyLower p).data⟩

/-- One iteration of the paragraph loop of `remove_duplicate_content`
(lines 854‑870): `acc` is (kept paragraphs, `paragraph_hashes`, duplicates
removed). -/
def dedupStep (url : String) (acc : List String × List (String × String) × Nat)
    (para : String) : List String × List (String × String) × Nat :=
  match alistGet? acc.2.1 (normPara para) with
  | none => (acc.1 ++ [para], acc.2.1 ++ [(normPara para, url)], acc.2.2)
  | some owner =>
    if owner ≠ url then (acc.1 ++ [para], acc.2.1, acc.2.2)
    else (acc.1, acc.2.1, acc.2.2 + 1)

/-- Per-page body of `remove_duplicate_content` (lines 850‑873): returns the
kept paragraphs, the updated `paragraph_hashes` map, and the number of
duplicates removed. -/
def dedupPageParas (hashes : List (String × String)) (url : String) (paras : List String) :
    List String × List (String × String) × Nat :=
  paras.foldl (dedupStep url) ([], hashes, 0)

/-- `remove_duplicate_content` over one domain's pages. -/
def dedupDomainPages (hashes : List (String × String)) (dup : Nat) :
    List (String × PageRec) → List (String × PageRec) × List (String × String) × Nat
  | [] => ([], hashes, dup)
  | (url, pr) :: rest =>
    let r := dedupPageParas hashes url pr.paragraphs
    let rec' := dedupDomainPages r.2.1 (dup + r.2.2) rest
    ((url, { pr with paragraphs := r.1 }) :: rec'.1, rec'.2.1, rec'.2.2)

def dedupDomains (hashes : List (String × String)) (dup : Nat) :
    List (String × DomainRec) → List (String × DomainRec) × List (String × String) × Nat
  | [] => ([], hashes, dup)
  | (d, dr) :: rest =>
    let r := dedupDomainPages hashes dup dr.pages
    let rec' := dedupDomains r.2.1 r.2.2 rest
    ((d, { dr with pages := r.1 }) :: rec'.1, rec'.2.1, rec'.2.2)

/-- `KnowledgeBaseGenerator.remove_duplicate_content` (lines 839‑875); the
`_metadata` key is never in `kb` in this model (metadata is produced as a
separate record below). -/
def removeDuplicateContent (kb : List (String × DomainRec)) :
    List (String × DomainRec) × Nat :=
  let r := dedupDomains [] 0 kb
  (r.1, r.2.2)

/-- `KnowledgeBaseGenerator.crawl_websites` (lines 800‑811), without the final
file write. -/
def crawlWebsites (env : Env) (cfg : Cfg) (fuel : Nat) (urls : List String) (s : CrawlState) :
    CrawlState :=
  let s := urls.foldl (fun s u => crawlWebsite env cfg fuel u s) s
  { s with kb := (removeDuplicateContent s.kb).1 }

/-- The `_metadata` payload built by `add_metadata` (lines 820‑837). -/
structure RunMeta where
  totalDomains : Nat
  totalPages : Nat
  pagesCrawled : Nat
  pagesSkipped : Nat
  errors : Nat
  errorsList : List ErrEntry
deriving DecidableEq, Repr

/-- `KnowledgeBaseGenerator.add_metadata` (lines 820‑837). -/
def addMetadata (s : CrawlState) : RunMeta :=
  { totalDomains := s.kb.length,
    totalPages := (s.kb.map (fun kv => kv.2.pages.length)).sum,
    pagesCrawled := s.statsPagesCrawled,
    pagesSkipped := s.statsPagesSkipped,
    errors := s.statsErrors,
    errorsList := s.errorUrls.take 100 }

/-- An arbitrary interleaving of `crawl_page` calls (used to state run-wide
invariants about the knowledge base). -/
structure CallArgs where
  fuel : Nat
  url : String
  baseUrl : String
  baseDomain : String
  depth : Nat

def runCalls (env : Env) (cfg : Cfg) (calls : List CallArgs) (s : CrawlState) : CrawlState :=
  calls.foldl (fun s c => crawlPage env cfg c.fuel c.url c.baseUrl c.baseDomain c.depth s) s


/-! ## Specification-side description of the deduplication pass (claim C4)

The spec describes the pass through the global occurrence sequence: the first
page (in store-iteration order) to produce a given normalised text owns it; a
later occurrence is dropped when the owner is this page's url and retained
when the owner is a different page's url. -/

/-- Owner of a normalised text in an occurrence list `(url, normText)`:
the url of its first occurrence. -/
def firstOwner (occs : List (String × String)) (h : String) : Option String :=
  (occs.find? (fun o => o.2 == h)).map (fun o => o.1)

/-- Spec-side keep decision for an occurrence of normalised text `h` on the
page with url `u`, given all prior occurrences. -/
def specKeep (prior : List (String × String)) (u h : String) : Bool :=
  match firstOwner prior h with
  | none => true
  | some o => o != u

/-- Spec-side step: keep a paragraph iff its hash is unowned or owned by a
different url; every paragraph becomes an occurrence. -/
def specStep (u : String) (acc : List String × List (String × String)) (p : String) :
    List String × List (String × String) :=
  ((if specKeep acc.2 u (normPara p) then acc.1 ++ [p] else acc.1),
    acc.2 ++ [(u, normPara p)])

def specPageParas (prior : List (String × String)) (u : String) (paras : List String) :
    List String × List (String × String) :=
  paras.foldl (specStep u) ([], prior)

def specDomainPages (prior : List (String × String)) :
    List (String × PageRec) → List (String × PageRec) × List (String × String)
  | [] => ([], prior)
  | (url, pr) :: rest =>
    let r := specPageParas prior url pr.paragraphs
    let rec' := specDomainPages r.2 rest
    ((url, { pr with paragraphs := r.1 }) :: rec'.1, rec'.2)

def specDedupDomains (prior : List (String × String)) :
    List (String × DomainRec) → List (String × DomainRec) × List (String × String)
  | [] => ([], prior)
  | (d, dr) :: rest =>
    let r := specDomainPages prior dr.pages
    let rec' := specDedupDomains r.2 rest
    ((d, { dr with pages := r.1 }) :: rec'.1, rec'.2)

/-- The deduplication pass as the spec words it: first-occurrence ownership,
drop on same-url later occurrences, retain on different-url occurrences. -/
def specDedup (kb : List (String × DomainRec)) : List (String × DomainRec) :=
  (specDedupDomains [] kb).1

/-- Relation between the implementation's `paragraph_hashes` map and the
spec-side list of occurrences seen so far. -/
def HashRel (hashes : List (String × String)) (prior : List (String × String)) : Prop :=
  ∀ h, alistGet? hashes h = firstOwner prior h

theorem hashRel_nil : HashRel [] [] := by
  intro h
  simp [alistGet?, firstOwner]

theorem option_map_or {α β : Type} (f : α → β) (a b : Option α) :
    (a.or b).map f = ((a.map f).or (b.map f)) := by
  cases a <;> simp

theorem alistGet?_append {β : Type} (l1 l2 : List (String × β)) (k : String) :
    alistGet? (l1 ++ l2) k = ((alistGet? l1 k).or (alistGet? l2 k)) := by
  simp only [alistGet?, List.find?_append, option_map_or]

theorem firstOwner_append (o1 o2 : List (String × String)) (h : String) :
    firstOwner (o1 ++ o2) h = ((firstOwner o1 h).or (firstOwner o2 h)) := by
  simp only [firstOwner, List.find?_append, option_map_or]

theorem hashRel_step_new (hashes prior : List (String × String)) (u h : String)
    (hr : HashRel hashes prior) (hn : alistGet? hashes h = none) :
    HashRel (hashes ++ [(h, u)]) (prior ++ [(u, h)]) := by
  intro h'
  rw [alistGet?_append, firstOwner_append, hr h']
  by_cases he : h' = h
  · subst he
    simp [alistGet?, firstOwner]
  · have hne : (h == h') = false := by
      simp only [beq_eq_false_iff_ne, ne_eq]
      exact fun hc => he hc.symm
    have h1 : alistGet? [(h, u)] h' = none := by
      simp [alistGet?, List.find?_cons, hne]
    have h2 : firstOwner [(u, h)] h' = none := by
      simp [firstOwner, List.find?_cons, hne]
    rw [h1, h2]

theorem hashRel_step_seen (hashes prior : List (String × String)) (u h : String) (o : String)
    (hr : HashRel hashes prior) (hs : alistGet? hashes h = some o) :
    HashRel hashes (prior ++ [(u, h)]) := by
  intro h'
  rw [firstOwner_append, hr h']
  by_cases he : h' = h
  · subst he
    rw [← hr h', hs]
    simp
  · have hne : (h == h') = false := by
      simp only [beq_eq_false_iff_ne, ne_eq]
      exact fun hc => he hc.symm
    have h2 : firstOwner [(u, h)] h' = none := by
      simp [firstOwner, List.find?_cons, hne]
    rw [h2]
    rcases firstOwner prior h' with _ | o' <;> simp

theorem dedupStep_eq_specStep (u : String) (out : List String)
    (hashes prior : List (String × String)) (dup : Nat) (p : String)
    (hr : HashRel hashes prior) :
    (dedupStep u (out, hashes, dup) p).1 = (specStep u (out, prior) p).1 ∧
    HashRel (dedupStep u (out, hashes, dup) p).2.1 (specStep u (out, prior) p).2 := by
  rcases hl : alistGet? hashes (normPara p) with _ | owner
  · have hfo : firstOwner prior (normPara p) = none := by rw [← hr, hl]
    have hkt : specKeep prior u (normPara p) = true := by simp [specKeep, hfo]
    constructor
    · simp [dedupStep, specStep, hl, hkt]
    · simp only [dedupStep, specStep, hl, hkt, if_true]
      exact hashRel_step_new hashes prior u (normPara p) hr hl
  · have hfo : firstOwner prior (normPara p) = some owner := by rw [← hr, hl]
    have hk : specKeep prior u (normPara p) = (owner != u) := by simp [specKeep, hfo]
    by_cases ho : owner = u
    · have hkf : specKeep prior u (normPara p) = false := by rw [hk, ho]; simp
      constructor
      · simp [dedupStep, specStep, hl, hkf, ho]
      · simp only [dedupStep, specStep, hl, hkf, ho, ne_eq, not_true_eq_false, if_false,
          Bool.false_eq_true]
        exact hashRel_step_seen hashes prior u (normPara p) u hr (ho ▸ hl)
    · have hkt : specKeep prior u (normPara p) = true := by
        rw [hk]
        simp only [bne_iff_ne, ne_eq]
        exact ho
      constructor
      · simp [dedupStep, specStep, hl, hkt, ho]
      · simp only [dedupStep, specStep, hl, hkt, ho, ne_eq, not_false_iff, if_true]
        exact hashRel_step_seen hashes prior u (normPara p) owner hr hl

theorem dedupFold_eq_specFold (u : String) : ∀ (paras : List String)
    (out : List String) (hashes prior : List (String × String)) (dup : Nat),
    HashRel hashes prior →
    (paras.foldl (dedupStep u) (out, hashes, dup)).1 =
        (paras.foldl (specStep u) (out, prior)).1 ∧
    HashRel (paras.foldl (dedupStep u) (out, hashes, dup)).2.1
        (paras.foldl (specStep u) (out, prior)).2 := by
  intro paras
  induction paras with
  | nil => intro out hashes prior dup hr; exact ⟨rfl, hr⟩
  | cons p ps ih =>
    intro out hashes prior dup hr
    simp only [List.foldl_cons]
    obtain ⟨h1, h2⟩ := dedupStep_eq_specStep u out hashes prior dup p hr
    rcases hi : dedupStep u (out, hashes, dup) p with ⟨o1, hs1, d1⟩
    rcases hsp : specStep u (out, prior) p with ⟨o2, pr2⟩
    rw [hi] at h1 h2
    rw [hsp] at h1 h2
    simp only at h1 h2
    subst h1
    exact ih o1 hs1 pr2 d1 h2

theorem dedupPage_eq_spec (hashes prior : List (String × String)) (u : String)
    (paras : List String) (hr : HashRel hashes prior) :
    (dedupPageParas hashes u paras).1 = (specPageParas prior u paras).1 ∧
    HashRel (dedupPageParas hashes u paras).2.1 (specPageParas prior u paras).2 := by
  exact dedupFold_eq_specFold u paras [] hashes prior 0 hr

theorem dedupDomainPages_eq_spec : ∀ (pages : List (String × PageRec))
    (hashes prior : List (String × String)) (dup : Nat),
    HashRel hashes prior →
    (dedupDomainPages hashes dup pages).1 = (specDomainPages prior pages).1 ∧
    HashRel (dedupDomainPages hashes dup pages).2.1 (specDomainPages prior pages).2 := by
  intro pages
  induction pages with
  | nil => intro hashes prior dup hr; exact ⟨rfl, hr⟩
  | cons upr rest ih =>
    intro hashes prior dup hr
    obtain ⟨url, pr⟩ := upr
    obtain ⟨h1, h2⟩ := dedupPage_eq_spec hashes prior url pr.paragraphs hr
    simp only [dedupDomainPages, specDomainPages]
    obtain ⟨h3, h4⟩ := ih (dedupPageParas hashes url pr.paragraphs).2.1
      (specPageParas prior url pr.paragraphs).2 (dup + (dedupPageParas hashes url pr.paragraphs).2.2) h2
    constructor
    · rw [h1, h3]
    · exact h4

theorem dedupDomains_eq_spec : ∀ (doms : List (String × DomainRec))
    (hashes prior : List (String × String)) (dup : Nat),
    HashRel hashes prior →
    (dedupDomains hashes dup doms).1 = (specDedupDomains prior doms).1 ∧
    HashRel (dedupDomains hashes dup doms).2.1 (specDedupDomains prior doms).2 := by
  intro doms
  induction doms with
  | nil => intro hashes prior dup hr; exact ⟨rfl, hr⟩
  | cons ddr rest ih =>
    intro hashes prior dup hr
    obtain ⟨d, dr⟩ := ddr
    obtain ⟨h1, h2⟩ := dedupDomainPages_eq_spec dr.pages hashes prior dup hr
    simp only [dedupDomains, specDedupDomains]
    obtain ⟨h3, h4⟩ := ih (dedupDomainPages hashes dup dr.pages).2.1
      (specDomainPages prior dr.pages).2 (dedupDomainPages hashes dup dr.pages).2.2 h2
    constructor
    · rw [h1, h3]
    · exact h4

/-- Concrete pages for the spec's dedup example: page A holds the normalised
paragraph "caregiving is hard" twice, page B holds it once. -/
def exPageA : PageRec := ⟨"article", 0, ["Caregiving is hard", "caregiving  IS hard"]⟩

def exPageB : PageRec := ⟨"article", 1, ["caregiving is hard"]⟩

def exKbAB : List (String × DomainRec) :=
  [("example.org", ⟨"https://example.org", [("urlA", exPageA), ("urlB", exPageB)], 2, []⟩)]

/-- C4: in the deduplication pass, the first page in store-iteration order to
produce a given hash owns that hash; a later paragraph with the same hash on
the owner's page is dropped, and a later paragraph with the same hash on a
different page is retained.  Stated as: the implementation pass equals the
spec-side first-owner transform on every knowledge base, together with the
spec's concrete example (cross-page duplicate retained on B, intra-page
duplicate removed from A). -/
theorem dedup_first_owner_semantics :
    (∀ kb : List (String × DomainRec), (removeDuplicateContent kb).1 = specDedup kb) ∧
    (removeDuplicateContent exKbAB).1 =
      [("example.org",
        ⟨"https://example.org",
         [("urlA", ⟨"article", 0, ["Caregiving is hard"]⟩),
          ("urlB", ⟨"article", 1, ["caregiving is hard"]⟩)], 2, []⟩)] := by
  constructor
  · intro kb
    have h := dedupDomains_eq_spec kb [] [] 0 hashRel_nil
    simpa [removeDuplicateContent, specDedup] using h.1
  · decide

/-! ## Claim C6: guarantees of the paragraph extractor -/

/-- How an output entry of the paragraph loop arises from a source text `t0`:
the stripped source passed the >20-character filter and contained no `%\x7b`,
and the entry is the stripped result of placeholder and ad-marker removal. -/
def entryFrom (t0 t : String) : Prop :=
  (pyStrip t0).length > 20 ∧ containsSub "%\x7b" (pyStrip t0) = false ∧
  t = pyStrip (removeAdMarker (removePlaceholdersS (pyStrip t0))) ∧ t ≠ ""

theorem extractStep_out (acc : List String × List String) (t0 : String) :
    (extractStep acc t0).1 = acc.1 ∨
    ∃ t, (extractStep acc t0).1 = acc.1 ++ [t] ∧ entryFrom t0 t := by
  simp only [extractStep]
  split
  · rename_i hcond
    split
    · rename_i hcond2
      right
      refine ⟨pyStrip (removeAdMarker (removePlaceholdersS (pyStrip t0))), rfl, ?_, ?_, rfl, ?_⟩
      · simp only [Bool.and_eq_true, decide_eq_true_eq, Bool.not_eq_true'] at hcond
        exact hcond.1.1.1.1.2
      · simp only [Bool.and_eq_true, decide_eq_true_eq, Bool.not_eq_true'] at hcond
        exact hcond.1.1.1.2
      · simp only [Bool.and_eq_true, decide_eq_true_eq, Bool.not_eq_true'] at hcond2
        exact hcond2.1
    · exact Or.inl rfl
  · exact Or.inl rfl

theorem extract_fold_sources : ∀ (ps : List String) (acc : List String × List String),
    ∀ t ∈ (ps.foldl extractStep acc).1, t ∈ acc.1 ∨ ∃ t0 ∈ ps, entryFrom t0 t := by
  intro ps
  induction ps with
  | nil => intro acc t ht; exact Or.inl ht
  | cons p ps ih =>
    intro acc t ht
    simp only [List.foldl_cons] at ht
    rcases ih (extractStep acc p) t ht with hin | ⟨t0, ht0, hq⟩
    · rcases extractStep_out acc p with he | ⟨t2, he, hq⟩
      · rw [he] at hin
        exact Or.inl hin
      · rw [he] at hin
        rcases List.mem_append.mp hin with h1 | h2
        · exact Or.inl h1
        · right
          refine ⟨p, List.mem_cons_self p ps, ?_⟩
          have : t = t2 := by simpa using h2
          rw [this]
          exact hq
    · exact Or.inr ⟨t0, List.mem_cons_of_mem _ ht0, hq⟩

/-- Invariant of the extraction fold: every collected paragraph's lower-case
form is in `extracted_texts`, and the collected paragraphs are pairwise
distinct case-insensitively. -/
def SeenInv (acc : List String × List String) : Prop :=
  (∀ t ∈ acc.1, acc.2.contains (pyLower t) = true) ∧
  acc.1.Pairwise (fun a b => pyLower a ≠ pyLower b)

theorem extractStep_seenInv (acc : List String × List String) (t0 : String)
    (h : SeenInv acc) : SeenInv (extractStep acc t0) := by
  obtain ⟨hmem, hpw⟩ := h
  simp only [extractStep]
  split
  · split
    · rename_i hcond2
      simp only [Bool.and_eq_true, decide_eq_true_eq, Bool.not_eq_true'] at hcond2
      have hnot : pyLower (pyStrip (removeAdMarker (removePlaceholdersS (pyStrip t0)))) ∉ acc.2 := by
        intro hmem2
        have := List.elem_eq_true_of_mem hmem2
        rw [List.contains] at hcond2
        rw [hcond2.2] at this
        exact Bool.false_ne_true this
      constructor
      · intro t ht
        rcases List.mem_append.mp ht with h1 | h2
        · have := hmem t h1
          simp only [List.contains, List.elem_eq_mem, decide_eq_true_eq] at this ⊢
          exact List.mem_append.mpr (Or.inl this)
        · have : t = pyStrip (removeAdMarker (removePlaceholdersS (pyStrip t0))) := by
            simpa using h2
          rw [this]
          simp
      · rw [List.pairwise_append]
        refine ⟨hpw, List.pairwise_singleton _ _, ?_⟩
        intro a ha b hb
        have hb' : b = pyStrip (removeAdMarker (removePlaceholdersS (pyStrip t0))) := by
          simpa using hb
        rw [hb']
        intro hlow
        apply hnot
        rw [← hlow]
        have := hmem a ha
        simpa using this
    · exact ⟨hmem, hpw⟩
  · exact ⟨hmem, hpw⟩

theorem extract_fold_seenInv : ∀ (ps : List String) (acc : List String × List String),
    SeenInv acc → SeenInv (ps.foldl extractStep acc) := by
  intro ps
  induction ps with
  | nil => intro acc h; exact h
  | cons p ps ih =>
    intro acc h
    simp only [List.foldl_cons]
    exact ih _ (extractStep_seenInv acc p h)

/-- C6 (amended): every entry the extractor emits stems from a source text
whose stripped form is longer than 20 characters and free of `%\x7b`, and is
exactly the stripped result of placeholder/ad-marker removal of that source
(so the length bound holds before the marker stripping, not necessarily
after); and no two entries of one page are case-insensitive duplicates. -/
theorem extract_paragraphs_guarantees (ps : List String) :
    (extractParagraphs ps).Pairwise (fun a b => pyLower a ≠ pyLower b) ∧
    ∀ t ∈ extractParagraphs ps, ∃ t0 ∈ ps, entryFrom t0 t := by
  constructor
  · exact (extract_fold_seenInv ps ([], []) ⟨by simp, List.Pairwise.nil⟩).2
  · intro t ht
    rcases extract_fold_sources ps ([], []) t ht with h | h
    · simp at h
    · exact h

/-- Witness for `extract_paragraphs_guarantees` at a concrete input. -/
theorem extract_paragraphs_guarantees_witness :
    ∃ t0 ∈ ["an example paragraph that is long enough"],
      entryFrom t0 "an example paragraph that is long enough" := by
  refine (extract_paragraphs_guarantees ["an example paragraph that is long enough"]).2
    "an example paragraph that is long enough" ?_
  decide

/-- C6 counterexample: as stated the claim is false — stripping the
"ARTICLE CONTINUES AFTER ADVERTISEMENT" marker happens after the length
check, so an entry can end up shorter than 21 characters, and the removal can
even splice together an unresolved `%\x7b...\x7d%` placeholder. -/
theorem extract_paragraphs_cex :
    extractParagraphs ["xyARTICLE CONTINUES AFTER ADVERTISEMENT"] = ["xy"] ∧
    ("xy" : String).length < 21 ∧
    extractParagraphs ["%ARTICLE CONTINUES AFTER ADVERTISEMENT\x7babc\x7d%plus more chars"] =
      ["%\x7babc\x7d%plus more chars"] ∧
    containsSub "%\x7b" "%\x7babc\x7d%plus more chars" = true := by
  refine ⟨?_, by decide, ?_, by decide⟩ <;> decide

/-! ## Claim C8: classifier determinism -/

/-- C8: `classify_page` is deterministic: two calls with the same
`(url, base_url)` and identical document content give the same label, for any
fixed iteration order of the `avoid_page_types` set — including when the path
matches more than one deny-list term (the result is then the first matching
term in that order). -/
theorem classify_page_deterministic (avoidOrder : List String) (url baseUrl : String)
    (d1 d2 : Option Doc) (h : d1 = d2) :
    classifyPage avoidOrder url baseUrl d1 = classifyPage avoidOrder url baseUrl d2 := by
  rw [h]

/-- Witness: a path matching two deny-list terms still classifies
deterministically (to the first matching term of the order). -/
theorem classify_page_deterministic_witness :
    classifyPage avoidPageTypes "https://x.org/login/search" "https://x.org" none =
      classifyPage avoidPageTypes "https://x.org/login/search" "https://x.org" none ∧
    classifyPage avoidPageTypes "https://x.org/login/search" "https://x.org" none = "login" :=
  ⟨classify_page_deterministic avoidPageTypes "https://x.org/login/search" "https://x.org"
      none none rfl,
   by decide⟩

/-! ## Claim C10: the pre-fetch quota check keys on the candidate URL's netloc -/

def docPlain : Doc := ⟨6, 1200, false, false, 0, [], []⟩

def envC10 : Env :=
  ⟨fun u => if u = "https://www.example.org/x" then some ⟨200, true, docPlain⟩ else none,
   fun _ => true⟩

def cfgC10 : Cfg := ⟨1, true, false⟩

/-- A state in which the seed's domain `example.org` has exhausted its quota. -/
def stateC10 : CrawlState :=
  { initState with
    kb := [("example.org",
            ⟨"https://example.org", [("https://example.org/", ⟨"article", 0, []⟩)], 1,
             [("article", 1)]⟩)] }

/-- C10: `crawl_page` evaluates the pre-fetch quota check on the netloc of the
candidate URL while the record is stored under the netloc of the seed
`base_url`; for an internal link differing by a `www.` prefix (tolerated by
`is_internal_link`), the pre-fetch check consults an absent domain key and
returns true regardless of the seed domain's counts — concretely, with
`example.org` full (`should_crawl_domain = false`), the `www.example.org/x`
link is still fetched. -/
theorem prefetch_quota_uses_candidate_netloc :
    (∀ (kb : List (String × DomainRec)) (cfg : Cfg),
        alistGet? kb "www.example.org" = none →
        shouldCrawlDomain kb cfg "www.example.org" = true) ∧
    isInternalLink "https://www.example.org/x" "example.org" = true ∧
    shouldCrawlDomain stateC10.kb cfgC10 "example.org" = false ∧
    (crawlPage envC10 cfgC10 1 "https://www.example.org/x" "https://example.org"
        "example.org" 1 stateC10).fetched = ["https://www.example.org/x"] ∧
    (crawlPage envC10 cfgC10 1 "https://www.example.org/x" "https://example.org"
        "example.org" 1 stateC10).kb = stateC10.kb := by
  refine ⟨?_, by decide, by decide, by decide, by decide⟩
  intro kb cfg h
  unfold shouldCrawlDomain
  rw [h]

/-- Witness for the quantified part of `prefetch_quota_uses_candidate_netloc`. -/
theorem prefetch_quota_uses_candidate_netloc_witness :
    shouldCrawlDomain stateC10.kb cfgC10 "www.example.org" = true :=
  prefetch_quota_uses_candidate_netloc.1 stateC10.kb cfgC10 (by decide)

/-! ## Claim C3: the end-to-end example scenario -/

/-- Page 1 of the scenario: content-rich (six paragraphs, >1000 characters),
linking to `/toolbox/a` and `/about`. -/
def docSeedC3 : Doc := ⟨6, 1200, false, false, 0, [], ["/toolbox/a", "/about"]⟩

/-- Page `/toolbox/a`: content-rich, with one more outbound link left over. -/
def docAC3 : Doc := ⟨6, 1200, false, false, 0, [], ["/toolbox/b"]⟩

def envC3 : Env :=
  ⟨fun u =>
    if u = "https://example.org/toolbox/" then some ⟨200, true, docSeedC3⟩
    else if u = "https://example.org/toolbox/a" then some ⟨200, true, docAC3⟩
    else none,
   fun _ => true⟩

/-- Quota 2, content-only on, robots off (delay is not part of the state). -/
def cfgC3 : Cfg := ⟨2, true, false⟩

def resC3 : CrawlState := crawlWebsites envC3 cfgC3 5 ["https://example.org/toolbox/"] initState

/-- C3 counterexample: the scenario's premise "page 1 of type resource" fails
on the code — for the seed `https://example.org/toolbox/` the classifier
yields `"article"` (path `toolbox` matches no URL pattern, the content
heuristic fires), never `"resource"`. -/
theorem e2e_seed_not_resource_cex :
    (resC3.kb.map (fun kv => (kv.1,
        (kv.2.pages.map (fun pkv => (pkv.1, pkv.2.ptype)))))) =
      [("example.org",
        [("https://example.org/toolbox/", "article"),
         ("https://example.org/toolbox/a", "article")])] ∧
    ("article" : String) ≠ "resource" := by
  constructor
  · decide
  · decide

/-- C3 (amended: page 1 is of type "article", the only content-rich label the
classifier can give that URL): in the end-to-end scenario with seed
`https://example.org/toolbox/`, quota 2, content-only on, the deny-list link
`/about` is never fetched, `/toolbox/a` is fetched and stored at depth 1, and
once 2 content pages are stored no further fetch occurs even though links
remain (`/about` in the seed's queue, `/toolbox/b` on the last page). -/
theorem e2e_scenario_run :
    resC3.fetched = ["https://example.org/toolbox/", "https://example.org/toolbox/a"] ∧
    ("https://example.org/about" ∈ resC3.fetched) = False ∧
    (resC3.kb.map (fun kv => (kv.1, kv.2.pages))) =
      [("example.org",
        [("https://example.org/toolbox/", ⟨"article", 0, []⟩),
         ("https://example.org/toolbox/a", ⟨"article", 1, []⟩)])] ∧
    contentCount ((resC3.kb.map (fun kv => kv.2.pages)).flatten) = cfgC3.maxPages ∧
    shouldCrawlDomain resC3.kb cfgC3 "example.org" = false ∧
    docAC3.links = ["/toolbox/b"] := by
  refine ⟨by decide, ?_, by decide, by decide, by decide, by decide⟩
  simp only [eq_iff_iff, iff_false]
  decide

/-! ## Association-list lemmas for the run-wide invariants -/

theorem alistHas_false_iff {β : Type} (l : List (String × β)) (k : String) :
    alistHas l k = false ↔ alistGet? l k = none := by
  simp [alistHas, alistGet?, Option.map_eq_none', List.find?_eq_none, List.any_eq_false]

theorem alistGet?_isSome_of_has {β : Type} {l : List (String × β)} {k : String}
    (h : alistHas l k = true) : ∃ v, alistGet? l k = some v := by
  rcases hg : alistGet? l k with _ | v
  · rw [← alistHas_false_iff] at hg
    rw [h] at hg
    exact absurd hg (by simp)
  · exact ⟨v, rfl⟩

theorem alistPut_of_not_has {β : Type} {l : List (String × β)} {k : String} (v : β)
    (h : alistHas l k = false) : alistPut l k v = l ++ [(k, v)] := by
  unfold alistPut
  rw [h]
  simp

/-- Keys are unchanged by a value-only in-place update. -/
theorem mapUpd_keys {β : Type} (l : List (String × β)) (k : String) (f : β → β) :
    (l.map (fun kv => if kv.1 == k then (kv.1, f kv.2) else kv)).map Prod.fst =
      l.map Prod.fst := by
  rw [List.map_map]
  apply List.map_congr_left
  intro kv _
  by_cases hk : kv.1 = k <;> simp [hk]

theorem find?_map_keyfun {β : Type} (g : (String × β) → (String × β))
    (hg : ∀ kv, (g kv).1 = kv.1) (l : List (String × β)) (d : String) :
    (l.map g).find? (fun kv => kv.1 == d) = (l.find? (fun kv => kv.1 == d)).map g := by
  induction l with
  | nil => simp
  | cons kv rest ih =>
    by_cases hd : kv.1 = d
    · rw [List.map_cons, List.find?_cons_of_pos _ (by simp [hg, hd]),
        List.find?_cons_of_pos _ (by simp [hd])]
      simp
    · rw [List.map_cons, List.find?_cons_of_neg _ (by simp [hg, hd]),
        List.find?_cons_of_neg _ (by simp [hd]), ih]

theorem alistGet?_mapUpd {β : Type} (l : List (String × β)) (k d : String) (f : β → β) :
    alistGet? (l.map (fun kv => if kv.1 == k then (kv.1, f kv.2) else kv)) d =
      if d = k then (alistGet? l d).map f else alistGet? l d := by
  have hg : ∀ kv : String × β, ((fun kv => if kv.1 == k then (kv.1, f kv.2) else kv) kv).1 = kv.1 := by
    intro kv
    by_cases hk : kv.1 = k <;> simp [hk]
  rw [alistGet?, find?_map_keyfun _ hg]
  by_cases hdk : d = k
  · subst hdk
    rcases hf : l.find? (fun kv => kv.1 == d) with _ | kv
    · simp [alistGet?, hf]
    · have hkd : kv.1 = d := by
        have := List.find?_some hf
        simpa using this
      simp [alistGet?, hf, hkd]
  · rcases hf : l.find? (fun kv => kv.1 == d) with _ | kv
    · simp [alistGet?, hf, hdk]
    · have hkd : kv.1 = d := by
        have := List.find?_some hf
        simpa using this
      have hne : ¬ (kv.1 = k) := by rw [hkd]; exact hdk
      simp [alistGet?, hf, hdk, hne]

/-! ## Counting lemmas and the run-wide invariant -/

def byTypeCount (bt : List (String × Nat)) (t : String) : Nat :=
  (alistGet? bt t).getD 0

def typeCount (pages : List (String × PageRec)) (t : String) : Nat :=
  (pages.filter (fun kv => kv.2.ptype == t)).length

theorem typeCount_append (pages : List (String × PageRec)) (u : String) (pr : PageRec)
    (t : String) :
    typeCount (pages ++ [(u, pr)]) t =
      typeCount pages t + (if pr.ptype = t then 1 else 0) := by
  simp only [typeCount, List.filter_append, List.length_append]
  by_cases h : pr.ptype = t <;> simp [h]

theorem alistGet?_bumpMap (l : List (String × Nat)) (k d : String) :
    alistGet? (l.map (fun kv => if kv.1 == k then (kv.1, kv.2 + 1) else kv)) d =
      if d = k then (alistGet? l d).map (fun v => v + 1) else alistGet? l d :=
  alistGet?_mapUpd l k d (fun v => v + 1)

theorem byTypeCount_bump (bt : List (String × Nat)) (k t : String) :
    byTypeCount (bumpCount bt k) t = byTypeCount bt t + (if k = t then 1 else 0) := by
  unfold bumpCount
  by_cases hh : alistHas bt k
  · rw [hh]
    simp only [if_true]
    rw [byTypeCount, alistGet?_bumpMap]
    by_cases ht : t = k
    · subst ht
      obtain ⟨v, hv⟩ := alistGet?_isSome_of_has hh
      simp [byTypeCount, hv]
    · have hkt : ¬ (k = t) := fun hc => ht hc.symm
      simp [byTypeCount, ht, hkt]
  · rw [Bool.not_eq_true] at hh
    rw [hh]
    simp only [Bool.false_eq_true, if_false]
    rw [alistHas_false_iff] at hh
    by_cases ht : k = t
    · subst ht
      rw [byTypeCount, alistGet?_append, hh, byTypeCount, hh]
      simp [alistGet?]
    · have h1 : alistGet? [(k, 1)] t = none := by
        have hne : (k == t) = false := by simp [ht]
        simp [alistGet?, List.find?_cons, hne]
      rw [byTypeCount, alistGet?_append, h1, Option.or_none, byTypeCount]
      simp [ht]

theorem contentCount_append (pages : List (String × PageRec)) (u : String) (pr : PageRec) :
    contentCount (pages ++ [(u, pr)]) ≤ contentCount pages + 1 := by
  simp only [contentCount, List.filter_append, List.length_append]
  have : (List.filter (fun kv => contentPageTypes.contains (pyLower kv.2.ptype)) [(u, pr)]).length ≤ 1 :=
    le_trans (List.length_filter_le _ _) (by simp)
  omega

/-- Run-wide invariant of the crawler state over `crawl_page` executions. -/
structure CrawlInv (cfg : Cfg) (s : CrawlState) : Prop where
  kbKeys : (s.kb.map Prod.fst).Nodup
  pageKeys : ∀ d dr, alistGet? s.kb d = some dr → (dr.pages.map Prod.fst).Nodup
  quota : ∀ d dr, alistGet? s.kb d = some dr →
    contentCount dr.pages ≤ cfg.maxPages ∧ dr.pages.length ≤ cfg.maxPages * 3
  pagesVisited : ∀ d dr, alistGet? s.kb d = some dr → ∀ kv ∈ dr.pages, kv.1 ∈ s.visited
  fetchedNodup : s.fetched.Nodup
  fetchedVisited : ∀ u ∈ s.fetched, u ∈ s.visited
  errCount : s.statsErrors = s.errorUrls.length

/-- `by_type` agrees with the multiset of `type` values over `pages`. -/
def BTConsistent (s : CrawlState) : Prop :=
  ∀ d dr, alistGet? s.kb d = some dr → ∀ t, byTypeCount dr.byType t = typeCount dr.pages t

theorem inv_init (cfg : Cfg) : CrawlInv cfg initState := by
  constructor <;> simp [initState, alistGet?]

theorem btc_init : BTConsistent initState := by
  intro d dr h
  simp [initState, alistGet?] at h

theorem inv_skip {cfg : Cfg} {s : CrawlState} (h : CrawlInv cfg s) :
    CrawlInv cfg { s with statsPagesSkipped := s.statsPagesSkipped + 1 } := by
  obtain ⟨h1, h2, h3, h4, h5, h6, h7⟩ := h
  exact ⟨h1, h2, h3, h4, h5, h6, h7⟩

theorem inv_err {cfg : Cfg} {s : CrawlState} (e : ErrEntry) (h : CrawlInv cfg s) :
    CrawlInv cfg { s with errorUrls := s.errorUrls ++ [e],
                          statsErrors := s.statsErrors + 1 } := by
  obtain ⟨h1, h2, h3, h4, h5, h6, h7⟩ := h
  refine ⟨h1, h2, h3, h4, h5, h6, ?_⟩
  simp only [List.length_append, List.length_cons, List.length_nil]
  omega

theorem inv_addVisited {cfg : Cfg} {s : CrawlState} {url : String} (h : CrawlInv cfg s)
    (hnv : s.visited.contains url = false) :
    CrawlInv cfg { s with visited := s.visited ++ [url], fetched := s.fetched ++ [url] } := by
  obtain ⟨h1, h2, h3, h4, h5, h6, h7⟩ := h
  have hurlnot : url ∉ s.visited := by
    intro hmem
    have := List.elem_eq_true_of_mem hmem
    rw [List.contains] at hnv
    rw [hnv] at this
    exact Bool.false_ne_true this
  refine ⟨h1, h2, h3, ?_, ?_, ?_, h7⟩
  · intro d dr hd kv hkv
    exact List.mem_append.mpr (Or.inl (h4 d dr hd kv hkv))
  · rw [List.nodup_append]
    refine ⟨h5, List.nodup_singleton _, ?_⟩
    intro a ha hb
    have : a = url := by simpa using hb
    subst this
    exact hurlnot (h6 a ha)
  · intro u hu
    rcases List.mem_append.mp hu with hl | hr
    · exact List.mem_append.mpr (Or.inl (h6 u hl))
    · exact List.mem_append.mpr (Or.inr hr)

theorem appendNew_lookup {β : Type} (kb : List (String × β)) (d d' : String) (v : β)
    (dr : β) (hd' : alistGet? (kb ++ [(d, v)]) d' = some dr) :
    alistGet? kb d' = some dr ∨ dr = v := by
  rw [alistGet?_append] at hd'
  rcases hg : alistGet? kb d' with _ | dr0
  · rw [hg] at hd'
    simp only [Option.none_or] at hd'
    right
    by_cases hdd : d = d'
    · simp [alistGet?, hdd] at hd'
      exact hd'.symm
    · have : (d == d') = false := by simp [hdd]
      simp [alistGet?, this] at hd'
  · rw [hg] at hd'
    simp only [Option.or_some, Option.some.injEq] at hd'
    subst hd'
    exact Or.inl rfl

theorem btc_ensure {s : CrawlState} {d b : String} (h : BTConsistent s) :
    BTConsistent (ensureDomain s d b) := by
  unfold ensureDomain
  split
  · exact h
  · intro d' dr hd' t
    simp only at hd'
    rcases appendNew_lookup s.kb d d' _ dr hd' with hg | hg
    · exact h d' dr hg t
    · rw [hg]
      simp [byTypeCount, typeCount, alistGet?]

theorem inv_ensure {cfg : Cfg} {s : CrawlState} {d b : String} (h : CrawlInv cfg s) :
    CrawlInv cfg (ensureDomain s d b) := by
  obtain ⟨h1, h2, h3, h4, h5, h6, h7⟩ := h
  unfold ensureDomain
  split
  · exact ⟨h1, h2, h3, h4, h5, h6, h7⟩
  · rename_i hhas
    rw [Bool.not_eq_true] at hhas
    refine ⟨?_, ?_, ?_, ?_, h5, h6, h7⟩
    · simp only [List.map_append, List.map_cons, List.map_nil]
      rw [List.nodup_append]
      refine ⟨h1, List.nodup_singleton _, ?_⟩
      intro a ha hb
      have had : a = d := by simpa using hb
      subst had
      rcases List.mem_map.mp ha with ⟨kv, hkv, hfst⟩
      have hany : s.kb.any (fun kv => kv.1 == a) = true := by
        rw [List.any_eq_true]
        exact ⟨kv, hkv, by simp [hfst]⟩
      rw [alistHas] at hhas
      rw [hhas] at hany
      exact Bool.false_ne_true hany
    · intro d' dr hd'
      rcases appendNew_lookup s.kb d d' _ dr hd' with hg | hg
      · exact h2 d' dr hg
      · rw [hg]; simp
    · intro d' dr hd'
      rcases appendNew_lookup s.kb d d' _ dr hd' with hg | hg
      · exact h3 d' dr hg
      · rw [hg]
        constructor <;> simp [contentCount]
    · intro d' dr hd' kv hkv
      rcases appendNew_lookup s.kb d d' _ dr hd' with hg | hg
      · exact h4 d' dr hg kv hkv
      · rw [hg] at hkv
        simp at hkv

theorem storePage_kb_lookup (s : CrawlState) (domain url : String) (pr : PageRec) (d : String) :
    alistGet? (storePage s domain url pr).kb d =
      if d = domain then
        (alistGet? s.kb d).map (fun dr =>
          { dr with pages := alistPut dr.pages url pr,
                    pagesCrawledStat := dr.pagesCrawledStat + 1,
                    byType := bumpCount dr.byType pr.ptype })
      else alistGet? s.kb d :=
  alistGet?_mapUpd s.kb domain d (fun dr =>
    { dr with pages := alistPut dr.pages url pr,
              pagesCrawledStat := dr.pagesCrawledStat + 1,
              byType := bumpCount dr.byType pr.ptype })

theorem storePage_kb_keys (s : CrawlState) (domain url : String) (pr : PageRec) :
    (storePage s domain url pr).kb.map Prod.fst = s.kb.map Prod.fst :=
  mapUpd_keys s.kb domain (fun dr =>
    { dr with pages := alistPut dr.pages url pr,
              pagesCrawledStat := dr.pagesCrawledStat + 1,
              byType := bumpCount dr.byType pr.ptype })

theorem alistHas_false_of_fresh {β : Type} {l : List (String × β)} {k : String}
    (h : ∀ kv ∈ l, kv.1 ≠ k) : alistHas l k = false := by
  rw [alistHas, List.any_eq_false]
  intro kv hkv
  simpa using h kv hkv

theorem shouldCrawl_true_bounds {kb : List (String × DomainRec)} {cfg : Cfg} {d : String}
    {dr : DomainRec} (hq : shouldCrawlDomain kb cfg d = true)
    (hg : alistGet? kb d = some dr) :
    contentCount dr.pages < cfg.maxPages ∧ dr.pages.length < cfg.maxPages * 3 := by
  unfold shouldCrawlDomain at hq
  rw [hg] at hq
  by_cases h1 : contentCount dr.pages ≥ cfg.maxPages
  · simp [h1] at hq
  · by_cases h2 : dr.pages.length ≥ cfg.maxPages * 3
    · simp [h1, h2] at hq
    · omega

theorem inv_store {cfg : Cfg} {s : CrawlState} {domain url : String} (pr : PageRec)
    (h : CrawlInv cfg s) (hvis : url ∈ s.visited)
    (hfresh : ∀ dr, alistGet? s.kb domain = some dr → ∀ kv ∈ dr.pages, kv.1 ≠ url)
    (hq : shouldCrawlDomain s.kb cfg domain = true) :
    CrawlInv cfg (storePage s domain url pr) := by
  obtain ⟨h1, h2, h3, h4, h5, h6, h7⟩ := h
  refine ⟨?_, ?_, ?_, ?_, h5, h6, h7⟩
  · rw [storePage_kb_keys]
    exact h1
  · intro d' dr' hd'
    rw [storePage_kb_lookup] at hd'
    by_cases hdd : d' = domain
    · rw [if_pos hdd] at hd'
      subst hdd
      rcases hg : alistGet? s.kb d' with _ | dr0
      · rw [hg] at hd'; simp at hd'
      · rw [hg] at hd'
        simp only [Option.map_some', Option.some.injEq] at hd'
        subst hd'
        simp only
        rw [alistPut_of_not_has pr (alistHas_false_of_fresh (hfresh dr0 hg))]
        simp only [List.map_append, List.map_cons, List.map_nil]
        rw [List.nodup_append]
        refine ⟨h2 d' dr0 hg, List.nodup_singleton _, ?_⟩
        intro a ha hb
        have : a = url := by simpa using hb
        subst this
        rcases List.mem_map.mp ha with ⟨kv, hkv, hfst⟩
        exact (hfresh dr0 hg kv hkv) hfst
    · rw [if_neg hdd] at hd'
      exact h2 d' dr' hd'
  · intro d' dr' hd'
    rw [storePage_kb_lookup] at hd'
    by_cases hdd : d' = domain
    · rw [if_pos hdd] at hd'
      subst hdd
      rcases hg : alistGet? s.kb d' with _ | dr0
      · rw [hg] at hd'; simp at hd'
      · rw [hg] at hd'
        simp only [Option.map_some', Option.some.injEq] at hd'
        subst hd'
        obtain ⟨hb1, hb2⟩ := shouldCrawl_true_bounds hq hg
        simp only
        rw [alistPut_of_not_has pr (alistHas_false_of_fresh (hfresh dr0 hg))]
        constructor
        · have := contentCount_append dr0.pages url pr
          omega
        · simp only [List.length_append, List.length_cons, List.length_nil]
          omega
    · rw [if_neg hdd] at hd'
      exact h3 d' dr' hd'
  · intro d' dr' hd' kv hkv
    rw [storePage_kb_lookup] at hd'
    by_cases hdd : d' = domain
    · rw [if_pos hdd] at hd'
      subst hdd
      rcases hg : alistGet? s.kb d' with _ | dr0
      · rw [hg] at hd'; simp at hd'
      · rw [hg] at hd'
        simp only [Option.map_some', Option.some.injEq] at hd'
        subst hd'
        simp only at hkv
        rw [alistPut_of_not_has pr (alistHas_false_of_fresh (hfresh dr0 hg))] at hkv
        rcases List.mem_append.mp hkv with hl | hr
        · exact h4 d' dr0 hg kv hl
        · have : kv = (url, pr) := by simpa using hr
          rw [this]
          exact hvis
    · rw [if_neg hdd] at hd'
      exact h4 d' dr' hd' kv hkv

theorem btc_store {s : CrawlState} {domain url : String} (pr : PageRec)
    (h : BTConsistent s)
    (hfresh : ∀ dr, alistGet? s.kb domain = some dr → ∀ kv ∈ dr.pages, kv.1 ≠ url) :
    BTConsistent (storePage s domain url pr) := by
  intro d' dr' hd' t
  rw [storePage_kb_lookup] at hd'
  by_cases hdd : d' = domain
  · rw [if_pos hdd] at hd'
    subst hdd
    rcases hg : alistGet? s.kb d' with _ | dr0
    · rw [hg] at hd'; simp at hd'
    · rw [hg] at hd'
      simp only [Option.map_some', Option.some.injEq] at hd'
      subst hd'
      simp only
      rw [alistPut_of_not_has pr (alistHas_false_of_fresh (hfresh dr0 hg))]
      rw [byTypeCount_bump, typeCount_append, h d' dr0 hg t]
  · rw [if_neg hdd] at hd'
    exact h d' dr' hd' t

theorem foldl_preserveState {α : Type} (P : CrawlState → Prop) (f : CrawlState → α → CrawlState)
    (hstep : ∀ s a, P s → P (f s a)) : ∀ (l : List α) (s : CrawlState), P s → P (l.foldl f s) := by
  intro l
  induction l with
  | nil => intro s h; exact h
  | cons a as ih => intro s h; exact ih (f s a) (hstep s a h)

theorem mem_of_contains_true {l : List String} {a : String} (h : l.contains a = true) :
    a ∈ l := by
  simpa using h

theorem not_mem_of_contains_false {l : List String} {a : String} (h : ¬ l.contains a = true) :
    a ∉ l := by
  intro hmem
  exact h (by simpa using hmem)

theorem fresh_after_ensure {cfg : Cfg} {s : CrawlState} (url domain baseUrl : String)
    (h : CrawlInv cfg s) (hnv : url ∉ s.visited) :
    ∀ dr, alistGet? (ensureDomain
        { s with visited := s.visited ++ [url], fetched := s.fetched ++ [url] }
        domain baseUrl).kb domain = some dr →
      ∀ kv ∈ dr.pages, kv.1 ≠ url := by
  intro dr hd kv hkv
  unfold ensureDomain at hd
  split at hd
  · simp only at hd
    intro hc
    subst hc
    exact hnv (h.pagesVisited domain dr hd kv hkv)
  · simp only at hd
    rcases appendNew_lookup s.kb domain domain _ dr hd with hg | hg
    · intro hc
      subst hc
      exact hnv (h.pagesVisited domain dr hg kv hkv)
    · rw [hg] at hkv
      simp at hkv

theorem crawlPage_preserves (env : Env) (cfg : Cfg) : ∀ (fuel : Nat) (url b bd : String)
    (dep : Nat) (s : CrawlState), CrawlInv cfg s → BTConsistent s →
    CrawlInv cfg (crawlPage env cfg fuel url b bd dep s) ∧
      BTConsistent (crawlPage env cfg fuel url b bd dep s) := by
  intro fuel
  induction fuel with
  | zero => intro url b bd dep s h1 h2; exact ⟨h1, h2⟩
  | succ fuel ih =>
    intro url b bd dep s h1 h2
    simp only [crawlPage]
    split
    · exact ⟨h1, h2⟩
    · rename_i hnv
      split
      · exact ⟨inv_skip h1, h2⟩
      · split
        · exact ⟨inv_skip h1, h2⟩
        · have hnv' : cleanUrl url ∉ s.visited := not_mem_of_contains_false hnv
          have hnvb : s.visited.contains (cleanUrl url) = false := by
            rw [Bool.not_eq_true] at hnv
            exact hnv
          have hInv1 : CrawlInv cfg
              { s with visited := s.visited ++ [cleanUrl url],
                       fetched := s.fetched ++ [cleanUrl url] } :=
            inv_addVisited h1 hnvb
          have hBT1 : BTConsistent
              { s with visited := s.visited ++ [cleanUrl url],
                       fetched := s.fetched ++ [cleanUrl url] } := h2
          split
          · exact ⟨inv_err _ hInv1, hBT1⟩
          · rename_i r _
            split
            · exact ⟨inv_err _ hInv1, hBT1⟩
            · split
              · exact ⟨inv_skip hInv1, hBT1⟩
              · split
                · exact ⟨inv_skip hInv1, hBT1⟩
                · have hInv2 : CrawlInv cfg (ensureDomain
                      { s with visited := s.visited ++ [cleanUrl url],
                               fetched := s.fetched ++ [cleanUrl url] }
                      (getDomain b) b) := inv_ensure hInv1
                  have hBT2 : BTConsistent (ensureDomain
                      { s with visited := s.visited ++ [cleanUrl url],
                               fetched := s.fetched ++ [cleanUrl url] }
                      (getDomain b) b) := btc_ensure hBT1
                  split
                  · exact ⟨inv_skip hInv2, hBT2⟩
                  · rename_i hq
                    rw [Bool.not_eq_true', Bool.not_eq_false] at hq
                    have hvis : cleanUrl url ∈ (ensureDomain
                        { s with visited := s.visited ++ [cleanUrl url],
                                 fetched := s.fetched ++ [cleanUrl url] }
                        (getDomain b) b).visited := by
                      unfold ensureDomain
                      split <;> simp
                    have hfresh := fresh_after_ensure (cleanUrl url)
                      (getDomain b) b h1 hnv'
                    have hInv3 := inv_store ⟨classifyPage avoidPageTypes (cleanUrl url) b
                        (some r.doc), dep, extractParagraphs r.doc.containerParas⟩
                      hInv2 hvis hfresh hq
                    have hBT3 := btc_store ⟨classifyPage avoidPageTypes (cleanUrl url) b
                        (some r.doc), dep, extractParagraphs r.doc.containerParas⟩
                      hBT2 hfresh
                    split
                    · exact ⟨hInv3, hBT3⟩
                    · refine foldl_preserveState
                        (fun st => CrawlInv cfg st ∧ BTConsistent st) _ ?_ _ _
                        (foldl_preserveState
                          (fun st => CrawlInv cfg st ∧ BTConsistent st) _ ?_ _ _
                          ⟨hInv3, hBT3⟩)
                      · intro st n hst
                        split
                        · exact ih n b bd (dep + 1) st hst.1 hst.2
                        · exact hst
                      · intro st n hst
                        split
                        · exact ih n b bd (dep + 1) st hst.1 hst.2
                        · exact hst

theorem runCalls_preserves (env : Env) (cfg : Cfg) (calls : List CallArgs) :
    CrawlInv cfg (runCalls env cfg calls initState) ∧
      BTConsistent (runCalls env cfg calls initState) := by
  unfold runCalls
  exact foldl_preserveState (fun st => CrawlInv cfg st ∧ BTConsistent st) _
    (fun s c h => crawlPage_preserves env cfg c.fuel c.url c.baseUrl c.baseDomain c.depth s h.1 h.2)
    calls initState ⟨inv_init cfg, btc_init⟩

/-! ## Claim C1: domain quotas -/

/-- C1: over any sequence of `crawl_page` calls with configured quota `Q`, a
domain never stores more than `Q` content-typed pages nor more than `3Q` pages
in total; `should_crawl_domain` is false once content count ≥ `Q` or total
count ≥ `3Q`, and true for a domain not yet present. -/
theorem domain_quota_invariant :
    (∀ (env : Env) (cfg : Cfg) (calls : List CallArgs) (d : String) (dr : DomainRec),
        alistGet? (runCalls env cfg calls initState).kb d = some dr →
        contentCount dr.pages ≤ cfg.maxPages ∧ dr.pages.length ≤ cfg.maxPages * 3) ∧
    (∀ (kb : List (String × DomainRec)) (cfg : Cfg) (d : String),
        alistGet? kb d = none → shouldCrawlDomain kb cfg d = true) ∧
    (∀ (kb : List (String × DomainRec)) (cfg : Cfg) (d : String) (dr : DomainRec),
        alistGet? kb d = some dr →
        cfg.maxPages ≤ contentCount dr.pages ∨ cfg.maxPages * 3 ≤ dr.pages.length →
        shouldCrawlDomain kb cfg d = false) := by
  refine ⟨?_, ?_, ?_⟩
  · intro env cfg calls d dr hd
    exact (runCalls_preserves env cfg calls).1.quota d dr hd
  · intro kb cfg d h
    unfold shouldCrawlDomain
    rw [h]
  · intro kb cfg d dr hd hdisj
    unfold shouldCrawlDomain
    rw [hd]
    rcases hdisj with hc | ht
    · simp [hc]
    · simp [ht]

def callsW : List CallArgs :=
  [⟨5, "https://example.org/toolbox/", "https://example.org", "example.org", 0⟩]

/-- Witness for `domain_quota_invariant` on a concrete two-page run. -/
theorem domain_quota_invariant_witness :
    (contentCount
        (⟨"https://example.org",
          [("https://example.org/toolbox/", ⟨"article", 0, []⟩),
           ("https://example.org/toolbox/a", ⟨"article", 1, []⟩)], 2,
          [("article", 2)]⟩ : DomainRec).pages ≤ cfgC3.maxPages ∧
      (⟨"https://example.org",
        [("https://example.org/toolbox/", ⟨"article", 0, []⟩),
         ("https://example.org/toolbox/a", ⟨"article", 1, []⟩)], 2,
        [("article", 2)]⟩ : DomainRec).pages.length ≤ cfgC3.maxPages * 3) ∧
    shouldCrawlDomain ([] : List (String × DomainRec)) cfgC3 "example.org" = true ∧
    shouldCrawlDomain stateC10.kb cfgC10 "example.org" = false := by
  refine ⟨?_, ?_, ?_⟩
  · exact domain_quota_invariant.1 envC3 cfgC3 callsW "example.org" _ (by decide)
  · exact domain_quota_invariant.2.1 [] cfgC3 "example.org" (by decide)
  · exact domain_quota_invariant.2.2 stateC10.kb cfgC10 "example.org"
      ⟨"https://example.org", [("https://example.org/", ⟨"article", 0, []⟩)], 1,
       [("article", 1)]⟩ (by decide) (by decide)

/-! ## Claim C2: no URL fetched twice -/

/-- C2: `crawl_page` returns with no side effect when the cleaned URL is
already visited; the URL joins the visited set before the fetch is issued
(every fetched URL is visited and no URL is fetched twice); and no URL occurs
twice as a key of any domain's pages map. -/
theorem no_url_fetched_twice :
    (∀ (env : Env) (cfg : Cfg) (fuel : Nat) (url b bd : String) (dep : Nat) (s : CrawlState),
        cleanUrl url ∈ s.visited → crawlPage env cfg fuel url b bd dep s = s) ∧
    (∀ (env : Env) (cfg : Cfg) (calls : List CallArgs),
        (runCalls env cfg calls initState).fetched.Nodup ∧
        (∀ u ∈ (runCalls env cfg calls initState).fetched,
            u ∈ (runCalls env cfg calls initState).visited) ∧
        (∀ d dr, alistGet? (runCalls env cfg calls initState).kb d = some dr →
            (dr.pages.map Prod.fst).Nodup)) := by
  constructor
  · intro env cfg fuel url b bd dep s hv
    cases fuel with
    | zero => rfl
    | succ f =>
      have hc : s.visited.contains (cleanUrl url) = true := by simpa using hv
      simp only [crawlPage, hc, eq_self_iff_true, if_true]
  · intro env cfg calls
    obtain ⟨hInv, -⟩ := runCalls_preserves env cfg calls
    exact ⟨hInv.fetchedNodup, hInv.fetchedVisited, hInv.pageKeys⟩

def sVisitedW : CrawlState := { initState with visited := ["https://example.org/toolbox/"] }

/-- Witness for `no_url_fetched_twice` at concrete inputs. -/
theorem no_url_fetched_twice_witness :
    crawlPage envC3 cfgC3 3 "https://example.org/toolbox/" "https://example.org"
        "example.org" 0 sVisitedW = sVisitedW ∧
    (runCalls envC3 cfgC3 callsW initState).fetched.Nodup := by
  constructor
  · exact no_url_fetched_twice.1 envC3 cfgC3 3 "https://example.org/toolbox/"
      "https://example.org" "example.org" 0 sVisitedW (by decide)
  · exact (no_url_fetched_twice.2 envC3 cfgC3 callsW).1

/-! ## Claim C7: by_type consistency and the stats reset -/

theorem alistHas_true_of_get {β : Type} {l : List (String × β)} {k : String} {v : β}
    (h : alistGet? l k = some v) : alistHas l k = true := by
  rcases hh : alistHas l k
  · rw [alistHas_false_iff] at hh
    rw [h] at hh
    exact absurd hh (by simp)
  · rfl

/-- C7 (amended): over any sequence of `crawl_page` calls each domain's
`stats.by_type` agrees with the multiset of `type` values over its `pages`
map (both updated together on each store); and `crawl_website` resets a
present domain's stats (`pages_crawled := 0`, `by_type := {}`) — after such a
reset of a domain that already holds pages the agreement is with pages stored
since the reset, not with the whole map. -/
theorem by_type_consistency_and_reset :
    (∀ (env : Env) (cfg : Cfg) (calls : List CallArgs) (d : String) (dr : DomainRec),
        alistGet? (runCalls env cfg calls initState).kb d = some dr →
        ∀ t, byTypeCount dr.byType t = typeCount dr.pages t) ∧
    (∀ (s : CrawlState) (bd : String) (dr : DomainRec),
        alistGet? s.kb bd = some dr →
        alistGet? (resetDomainStats s bd).kb bd =
          some { dr with pagesCrawledStat := 0, byType := [] }) := by
  constructor
  · intro env cfg calls d dr hd t
    exact (runCalls_preserves env cfg calls).2 d dr hd t
  · intro s bd dr hd
    unfold resetDomainStats
    rw [alistHas_true_of_get hd]
    simp only [if_true]
    have := alistGet?_mapUpd s.kb bd bd
      (fun dr => { dr with pagesCrawledStat := 0, byType := [] })
    rw [this, if_pos rfl, hd]
    rfl

def envC7 : Env :=
  ⟨fun u =>
    if u = "https://example.org/a/" then some ⟨200, true, docPlain⟩
    else if u = "https://example.org/b/" then some ⟨200, true, docPlain⟩
    else none,
   fun _ => true⟩

def cfgC7 : Cfg := ⟨50, true, false⟩

def resC7 : CrawlState :=
  crawlWebsites envC7 cfgC7 3 ["https://example.org/a/", "https://example.org/b/"] initState

/-- C7 counterexample: after a second seed crawl of the same domain the reset
leaves `by_type` counting only pages stored since the reset, so it disagrees
with the multiset of `type` values over the whole `pages` map. -/
theorem by_type_reset_inconsistency_cex :
    alistGet? resC7.kb "example.org" =
      some ⟨"https://example.org",
            [("https://example.org/a/", ⟨"article", 0, []⟩),
             ("https://example.org/b/", ⟨"article", 0, []⟩)], 1,
            [("article", 1)]⟩ ∧
    byTypeCount [("article", 1)] "article" = 1 ∧
    typeCount [("https://example.org/a/", (⟨"article", 0, []⟩ : PageRec)),
               ("https://example.org/b/", (⟨"article", 0, []⟩ : PageRec))] "article" = 2 ∧
    (1 : Nat) ≠ 2 := by
  refine ⟨by decide, by decide, by decide, by decide⟩

/-- Witness for `by_type_consistency_and_reset` at concrete inputs. -/
theorem by_type_consistency_and_reset_witness :
    byTypeCount [("article", 2)] "article" =
      typeCount [("https://example.org/toolbox/", (⟨"article", 0, []⟩ : PageRec)),
                 ("https://example.org/toolbox/a", (⟨"article", 1, []⟩ : PageRec))] "article" ∧
    alistGet? (resetDomainStats stateC10 "example.org").kb "example.org" =
      some ⟨"https://example.org", [("https://example.org/", ⟨"article", 0, []⟩)], 0, []⟩ := by
  constructor
  · exact by_type_consistency_and_reset.1 envC3 cfgC3 callsW "example.org"
      ⟨"https://example.org",
       [("https://example.org/toolbox/", ⟨"article", 0, []⟩),
        ("https://example.org/toolbox/a", ⟨"article", 1, []⟩)], 2,
       [("article", 2)]⟩ (by decide) "article"
  · exact by_type_consistency_and_reset.2 stateC10 "example.org"
      ⟨"https://example.org", [("https://example.org/", ⟨"article", 0, []⟩)], 1,
       [("article", 1)]⟩ (by decide)

/-! ## Claim C9: skip/error counter discipline and metadata -/

/-- C9: quota-exhausted and robots-disallowed outcomes increment
`pages_skipped` and leave the error counter and error log untouched; a failed
fetch (exception or non-200 status) appends to the error log and increments
`errors`; the metadata's `errors` list is exactly the first
`min(n, 100)` entries of the error log, and `statistics.errors` equals the
full error count (which always equals the error log's length over a run). -/
theorem skip_error_counter_discipline :
    (∀ (env : Env) (cfg : Cfg) (f : Nat) (url b bd : String) (dep : Nat) (s : CrawlState),
        s.visited.contains (cleanUrl url) = false →
        shouldCrawlDomain s.kb cfg (getDomain (cleanUrl url)) = false →
        crawlPage env cfg (f + 1) url b bd dep s =
          { s with statsPagesSkipped := s.statsPagesSkipped + 1 }) ∧
    (∀ (env : Env) (cfg : Cfg) (f : Nat) (url b bd : String) (dep : Nat) (s : CrawlState),
        s.visited.contains (cleanUrl url) = false →
        shouldCrawlDomain s.kb cfg (getDomain (cleanUrl url)) = true →
        cfg.respectRobots = true → env.robotsAllowed (cleanUrl url) = false →
        crawlPage env cfg (f + 1) url b bd dep s =
          { s with statsPagesSkipped := s.statsPagesSkipped + 1 }) ∧
    (∀ (env : Env) (cfg : Cfg) (f : Nat) (url b bd : String) (dep : Nat) (s : CrawlState),
        s.visited.contains (cleanUrl url) = false →
        shouldCrawlDomain s.kb cfg (getDomain (cleanUrl url)) = true →
        (cfg.respectRobots && !env.robotsAllowed (cleanUrl url)) = false →
        env.fetch (cleanUrl url) = none →
        crawlPage env cfg (f + 1) url b bd dep s =
          { s with visited := s.visited ++ [cleanUrl url],
                   fetched := s.fetched ++ [cleanUrl url],
                   errorUrls := s.errorUrls ++
                     [⟨cleanUrl url, "Error crawling " ++ cleanUrl url⟩],
                   statsErrors := s.statsErrors + 1 }) ∧
    (∀ (env : Env) (cfg : Cfg) (f : Nat) (url b bd : String) (dep : Nat) (s : CrawlState)
        (r : FetchRes),
        s.visited.contains (cleanUrl url) = false →
        shouldCrawlDomain s.kb cfg (getDomain (cleanUrl url)) = true →
        (cfg.respectRobots && !env.robotsAllowed (cleanUrl url)) = false →
        env.fetch (cleanUrl url) = some r → r.status ≠ 200 →
        crawlPage env cfg (f + 1) url b bd dep s =
          { s with visited := s.visited ++ [cleanUrl url],
                   fetched := s.fetched ++ [cleanUrl url],
                   errorUrls := s.errorUrls ++
                     [⟨cleanUrl url, "Failed to fetch " ++ cleanUrl url ++
                        ": Status code " ++ toString r.status⟩],
                   statsErrors := s.statsErrors + 1 }) ∧
    (∀ s : CrawlState, (addMetadata s).errorsList = s.errorUrls.take 100 ∧
        (addMetadata s).errors = s.statsErrors) ∧
    (∀ (env : Env) (cfg : Cfg) (calls : List CallArgs),
        (runCalls env cfg calls initState).statsErrors =
          (runCalls env cfg calls initState).errorUrls.length) := by
  refine ⟨?_, ?_, ?_, ?_, ?_, ?_⟩
  · intro env cfg f url b bd dep s hnv hq
    have hnm : cleanUrl url ∉ s.visited := by
      intro hmem
      have hel := List.elem_eq_true_of_mem hmem
      rw [List.contains] at hnv
      rw [hnv] at hel
      exact Bool.false_ne_true hel
    simp [crawlPage, hnv, hnm, hq]
  · intro env cfg f url b bd dep s hnv hq hr1 hr2
    have hnm : cleanUrl url ∉ s.visited := by
      intro hmem
      have hel := List.elem_eq_true_of_mem hmem
      rw [List.contains] at hnv
      rw [hnv] at hel
      exact Bool.false_ne_true hel
    simp [crawlPage, hnv, hnm, hq, hr1, hr2]
  · intro env cfg f url b bd dep s hnv hq hrp hf
    have hnm : cleanUrl url ∉ s.visited := by
      intro hmem
      have hel := List.elem_eq_true_of_mem hmem
      rw [List.contains] at hnv
      rw [hnv] at hel
      exact Bool.false_ne_true hel
    simp [crawlPage, hnv, hnm, hq, hrp, hf]
  · intro env cfg f url b bd dep s r hnv hq hrp hf hs
    have hnm : cleanUrl url ∉ s.visited := by
      intro hmem
      have hel := List.elem_eq_true_of_mem hmem
      rw [List.contains] at hnv
      rw [hnv] at hel
      exact Bool.false_ne_true hel
    simp [crawlPage, hnv, hnm, hq, hrp, hf, hs]
  · intro s
    exact ⟨rfl, rfl⟩
  · intro env cfg calls
    exact (runCalls_preserves env cfg calls).1.errCount

def envFailW : Env := ⟨fun _ => some ⟨404, true, docPlain⟩, fun _ => true⟩

/-- Witness for `skip_error_counter_discipline` at concrete inputs. -/
theorem skip_error_counter_discipline_witness :
    crawlPage envC10 cfgC10 1 "https://example.org/more" "https://example.org"
        "example.org" 1 stateC10 =
      { stateC10 with statsPagesSkipped := stateC10.statsPagesSkipped + 1 } ∧
    crawlPage envFailW cfgC10 1 "https://example.org/gone" "https://example.org"
        "example.org" 1 initState =
      { initState with
        visited := ["https://example.org/gone"],
        fetched := ["https://example.org/gone"],
        errorUrls := [⟨"https://example.org/gone",
          "Failed to fetch https://example.org/gone: Status code 404"⟩],
        statsErrors := 1 } ∧
    (addMetadata stateC10).errorsList = [] := by
  refine ⟨?_, ?_, ?_⟩
  · exact skip_error_counter_discipline.1 envC10 cfgC10 0 "https://example.org/more"
      "https://example.org" "example.org" 1 stateC10 (by decide) (by decide)
  · have h := skip_error_counter_discipline.2.2.2.1 envFailW cfgC10 0
      "https://example.org/gone" "https://example.org" "example.org" 1 initState
      ⟨404, true, docPlain⟩ (by decide) (by decide) (by decide) (by decide) (by decide)
    rw [h]
    decide
  · exact ((skip_error_counter_discipline.2.2.2.2.1 stateC10).1).trans (by decide)

/-! ## C5: `clean_url` idempotence — list infrastructure -/

theorem splitAtFirst_append_notin {c : Char} : ∀ {a : List Char} (b : List Char),
    c ∉ a → splitAtFirst c (a ++ c :: b) = some (a, b) := by
  intro a
  induction a with
  | nil => intro b _; simp [splitAtFirst]
  | cons x xs ih =>
    intro b h
    simp only [List.mem_cons, not_or] at h
    rw [List.cons_append, splitAtFirst, if_neg (fun hx => h.1 hx.symm), ih b h.2]
    rfl

theorem takeWhile_append_all {p : Char → Bool} : ∀ {xs : List Char} (ys : List Char),
    (∀ x ∈ xs, p x = true) → (xs ++ ys).takeWhile p = xs ++ ys.takeWhile p := by
  intro xs
  induction xs with
  | nil => intro ys _; simp
  | cons x l ih =>
    intro ys h
    rw [List.cons_append, List.takeWhile_cons, if_pos (h x (List.mem_cons_self x l)),
      ih ys (fun a ha => h a (List.mem_cons_of_mem x ha))]
    rfl

theorem dropWhile_append_all {p : Char → Bool} : ∀ {xs : List Char} (ys : List Char),
    (∀ x ∈ xs, p x = true) → (xs ++ ys).dropWhile p = ys.dropWhile p := by
  intro xs
  induction xs with
  | nil => intro ys _; simp
  | cons x l ih =>
    intro ys h
    rw [List.cons_append, List.dropWhile_cons, if_pos (h x (List.mem_cons_self x l)),
      ih ys (fun a ha => h a (List.mem_cons_of_mem x ha))]

/-- `_splitparams` on a list whose last `/` is followed by a `;`-free,
`/`-free tail returns the list unchanged. -/
theorem splitParamsL_no_semi_after_slash {before a : List Char}
    (ha : '/' ∉ a) (hsemi : ';' ∉ a) :
    splitParamsL (before ++ '/' :: a) = (before ++ '/' :: a, []) := by
  have hsl : '/' ∈ before ++ '/' :: a := by simp
  have hrv : splitAtFirst '/' (before ++ '/' :: a).reverse
      = some (a.reverse, before.reverse) := by
    have hrev : (before ++ '/' :: a).reverse = a.reverse ++ '/' :: before.reverse := by simp
    rw [hrev]; exact splitAtFirst_append_notin before.reverse (by simpa using ha)
  have hsc : splitAtFirst ';' a = none := splitAtFirst_none.mpr hsemi
  simp only [splitParamsL, hsl, if_true, hrv, List.reverse_reverse, hsc]

/-- Every `_splitparams` result either is `(l, [])` or reassembles to `l`
around the dropped `;`. -/
theorem splitParamsL_shape (l : List Char) :
    splitParamsL l = (l, []) ∨
      (splitParamsL l).1 ++ ';' :: (splitParamsL l).2 = l := by
  by_cases hsl : '/' ∈ l
  · rcases hrv : splitAtFirst '/' l.reverse with _ | ⟨afterRev, beforeRev⟩
    · left; simp only [splitParamsL, hsl, if_true, hrv]
    · obtain ⟨hdec, hni⟩ := splitAtFirst_some hrv
      rcases hsc : splitAtFirst ';' afterRev.reverse with _ | ⟨a, b⟩
      · left; simp only [splitParamsL, hsl, if_true, hrv, hsc]
      · right
        simp only [splitParamsL, hsl, if_true, hrv, hsc]
        obtain ⟨hdec2, hnx⟩ := splitAtFirst_some hsc
        have hl : l = beforeRev.reverse ++ '/' :: afterRev.reverse := by
          have h2 := congrArg List.reverse hdec
          simpa using h2
        rw [hl, hdec2]
        simp
  · rcases hsc : splitAtFirst ';' l with _ | ⟨a, b⟩
    · left; simp only [splitParamsL, hsl, if_false, hsc]
    · right
      simp only [splitParamsL, hsl, if_false, hsc]
      exact (splitAtFirst_some hsc).1.symm

theorem pathParams_eq_split {s : String} {l : List Char}
    (hu : usesParams.contains s = true) (hm : ';' ∈ l) :
    pathParams s l = splitParamsL l := by
  rw [pathParams, if_pos (by rw [hu, decide_eq_true hm]; rfl)]

theorem pathParams_eq_id {s : String} {l : List Char}
    (h : usesParams.contains s = false ∨ ';' ∉ l) :
    pathParams s l = (l, []) := by
  rw [pathParams, if_neg]
  intro hc
  rw [Bool.and_eq_true, decide_eq_true_eq] at hc
  rcases h with h | h
  · rw [h] at hc; exact Bool.false_ne_true hc.1
  · exact h hc.2

/-- Re-running the path/params split on the reassembled result is the
identity: `pathParams` output pairs are fixpoints. -/
theorem pathParams_fix {s : String} {l a b : List Char}
    (h : pathParams s l = (a, b)) :
    pathParams s (if b ≠ [] then a ++ ';' :: b else a) = (a, b) := by
  by_cases hu : usesParams.contains s = true
  · by_cases hm : ';' ∈ l
    · rw [pathParams_eq_split hu hm] at h
      by_cases hb : b = []
      · subst hb
        rw [if_neg (by simp)]
        by_cases hma : ';' ∈ a
        · rw [pathParams_eq_split hu hma]
          by_cases hsl : '/' ∈ l
          · rcases hrv : splitAtFirst '/' l.reverse with _ | ⟨afterRev, beforeRev⟩
            · exact absurd (splitAtFirst_none.mp hrv) (by simpa using hsl)
            · obtain ⟨hdec, hni⟩ := splitAtFirst_some hrv
              have hl : l = beforeRev.reverse ++ '/' :: afterRev.reverse := by
                have h2 := congrArg List.reverse hdec
                simpa using h2
              rcases hsc : splitAtFirst ';' afterRev.reverse with _ | ⟨x, y⟩
              · simp only [splitParamsL, hsl, if_true, hrv, hsc] at h
                simp only [Prod.mk.injEq] at h
                obtain ⟨h1, -⟩ := h
                subst h1
                rw [hl]
                exact splitParamsL_no_semi_after_slash
                  (by simpa using hni) (splitAtFirst_none.mp hsc)
              · simp only [splitParamsL, hsl, if_true, hrv, hsc] at h
                simp only [Prod.mk.injEq] at h
                obtain ⟨h1, -⟩ := h
                subst h1
                obtain ⟨hdec2, hnx⟩ := splitAtFirst_some hsc
                have hxa : '/' ∉ x := by
                  intro hx
                  have hmm : '/' ∈ afterRev.reverse := by rw [hdec2]; simp [hx]
                  exact (by simpa using hni : '/' ∉ afterRev.reverse) hmm
                exact splitParamsL_no_semi_after_slash hxa hnx
          · rcases hsc : splitAtFirst ';' l with _ | ⟨x, y⟩
            · exact absurd hm (splitAtFirst_none.mp hsc)
            · simp only [splitParamsL, hsl, if_false, hsc] at h
              simp only [Prod.mk.injEq] at h
              obtain ⟨h1, -⟩ := h
              subst h1
              exact absurd hma (splitAtFirst_some hsc).2
        · rw [pathParams_eq_id (Or.inr hma)]
      · rw [if_pos hb]
        have hl : a ++ ';' :: b = l := by
          rcases splitParamsL_shape l with hc | hc
          · rw [h] at hc
            simp only [Prod.mk.injEq] at hc
            exact absurd hc.2 hb
          · rw [h] at hc; exact hc
        rw [pathParams_eq_split hu (by simp : ';' ∈ a ++ ';' :: b), hl]
        exact h
    · rw [pathParams_eq_id (Or.inr hm)] at h
      simp only [Prod.mk.injEq] at h
      obtain ⟨rfl, h2⟩ := h
      subst h2
      rw [if_neg (by simp)]
      exact pathParams_eq_id (Or.inr hm)
  · rw [pathParams_eq_id (Or.inl (Bool.not_eq_true _ ▸ hu))] at h
    simp only [Prod.mk.injEq] at h
    obtain ⟨rfl, h2⟩ := h
    subst h2
    rw [if_neg (by simp)]
    exact pathParams_eq_id (Or.inl (Bool.not_eq_true _ ▸ hu))

/-! ### Character arithmetic helpers (for the `clean_url` idempotence proof) -/

theorem char_le_iff {a b : Char} : a ≤ b ↔ a.toNat ≤ b.toNat := Iff.rfl

theorem char_eq_of_toNat {a b : Char} (h : a.toNat = b.toNat) : a = b := by
  have h2 := congrArg Char.ofNat h
  rwa [Char.ofNat_toNat, Char.ofNat_toNat] at h2

theorem char_eq_iff_toNat {a b : Char} : a = b ↔ a.toNat = b.toNat :=
  ⟨congrArg Char.toNat, char_eq_of_toNat⟩

theorem char_toNat_ofNat {n : Nat} (h : n.isValidChar) : (Char.ofNat n).toNat = n := by
  rw [Char.ofNat, dif_pos h]
  rfl

theorem char_toNat_valid (c : Char) : c.toNat.isValidChar := c.valid

theorem toNat_asciiLower (c : Char) : (asciiLowerCh c).toNat =
    if 65 ≤ c.toNat ∧ c.toNat ≤ 90 then c.toNat + 32 else c.toNat := by
  rw [asciiLowerCh]
  by_cases h : 65 ≤ c.toNat ∧ c.toNat ≤ 90
  · rw [if_pos (by rw [decide_eq_true ((@char_le_iff 'A' c).mpr h.1),
        decide_eq_true ((@char_le_iff c 'Z').mpr h.2)]; rfl), if_pos h]
    exact char_toNat_ofNat (Or.inl (by omega))
  · rw [if_neg (fun hc => by
        rw [Bool.and_eq_true, decide_eq_true_eq, decide_eq_true_eq] at hc
        exact h ⟨(@char_le_iff 'A' c).mp hc.1, (@char_le_iff c 'Z').mp hc.2⟩), if_neg h]

theorem isAsciiAlphaCh_iff {c : Char} : isAsciiAlphaCh c = true ↔
    (97 ≤ c.toNat ∧ c.toNat ≤ 122) ∨ (65 ≤ c.toNat ∧ c.toNat ≤ 90) := by
  rw [isAsciiAlphaCh]
  simp only [Bool.or_eq_true, Bool.and_eq_true, decide_eq_true_eq, char_le_iff]
  exact Iff.rfl

theorem isAsciiDigitCh_iff {c : Char} : isAsciiDigitCh c = true ↔
    48 ≤ c.toNat ∧ c.toNat ≤ 57 := by
  rw [isAsciiDigitCh]
  simp only [Bool.and_eq_true, decide_eq_true_eq, char_le_iff]
  exact Iff.rfl

theorem isAsciiAlnumCh_iff {c : Char} : isAsciiAlnumCh c = true ↔
    (97 ≤ c.toNat ∧ c.toNat ≤ 122) ∨ (65 ≤ c.toNat ∧ c.toNat ≤ 90) ∨
      (48 ≤ c.toNat ∧ c.toNat ≤ 57) := by
  rw [isAsciiAlnumCh]
  simp only [Bool.or_eq_true, isAsciiAlphaCh_iff, isAsciiDigitCh_iff]
  omega

theorem schemeCh_iff {c : Char} : schemeCh c = true ↔
    ((97 ≤ c.toNat ∧ c.toNat ≤ 122) ∨ (65 ≤ c.toNat ∧ c.toNat ≤ 90) ∨
     (48 ≤ c.toNat ∧ c.toNat ≤ 57) ∨ c.toNat = 43 ∨ c.toNat = 45 ∨ c.toNat = 46) := by
  rw [schemeCh]
  simp only [Bool.or_eq_true, isAsciiAlnumCh_iff, decide_eq_true_eq, char_eq_iff_toNat,
    (by decide : Char.toNat '+' = 43), (by decide : Char.toNat '-' = 45),
    (by decide : Char.toNat '.' = 46)]
  omega

theorem tabCrLf_iff {c : Char} : tabCrLf c = true ↔
    c.toNat = 9 ∨ c.toNat = 13 ∨ c.toNat = 10 := by
  rw [tabCrLf]
  simp only [Bool.or_eq_true, decide_eq_true_eq, char_eq_iff_toNat,
    (by decide : Char.toNat '\t' = 9), (by decide : Char.toNat '\r' = 13),
    (by decide : Char.toNat '\n' = 10)]
  omega

theorem netlocDelim_iff {c : Char} : netlocDelim c = true ↔
    c.toNat = 47 ∨ c.toNat = 63 ∨ c.toNat = 35 := by
  rw [netlocDelim]
  simp only [Bool.or_eq_true, decide_eq_true_eq, char_eq_iff_toNat,
    (by decide : Char.toNat '/' = 47), (by decide : Char.toNat '?' = 63),
    (by decide : Char.toNat '#' = 35)]
  omega

theorem c0OrSpace_iff {c : Char} : c0OrSpace c = true ↔ c.toNat ≤ 32 := by
  rw [c0OrSpace]
  simp only [decide_eq_true_eq]

theorem asciiLowerCh_idem (c : Char) : asciiLowerCh (asciiLowerCh c) = asciiLowerCh c := by
  apply char_eq_of_toNat
  rw [toNat_asciiLower, toNat_asciiLower]
  split_ifs <;> omega

theorem asciiLower_alpha {c : Char} (h : isAsciiAlphaCh c = true) :
    isAsciiAlphaCh (asciiLowerCh c) = true := by
  rw [isAsciiAlphaCh_iff] at h ⊢
  rw [toNat_asciiLower]
  split <;> omega

theorem asciiLower_schemeCh {c : Char} (h : schemeCh c = true) :
    schemeCh (asciiLowerCh c) = true := by
  rw [schemeCh_iff] at h ⊢
  rw [toNat_asciiLower]
  split <;> omega

theorem schemeCh_not_tab {c : Char} (h : schemeCh c = true) : tabCrLf c = false := by
  rw [Bool.eq_false_iff]
  intro hc
  rw [schemeCh_iff] at h
  rw [tabCrLf_iff] at hc
  omega

theorem schemeCh_ne_colon {c : Char} (h : schemeCh c = true) : c ≠ ':' := by
  intro hc
  subst hc
  exact absurd h (by decide)

theorem alpha_not_c0 {c : Char} (h : isAsciiAlphaCh c = true) : c0OrSpace c = false := by
  rw [Bool.eq_false_iff]
  intro hc
  rw [isAsciiAlphaCh_iff] at h
  rw [c0OrSpace_iff] at hc
  omega

/-- Characters allowed in a netloc reparse: no delimiter, no tab/CR/LF. -/
def nlCh (c : Char) : Bool := !netlocDelim c && !tabCrLf c

/-- Characters that survive in the path-with-params position: no `#`, no `?`,
no tab/CR/LF. -/
def pathCh (c : Char) : Bool := !tabCrLf c && c != '#' && c != '?'

/-- The character set of `urlencode` output: alphanumerics, `_.-~`, `+`, `%`,
`&` and `=`. -/
def qGoodCh (c : Char) : Bool :=
  isAsciiAlnumCh c || c = '_' || c = '.' || c = '-' || c = '~' || c = '+' ||
    c = '%' || c = '&' || c = '='

theorem qGoodCh_iff {c : Char} : qGoodCh c = true ↔
    ((97 ≤ c.toNat ∧ c.toNat ≤ 122) ∨ (65 ≤ c.toNat ∧ c.toNat ≤ 90) ∨
     (48 ≤ c.toNat ∧ c.toNat ≤ 57) ∨ c.toNat = 95 ∨ c.toNat = 46 ∨ c.toNat = 45 ∨
     c.toNat = 126 ∨ c.toNat = 43 ∨ c.toNat = 37 ∨ c.toNat = 38 ∨ c.toNat = 61) := by
  rw [qGoodCh]
  simp only [Bool.or_eq_true, isAsciiAlnumCh_iff, decide_eq_true_eq, char_eq_iff_toNat,
    (by decide : Char.toNat '_' = 95), (by decide : Char.toNat '.' = 46),
    (by decide : Char.toNat '-' = 45), (by decide : Char.toNat '~' = 126),
    (by decide : Char.toNat '+' = 43), (by decide : Char.toNat '%' = 37),
    (by decide : Char.toNat '&' = 38), (by decide : Char.toNat '=' = 61)]
  omega

theorem pathCh_iff {c : Char} : pathCh c = true ↔
    (c.toNat ≠ 9 ∧ c.toNat ≠ 13 ∧ c.toNat ≠ 10 ∧ c.toNat ≠ 35 ∧ c.toNat ≠ 63) := by
  rw [pathCh]
  simp only [Bool.and_eq_true, Bool.not_eq_true', bne_iff_ne, ne_eq, char_eq_iff_toNat,
    (by decide : Char.toNat '#' = 35), (by decide : Char.toNat '?' = 63)]
  rw [← Bool.not_eq_true, tabCrLf_iff]
  omega

theorem nlCh_iff {c : Char} : nlCh c = true ↔
    (c.toNat ≠ 47 ∧ c.toNat ≠ 63 ∧ c.toNat ≠ 35 ∧ c.toNat ≠ 9 ∧ c.toNat ≠ 13 ∧
     c.toNat ≠ 10) := by
  rw [nlCh]
  simp only [Bool.and_eq_true, Bool.not_eq_true']
  rw [← Bool.not_eq_true, ← Bool.not_eq_true, netlocDelim_iff, tabCrLf_iff]
  omega

theorem qGoodCh_pathCh {c : Char} (h : qGoodCh c = true) : pathCh c = true := by
  rw [qGoodCh_iff] at h
  rw [pathCh_iff]
  omega

/-! ### Structural facts about `urlsplit` output (for C5) -/

theorem urlPre_no_tab {u : String} : ∀ c ∈ urlPre u, tabCrLf c = false := by
  intro c hc
  have h := List.of_mem_filter hc
  simpa using h

theorem pathCh_intro {c : Char} (h1 : tabCrLf c = false) (h2 : c ≠ '#') (h3 : c ≠ '?') :
    pathCh c = true := by
  rw [pathCh, h1]
  simp [bne_iff_ne, h2, h3]

theorem splitScheme_fst_good (l : List Char) :
    (splitScheme [] l).1 = [] ∨
      ((∃ c0 cs, (splitScheme [] l).1 = c0 :: cs ∧ isAsciiAlphaCh c0 = true) ∧
       (∀ c ∈ (splitScheme [] l).1, schemeCh c = true) ∧
       (splitScheme [] l).1.map asciiLowerCh = (splitScheme [] l).1) := by
  rcases h : splitAtFirst ':' l with _ | ⟨pre, post⟩
  · left; simp only [splitScheme, h]
  · rcases pre with _ | ⟨p0, pre'⟩
    · left; simp only [splitScheme, h]
    · by_cases hcond : (isAsciiAlphaCh p0 && (p0 :: pre').all schemeCh) = true
      · right
        simp only [splitScheme, h, if_pos hcond]
        rw [Bool.and_eq_true, List.all_eq_true] at hcond
        refine ⟨⟨asciiLowerCh p0, pre'.map asciiLowerCh, by simp, asciiLower_alpha hcond.1⟩,
          ?_, ?_⟩
        · intro c hc
          rw [List.mem_map] at hc
          obtain ⟨c', hc', rfl⟩ := hc
          exact asciiLower_schemeCh (hcond.2 c' hc')
        · rw [List.map_map]
          apply List.map_congr_left
          intro a _
          exact asciiLowerCh_idem a
      · left; simp only [splitScheme, h, if_neg hcond]

theorem splitScheme_snd_sub {d l : List Char} : ∀ c ∈ (splitScheme d l).2, c ∈ l := by
  rcases h : splitAtFirst ':' l with _ | ⟨pre, post⟩
  · simp only [splitScheme, h]; intro c hc; exact hc
  · rcases pre with _ | ⟨p0, pre'⟩
    · simp only [splitScheme, h]; intro c hc; exact hc
    · by_cases hcond : (isAsciiAlphaCh p0 && (p0 :: pre').all schemeCh) = true
      · simp only [splitScheme, h, if_pos hcond]
        intro c hc
        rw [(splitAtFirst_some h).1]
        simp [hc]
      · simp only [splitScheme, h, if_neg hcond]; intro c hc; exact hc

theorem mem_take_sub {l : List Char} {n : Nat} : ∀ c ∈ l.take n, c ∈ l := by
  intro c hc
  exact (List.take_prefix n l).sublist.subset hc

theorem mem_drop_sub {l : List Char} {n : Nat} : ∀ c ∈ l.drop n, c ∈ l := by
  intro c hc
  exact (List.drop_suffix n l).sublist.subset hc

theorem splitNetloc_fst {rest : List Char} :
    ∀ c ∈ (splitNetloc rest).1, netlocDelim c = false ∧ c ∈ rest := by
  simp only [splitNetloc]
  split
  · intro c hc
    refine ⟨?_, ?_⟩
    · have h := List.mem_takeWhile_imp hc
      simpa using h
    · exact mem_drop_sub c ((List.takeWhile_prefix _).sublist.subset hc)
  · intro c hc; simp at hc

theorem splitNetloc_snd_sub {rest : List Char} :
    ∀ c ∈ (splitNetloc rest).2, c ∈ rest := by
  simp only [splitNetloc]
  split
  · intro c hc
    exact mem_drop_sub c ((List.dropWhile_suffix _).sublist.subset hc)
  · intro c hc; exact hc

theorem dropWhile_head_false {p : Char → Bool} : ∀ {l : List Char} {c : Char}
    {t : List Char}, l.dropWhile p = c :: t → p c = false := by
  intro l
  induction l with
  | nil => intro c t h; simp at h
  | cons x xs ih =>
    intro c t h
    rw [List.dropWhile_cons] at h
    split at h
    · exact ih h
    · rename_i hx
      cases h
      exact Bool.not_eq_true _ ▸ hx

theorem splitNetloc_shape {rest : List Char} (h : (splitNetloc rest).1 ≠ []) :
    (splitNetloc rest).2 = [] ∨
      ∃ c t, (splitNetloc rest).2 = c :: t ∧ netlocDelim c = true := by
  by_cases htake : rest.take 2 = ['/', '/']
  · simp only [splitNetloc, if_pos htake]
    rcases hd : (rest.drop 2).dropWhile (fun c => !netlocDelim c) with _ | ⟨c, t⟩
    · left; rfl
    · right
      refine ⟨c, t, rfl, ?_⟩
      have hc := dropWhile_head_false hd
      simpa using hc
  · exact absurd (by simp only [splitNetloc, if_neg htake]) h

theorem splitFrag_fst_sub {l : List Char} : ∀ c ∈ (splitFrag l).1, c ∈ l := by
  rcases h : splitAtFirst '#' l with _ | ⟨a, b⟩
  · simp only [splitFrag, h]; intro c hc; exact hc
  · simp only [splitFrag, h]
    intro c hc
    rw [(splitAtFirst_some h).1]
    simp [hc]

theorem splitFrag_fst_no_hash {l : List Char} : '#' ∉ (splitFrag l).1 := by
  rcases h : splitAtFirst '#' l with _ | ⟨a, b⟩
  · simp only [splitFrag, h]
    exact splitAtFirst_none.mp h
  · simp only [splitFrag, h]
    exact (splitAtFirst_some h).2

theorem splitFrag_fst_nil : (splitFrag []).1 = [] := rfl

theorem splitFrag_fst_cons {x : Char} {t : List Char} (hx : x ≠ '#') :
    (splitFrag (x :: t)).1 = [] ∨ ∃ t', (splitFrag (x :: t)).1 = x :: t' := by
  rcases h : splitAtFirst '#' (x :: t) with _ | ⟨a, b⟩
  · right; exact ⟨t, by simp only [splitFrag, h]⟩
  · obtain ⟨hdec, hnin⟩ := splitAtFirst_some h
    rcases a with _ | ⟨a0, a'⟩
    · rw [List.nil_append] at hdec
      injection hdec with h1 h2
      exact absurd h1 hx
    · right
      refine ⟨a', ?_⟩
      simp only [splitFrag, h]
      rw [List.cons_append] at hdec
      injection hdec with h1 h2
      rw [h1]

theorem splitFrag_fst_hash {t : List Char} : (splitFrag ('#' :: t)).1 = [] := by
  have h : splitAtFirst '#' ('#' :: t) = some ([], t) := by
    rw [splitAtFirst, if_pos rfl]
  simp only [splitFrag, h]

theorem splitQuery_fst_sub {l : List Char} : ∀ c ∈ (splitQuery l).1, c ∈ l := by
  rcases h : splitAtFirst '?' l with _ | ⟨a, b⟩
  · simp only [splitQuery, h]; intro c hc; exact hc
  · simp only [splitQuery, h]
    intro c hc
    rw [(splitAtFirst_some h).1]
    simp [hc]

theorem splitQuery_fst_no_q {l : List Char} : '?' ∉ (splitQuery l).1 := by
  rcases h : splitAtFirst '?' l with _ | ⟨a, b⟩
  · simp only [splitQuery, h]
    exact splitAtFirst_none.mp h
  · simp only [splitQuery, h]
    exact (splitAtFirst_some h).2

theorem splitQuery_fst_nil : (splitQuery []).1 = [] := rfl

theorem splitQuery_fst_cons {x : Char} {t : List Char} (hx : x ≠ '?') :
    (splitQuery (x :: t)).1 = [] ∨ ∃ t', (splitQuery (x :: t)).1 = x :: t' := by
  rcases h : splitAtFirst '?' (x :: t) with _ | ⟨a, b⟩
  · right; exact ⟨t, by simp only [splitQuery, h]⟩
  · obtain ⟨hdec, hnin⟩ := splitAtFirst_some h
    rcases a with _ | ⟨a0, a'⟩
    · rw [List.nil_append] at hdec
      injection hdec with h1 h2
      exact absurd h1 hx
    · right
      refine ⟨a', ?_⟩
      simp only [splitQuery, h]
      rw [List.cons_append] at hdec
      injection hdec with h1 h2
      rw [h1]

theorem splitQuery_fst_qm {t : List Char} : (splitQuery ('?' :: t)).1 = [] := by
  have h : splitAtFirst '?' ('?' :: t) = some ([], t) := by
    rw [splitAtFirst, if_pos rfl]
  simp only [splitQuery, h]

/-- Structural invariants of `urlparse` output needed for the reparse
lemma: a well-formed lower-case scheme, a delimiter-free netloc, and a
path/params pair produced by `pathParams` from a `#`/`?`-free,
`/`-headed-or-empty path-with-params segment. -/
structure PGood (p : UrlParts) : Prop where
  schemeOk : p.scheme = "" ∨
    ((∃ c0 cs, p.scheme.data = c0 :: cs ∧ isAsciiAlphaCh c0 = true) ∧
     (∀ c ∈ p.scheme.data, schemeCh c = true) ∧
     p.scheme.data.map asciiLowerCh = p.scheme.data)
  netlocOk : ∀ c ∈ p.netloc.data, nlCh c = true
  ppSrc : p.netloc.data ≠ [] → ∃ l, (∀ c ∈ l, pathCh c = true) ∧
    (l = [] ∨ ∃ t, l = '/' :: t) ∧
    pathParams p.scheme l = (p.path.data, p.par.data)

theorem parseUrl_good (u : String) : PGood (parseUrl u) := by
  refine ⟨?_, ?_, ?_⟩
  · rcases splitScheme_fst_good (urlPre u) with h | ⟨⟨c0, cs, hc, ha⟩, hall, hmap⟩
    · left
      show (⟨(splitScheme [] (urlPre u)).1⟩ : String) = ""
      rw [h]
    · right
      exact ⟨⟨c0, cs, hc, ha⟩, hall, hmap⟩
  · intro c hc
    obtain ⟨hnd, hmem⟩ := splitNetloc_fst c hc
    have htab : tabCrLf c = false :=
      urlPre_no_tab c (splitScheme_snd_sub c hmem)
    rw [nlCh, hnd, htab]
    rfl
  · intro hne
    refine ⟨(splitQuery (splitFrag (splitNetloc
        (splitScheme [] (urlPre u)).2).2).1).1, ?_, ?_, rfl⟩
    · intro c hc
      have hmem : c ∈ urlPre u :=
        splitScheme_snd_sub c (splitNetloc_snd_sub c
          (splitFrag_fst_sub c (splitQuery_fst_sub c hc)))
      refine pathCh_intro (urlPre_no_tab c hmem) ?_ ?_
      · intro hch; subst hch
        exact splitFrag_fst_no_hash (splitQuery_fst_sub _ hc)
      · intro hch; subst hch
        exact splitQuery_fst_no_q hc
    · have hne2 : (splitNetloc (splitScheme [] (urlPre u)).2).1 ≠ [] := hne
      rcases splitNetloc_shape hne2 with h2 | ⟨c, t, h2, hcd⟩
      · rw [h2, splitFrag_fst_nil, splitQuery_fst_nil]
        exact Or.inl rfl
      · rw [netlocDelim_iff] at hcd
        rcases hcd with hcd | hcd | hcd
        · -- c = '/'
          have hc : c = '/' := char_eq_of_toNat (by rw [hcd]; decide)
          subst hc
          rw [h2]
          rcases splitFrag_fst_cons (by decide : ('/' : Char) ≠ '#') with h3 | ⟨t', h3⟩
          · rw [h3, splitQuery_fst_nil]; exact Or.inl rfl
          · rw [h3]
            rcases splitQuery_fst_cons (by decide : ('/' : Char) ≠ '?') with h4 | ⟨t'', h4⟩
            · rw [h4]; exact Or.inl rfl
            · rw [h4]; exact Or.inr ⟨t'', rfl⟩
        · -- c = '?'
          have hc : c = '?' := char_eq_of_toNat (by rw [hcd]; decide)
          subst hc
          rw [h2]
          rcases splitFrag_fst_cons (by decide : ('?' : Char) ≠ '#') with h3 | ⟨t', h3⟩
          · rw [h3, splitQuery_fst_nil]; exact Or.inl rfl
          · rw [h3, splitQuery_fst_qm]; exact Or.inl rfl
        · -- c = '#'
          have hc : c = '#' := char_eq_of_toNat (by rw [hcd]; decide)
          subst hc
          rw [h2, splitFrag_fst_hash, splitQuery_fst_nil]
          exact Or.inl rfl

/-! ### Unparse/reparse machinery (C5) -/

theorem string_eq_empty_iff {s : String} : s = "" ↔ s.data = [] := by
  constructor
  · intro h; rw [h]
  · intro h
    cases s with
    | mk d =>
      have hd : d = [] := h
      rw [hd]

theorem urlsplitPy_eq0 (u : String) :
    urlsplitPy "" u =
      (⟨(splitScheme [] (urlPre u)).1⟩,
       ⟨(splitNetloc (splitScheme [] (urlPre u)).2).1⟩,
       ⟨(splitQuery (splitFrag (splitNetloc (splitScheme [] (urlPre u)).2).2).1).1⟩,
       ⟨(splitQuery (splitFrag (splitNetloc (splitScheme [] (urlPre u)).2).2).1).2⟩,
       ⟨(splitFrag (splitNetloc (splitScheme [] (urlPre u)).2).2).2⟩) := rfl

theorem urlparsePy_eq (d u : String) : urlparsePy d u =
    { scheme := (urlsplitPy d u).1, netloc := (urlsplitPy d u).2.1,
      path := ⟨(pathParams (urlsplitPy d u).1 (urlsplitPy d u).2.2.1.data).1⟩,
      par := ⟨(pathParams (urlsplitPy d u).1 (urlsplitPy d u).2.2.1.data).2⟩,
      query := (urlsplitPy d u).2.2.2.1, fragment := (urlsplitPy d u).2.2.2.2 } := rfl

theorem pathParams_mem {s : String} {l a b : List Char} (h : pathParams s l = (a, b)) :
    (∀ c ∈ a, c ∈ l) ∧ ∀ c ∈ b, c ∈ l := by
  rcases splitParamsL_shape l with h2 | h2
  · rw [pathParams] at h
    split at h
    · rw [h2] at h
      cases h
      exact ⟨fun c hc => hc, fun c hc => by simp at hc⟩
    · cases h
      exact ⟨fun c hc => hc, fun c hc => by simp at hc⟩
  · rw [pathParams] at h
    split at h
    · rw [h] at h2
      constructor <;> intro c hc <;> rw [← h2] <;> simp [hc]
    · cases h
      exact ⟨fun c hc => hc, fun c hc => by simp at hc⟩

theorem pathParams_head {s : String} {l a b : List Char} (h : pathParams s l = (a, b))
    (hl : l = [] ∨ ∃ t, l = '/' :: t) :
    (a = [] ∧ b = []) ∨ ∃ t, a = '/' :: t := by
  rcases hl with rfl | ⟨t, rfl⟩
  · left
    rw [pathParams, if_neg (by simp)] at h
    cases h
    exact ⟨rfl, rfl⟩
  · rcases splitParamsL_shape ('/' :: t) with h2 | h2
    · rw [pathParams] at h
      split at h
      · rw [h2] at h
        cases h
        exact Or.inr ⟨t, rfl⟩
      · cases h
        exact Or.inr ⟨t, rfl⟩
    · rw [pathParams] at h
      split at h
      · rw [h] at h2
        rcases a with _ | ⟨a0, a'⟩
        · rw [List.nil_append] at h2
          injection h2 with h3 h4
          exact absurd h3 (by decide)
        · rw [List.cons_append] at h2
          injection h2 with h3 h4
          exact Or.inr ⟨a', by rw [h3]⟩
      · cases h
        exact Or.inr ⟨t, rfl⟩

theorem unparse_shape (p : UrlParts) (hn : p.netloc ≠ "")
    (hcomp : (if p.par ≠ "" then p.path.data ++ ';' :: p.par.data else p.path.data) = [] ∨
      ∃ t, (if p.par ≠ "" then p.path.data ++ ';' :: p.par.data else p.path.data) =
        '/' :: t) :
    unparseUrl p = ⟨(if p.scheme = "" then [] else p.scheme.data ++ [':']) ++
      '/' :: '/' :: p.netloc.data ++
      (if p.par ≠ "" then p.path.data ++ ';' :: p.par.data else p.path.data) ++
      (if p.query = "" then [] else '?' :: p.query.data) ++
      (if p.fragment = "" then [] else '#' :: p.fragment.data)⟩ := by
  rcases hcomp with hc | ⟨t, hc⟩ <;>
    by_cases hs : p.scheme = "" <;> by_cases hq : p.query = "" <;>
      by_cases hf : p.fragment = "" <;>
      simp [unparseUrl, urlunsplitPy, hn, hc, hs, hq, hf, List.append_assoc]

/-! ### Reparse of a reassembled URL string (C5) -/

theorem nlCh_not_tab {c : Char} (h : nlCh c = true) : tabCrLf c = false := by
  rw [nlCh_iff] at h
  rw [Bool.eq_false_iff]
  intro h2
  rw [tabCrLf_iff] at h2
  omega

theorem pathCh_not_tab {c : Char} (h : pathCh c = true) : tabCrLf c = false := by
  rw [pathCh_iff] at h
  rw [Bool.eq_false_iff]
  intro h2
  rw [tabCrLf_iff] at h2
  omega

theorem pathCh_ne_hash {c : Char} (h : pathCh c = true) : c ≠ '#' := by
  rw [pathCh_iff] at h
  intro h2
  subst h2
  exact h.2.2.2.1 (by decide)

theorem pathCh_ne_qm {c : Char} (h : pathCh c = true) : c ≠ '?' := by
  rw [pathCh_iff] at h
  intro h2
  subst h2
  exact h.2.2.2.2 (by decide)

theorem takeWhile_nil_head {p : Char → Bool} {x : Char} {xs : List Char}
    (h : p x = false) : (x :: xs).takeWhile p = [] := by
  simp [List.takeWhile_cons, h]

theorem dropWhile_id_head {p : Char → Bool} {x : Char} {xs : List Char}
    (h : p x = false) : (x :: xs).dropWhile p = x :: xs := by
  simp [List.dropWhile_cons, h]

theorem splitScheme_slash_head {t : List Char} :
    splitScheme [] ('/' :: t) = ([], '/' :: t) := by
  rcases h : splitAtFirst ':' ('/' :: t) with _ | ⟨pre, post⟩
  · simp only [splitScheme, h]
  · obtain ⟨hdec, hni⟩ := splitAtFirst_some h
    rcases pre with _ | ⟨p0, pre'⟩
    · rw [List.nil_append] at hdec
      injection hdec with h1 h2
      exact absurd h1 (by decide)
    · rw [List.cons_append] at hdec
      injection hdec with h1 h2
      simp only [splitScheme, h]
      rw [if_neg]
      intro hcond
      rw [Bool.and_eq_true] at hcond
      rw [← h1] at hcond
      exact absurd hcond.1 (by decide)

theorem splitScheme_detect {sc rest0 : List Char} {c0 : Char} {cs : List Char}
    (hsc : sc = c0 :: cs) (ha : isAsciiAlphaCh c0 = true)
    (hall : ∀ c ∈ sc, schemeCh c = true) (hmap : sc.map asciiLowerCh = sc) :
    splitScheme [] (sc ++ ':' :: rest0) = (sc, rest0) := by
  have hni : ':' ∉ sc := fun hmem => schemeCh_ne_colon (hall _ hmem) rfl
  have h := splitAtFirst_append_notin rest0 hni
  subst hsc
  have hcond : (isAsciiAlphaCh c0 && (c0 :: cs).all schemeCh) = true := by
    rw [ha, Bool.true_and, List.all_eq_true]
    exact fun c hc => hall c hc
  simp only [splitScheme, h, if_pos hcond]
  rw [hmap]

theorem splitNetloc_reassembled {nl rest : List Char} (hn : ∀ c ∈ nl, nlCh c = true)
    (hrest : rest = [] ∨ ∃ c t, rest = c :: t ∧ netlocDelim c = true) :
    splitNetloc ('/' :: '/' :: (nl ++ rest)) = (nl, rest) := by
  have hall : ∀ c ∈ nl, (fun c => !netlocDelim c) c = true := by
    intro c hcm
    have h2 := hn c hcm
    rw [nlCh, Bool.and_eq_true] at h2
    exact h2.1
  have hstep : splitNetloc ('/' :: '/' :: (nl ++ rest)) =
      ((nl ++ rest).takeWhile (fun c => !netlocDelim c),
       (nl ++ rest).dropWhile (fun c => !netlocDelim c)) := by
    simp only [splitNetloc]
    rw [if_pos (show List.take 2 ('/' :: '/' :: (nl ++ rest)) = ['/', '/'] from rfl)]
    rfl
  rw [hstep, takeWhile_append_all rest hall, dropWhile_append_all rest hall]
  rcases hrest with rfl | ⟨c, t, rfl, hcd⟩
  · simp
  · have hcf : (fun c => !netlocDelim c) c = false := by
      show (!netlocDelim c) = false
      rw [hcd]
      rfl
    rw [takeWhile_nil_head hcf, dropWhile_id_head hcf]
    simp

theorem urlsplit_reassembled (scheme netloc : String) (comp : List Char) (q : String)
    (hs : scheme = "" ∨ ((∃ c0 cs, scheme.data = c0 :: cs ∧ isAsciiAlphaCh c0 = true) ∧
          (∀ c ∈ scheme.data, schemeCh c = true) ∧
          scheme.data.map asciiLowerCh = scheme.data))
    (hn : ∀ c ∈ netloc.data, nlCh c = true)
    (hc : ∀ c ∈ comp, pathCh c = true)
    (hch : comp = [] ∨ ∃ t, comp = '/' :: t)
    (hq : ∀ c ∈ q.data, pathCh c = true) :
    urlsplitPy "" ⟨(if scheme = "" then [] else scheme.data ++ [':']) ++
        ('/' :: '/' :: (netloc.data ++ (comp ++
          (if q = "" then [] else '?' :: q.data))))⟩ =
      (scheme, netloc, ⟨comp⟩, q, "") := by
  -- the trailing query part and the body after the authority
  have hqp : ∀ c ∈ (if q = "" then [] else '?' :: q.data), tabCrLf c = false := by
    intro c hcm
    split at hcm
    · simp at hcm
    · rw [List.mem_cons] at hcm
      rcases hcm with rfl | hcm
      · rfl
      · exact pathCh_not_tab (hq c hcm)
  have hbody : ∀ c ∈ '/' :: '/' :: (netloc.data ++ (comp ++
      (if q = "" then [] else '?' :: q.data))), tabCrLf c = false := by
    intro c hcm
    rw [List.mem_cons] at hcm
    rcases hcm with rfl | hcm
    · rfl
    rw [List.mem_cons] at hcm
    rcases hcm with rfl | hcm
    · rfl
    rcases List.mem_append.mp hcm with hcm | hcm
    · exact nlCh_not_tab (hn c hcm)
    rcases List.mem_append.mp hcm with hcm | hcm
    · exact pathCh_not_tab (hc c hcm)
    · exact hqp c hcm
  -- the fragment / query stages
  have hfr : splitFrag (comp ++ (if q = "" then [] else '?' :: q.data)) =
      (comp ++ (if q = "" then [] else '?' :: q.data), []) := by
    have hno : '#' ∉ comp ++ (if q = "" then [] else '?' :: q.data) := by
      intro hmem
      rcases List.mem_append.mp hmem with hm | hm
      · exact pathCh_ne_hash (hc _ hm) rfl
      · split at hm
        · simp at hm
        · rw [List.mem_cons] at hm
          rcases hm with hm | hm
          · exact absurd hm (by decide)
          · exact pathCh_ne_hash (hq _ hm) rfl
    simp only [splitFrag, splitAtFirst_none.mpr hno]
  have hqm : '?' ∉ comp := fun hm => pathCh_ne_qm (hc _ hm) rfl
  have hquer : splitQuery (comp ++ (if q = "" then [] else '?' :: q.data)) =
      (comp, q.data) := by
    by_cases hq0 : q = ""
    · rw [if_pos hq0]
      have hno : '?' ∉ comp ++ ([] : List Char) := by
        rw [List.append_nil]; exact hqm
      simp only [splitQuery, splitAtFirst_none.mpr hno]
      rw [hq0]
      simp
    · rw [if_neg hq0]
      simp only [splitQuery, splitAtFirst_append_notin q.data hqm]
  -- netloc shape for the netloc stage
  have hrest : comp ++ (if q = "" then [] else '?' :: q.data) = [] ∨
      ∃ c t, comp ++ (if q = "" then [] else '?' :: q.data) = c :: t ∧
        netlocDelim c = true := by
    rcases hch with rfl | ⟨t, rfl⟩
    · rw [List.nil_append]
      by_cases hq0 : q = ""
      · left; rw [if_pos hq0]
      · right; rw [if_neg hq0]; exact ⟨'?', q.data, rfl, by rfl⟩
    · right; exact ⟨'/', t ++ _, rfl, by rfl⟩
  have hnl2 := splitNetloc_reassembled hn hrest
  rcases hs with hs0 | ⟨⟨c0, cs, hc0, ha0⟩, hall, hmap⟩
  · -- no scheme: the string starts with `//`
    subst hs0
    rw [if_pos rfl, List.nil_append]
    have h1 : urlPre ⟨'/' :: '/' :: (netloc.data ++ (comp ++
        (if q = "" then [] else '?' :: q.data)))⟩ =
        '/' :: '/' :: (netloc.data ++ (comp ++
          (if q = "" then [] else '?' :: q.data))) := by
      rw [urlPre]
      show (('/' :: '/' :: (netloc.data ++ _)).dropWhile c0OrSpace).filter _ = _
      rw [List.dropWhile_cons,
        if_neg (by rw [(by rfl : c0OrSpace '/' = false)]; exact Bool.false_ne_true)]
      exact List.filter_eq_self.mpr (fun c hcm => by rw [hbody c hcm]; rfl)
    rw [urlsplitPy_eq0, h1, splitScheme_slash_head]
    simp only [hnl2, hfr, hquer]
  · -- detected scheme
    have hne : scheme ≠ "" := by
      intro h0
      rw [string_eq_empty_iff, hc0] at h0
      simp at h0
    rw [if_neg hne]
    have hshape : (scheme.data ++ [':']) ++ ('/' :: '/' :: (netloc.data ++ (comp ++
        (if q = "" then [] else '?' :: q.data)))) =
        scheme.data ++ ':' :: ('/' :: '/' :: (netloc.data ++ (comp ++
          (if q = "" then [] else '?' :: q.data)))) := by
      simp [List.append_assoc]
    rw [hshape]
    have h1 : urlPre ⟨scheme.data ++ ':' :: ('/' :: '/' :: (netloc.data ++ (comp ++
        (if q = "" then [] else '?' :: q.data))))⟩ =
        scheme.data ++ ':' :: ('/' :: '/' :: (netloc.data ++ (comp ++
          (if q = "" then [] else '?' :: q.data)))) := by
      rw [urlPre]
      have hcons : scheme.data ++ ':' :: ('/' :: '/' :: (netloc.data ++ (comp ++
          (if q = "" then [] else '?' :: q.data)))) =
          c0 :: (cs ++ ':' :: ('/' :: '/' :: (netloc.data ++ (comp ++
            (if q = "" then [] else '?' :: q.data))))) := by
        rw [hc0]; rfl
      show ((scheme.data ++ ':' :: _).dropWhile c0OrSpace).filter _ = _
      rw [hcons, List.dropWhile_cons,
        if_neg (by rw [alpha_not_c0 ha0]; exact Bool.false_ne_true)]
      rw [← hcons]
      refine List.filter_eq_self.mpr (fun c hcm => ?_)
      rcases List.mem_append.mp hcm with hcm | hcm
      · rw [schemeCh_not_tab (hall c hcm)]
        rfl
      rw [List.mem_cons] at hcm
      rcases hcm with rfl | hcm
      · rfl
      · rw [hbody c hcm]; rfl
    rw [urlsplitPy_eq0, h1, splitScheme_detect hc0 ha0 hall hmap]
    simp only [hnl2, hfr, hquer]

/-! ### The reparse fixpoint: `urlparse (urlunparse p) = p` for parse-shaped `p` (C5) -/

theorem parse_unparse {p : UrlParts} (hg : PGood p) (hnl : p.netloc.data ≠ [])
    (hq : ∀ c ∈ p.query.data, pathCh c = true) (hf : p.fragment = "") :
    parseUrl (unparseUrl p) = p := by
  obtain ⟨hs, hn, hpp⟩ := hg
  obtain ⟨l, hlc, hlh, hle⟩ := hpp hnl
  obtain ⟨hma, hmb⟩ := pathParams_mem hle
  have hpathc : ∀ c ∈ p.path.data, pathCh c = true := fun c hc => hlc c (hma c hc)
  have hparc : ∀ c ∈ p.par.data, pathCh c = true := fun c hc => hlc c (hmb c hc)
  have hnstr : p.netloc ≠ "" := fun h0 => hnl (string_eq_empty_iff.mp h0)
  -- facts about the composite path-with-params
  have hcompc : ∀ c ∈ (if p.par ≠ "" then p.path.data ++ ';' :: p.par.data
      else p.path.data), pathCh c = true := by
    intro c hc
    split at hc
    · rcases List.mem_append.mp hc with hm | hm
      · exact hpathc c hm
      · rw [List.mem_cons] at hm
        rcases hm with rfl | hm
        · decide
        · exact hparc c hm
    · exact hpathc c hc
  have hch : (if p.par ≠ "" then p.path.data ++ ';' :: p.par.data
      else p.path.data) = [] ∨
      ∃ t, (if p.par ≠ "" then p.path.data ++ ';' :: p.par.data
        else p.path.data) = '/' :: t := by
    rcases pathParams_head hle hlh with ⟨hpe, hbe⟩ | ⟨t0, hph⟩
    · left
      rw [if_neg (not_not_intro (string_eq_empty_iff.mpr hbe))]
      exact hpe
    · by_cases hpar : p.par = ""
      · right
        rw [if_neg (not_not_intro hpar), hph]
        exact ⟨t0, rfl⟩
      · right
        rw [if_pos hpar, hph, List.cons_append]
        exact ⟨t0 ++ ';' :: p.par.data, rfl⟩
  have hsplit := urlsplit_reassembled p.scheme p.netloc
    (if p.par ≠ "" then p.path.data ++ ';' :: p.par.data else p.path.data) p.query
    hs hn hcompc hch hq
  have hbridge : (⟨(if p.scheme = "" then [] else p.scheme.data ++ [':']) ++
      '/' :: '/' :: p.netloc.data ++
      (if p.par ≠ "" then p.path.data ++ ';' :: p.par.data else p.path.data) ++
      (if p.query = "" then [] else '?' :: p.query.data) ++
      (if p.fragment = "" then [] else '#' :: p.fragment.data)⟩ : String) =
      ⟨(if p.scheme = "" then [] else p.scheme.data ++ [':']) ++
        ('/' :: '/' :: (p.netloc.data ++
          ((if p.par ≠ "" then p.path.data ++ ';' :: p.par.data else p.path.data) ++
           (if p.query = "" then [] else '?' :: p.query.data))))⟩ := by
    show String.mk _ = String.mk _
    rw [hf]
    simp [List.append_assoc]
  have hfix := pathParams_fix hle
  have hcomp_eq : (if p.par ≠ "" then p.path.data ++ ';' :: p.par.data
      else p.path.data) =
      (if p.par.data ≠ [] then p.path.data ++ ';' :: p.par.data else p.path.data) :=
    if_congr (not_congr string_eq_empty_iff) rfl rfl
  rw [← hcomp_eq] at hfix
  rw [unparse_shape p hnstr hch, hbridge, parseUrl, urlparsePy_eq, hsplit]
  simp only [hfix]
  show UrlParts.mk p.scheme p.netloc ⟨p.path.data⟩ ⟨p.par.data⟩ p.query "" = p
  rw [← hf]

/-! ### Character classes of `quote_plus` / `urlencode` output (C5) -/

theorem alwaysSafeCh_iff {c : Char} : alwaysSafeCh c = true ↔
    ((97 ≤ c.toNat ∧ c.toNat ≤ 122) ∨ (65 ≤ c.toNat ∧ c.toNat ≤ 90) ∨
     (48 ≤ c.toNat ∧ c.toNat ≤ 57) ∨ c.toNat = 95 ∨ c.toNat = 46 ∨ c.toNat = 45 ∨
     c.toNat = 126) := by
  rw [alwaysSafeCh]
  simp only [Bool.or_eq_true, isAsciiAlnumCh_iff, decide_eq_true_eq, char_eq_iff_toNat,
    (by decide : Char.toNat '_' = 95), (by decide : Char.toNat '.' = 46),
    (by decide : Char.toNat '-' = 45), (by decide : Char.toNat '~' = 126)]
  omega

/-- Characters that `quote_plus` can emit: always-safe characters, `+`, `%`
and upper-case hex digits. -/
def qpCh (c : Char) : Bool :=
  alwaysSafeCh c || c = '+' || c = '%' || ('0' ≤ c && c ≤ '9') || ('A' ≤ c && c ≤ 'F')

theorem qpCh_iff {c : Char} : qpCh c = true ↔
    ((97 ≤ c.toNat ∧ c.toNat ≤ 122) ∨ (65 ≤ c.toNat ∧ c.toNat ≤ 90) ∨
     (48 ≤ c.toNat ∧ c.toNat ≤ 57) ∨ c.toNat = 95 ∨ c.toNat = 46 ∨ c.toNat = 45 ∨
     c.toNat = 126 ∨ c.toNat = 43 ∨ c.toNat = 37) := by
  rw [qpCh]
  simp only [Bool.or_eq_true, Bool.and_eq_true, alwaysSafeCh_iff, decide_eq_true_eq,
    char_eq_iff_toNat, char_le_iff,
    (by decide : Char.toNat '+' = 43), (by decide : Char.toNat '%' = 37),
    (by decide : Char.toNat '0' = 48), (by decide : Char.toNat '9' = 57),
    (by decide : Char.toNat 'A' = 65), (by decide : Char.toNat 'F' = 70)]
  omega

theorem qpCh_qGood {c : Char} (h : qpCh c = true) : qGoodCh c = true := by
  rw [qpCh_iff] at h
  rw [qGoodCh_iff]
  omega

theorem qpCh_ne_amp {c : Char} (h : qpCh c = true) : c ≠ '&' := by
  rw [qpCh_iff] at h
  intro h2
  subst h2
  revert h
  decide

theorem qpCh_ne_eqs {c : Char} (h : qpCh c = true) : c ≠ '=' := by
  rw [qpCh_iff] at h
  intro h2
  subst h2
  revert h
  decide

theorem hexUpper_qp {n : Nat} (h : n < 16) : qpCh (hexUpper n) = true := by
  rw [qpCh_iff, hexUpper]
  by_cases h10 : n < 10
  · rw [if_pos h10, char_toNat_ofNat (Or.inl (by omega))]
    omega
  · rw [if_neg h10, char_toNat_ofNat (Or.inl (by omega))]
    omega

theorem utf8Enc_lt {c : Char} : ∀ b ∈ utf8Enc c, b < 256 := by
  intro b hb
  have hv := char_toNat_valid c
  have hb2 : c.toNat < 0x110000 := by
    rcases hv with h | ⟨h1, h2⟩ <;> omega
  simp only [utf8Enc] at hb
  split at hb
  · simp only [List.mem_singleton] at hb
    omega
  · split at hb
    · simp only [List.mem_cons, List.mem_singleton] at hb
      rcases hb with rfl | rfl | h0
      · omega
      · omega
      · simp at h0
    · split at hb
      · simp only [List.mem_cons, List.mem_singleton] at hb
        rcases hb with rfl | rfl | rfl | h0
        · omega
        · omega
        · omega
        · simp at h0
      · simp only [List.mem_cons, List.mem_singleton] at hb
        rcases hb with rfl | rfl | rfl | rfl | h0
        · omega
        · omega
        · omega
        · omega
        · simp at h0

theorem quoteCh_chars {safe : List Char} {c : Char} :
    ∀ x ∈ quoteCh safe c, (alwaysSafeCh x = true ∨ x = '%' ∨
      (∃ n, n < 16 ∧ x = hexUpper n)) ∨ (x = c ∧ c ∈ safe) := by
  intro x hx
  rw [quoteCh] at hx
  split at hx
  · rename_i hcond
    rw [List.mem_singleton] at hx
    subst hx
    rw [Bool.or_eq_true] at hcond
    rcases hcond with hcond | hcond
    · exact Or.inl (Or.inl hcond)
    · exact Or.inr ⟨rfl, by simpa using hcond⟩
  · rw [List.mem_flatten] at hx
    obtain ⟨pe, hpe, hxpe⟩ := hx
    rw [List.mem_map] at hpe
    obtain ⟨b, hb, rfl⟩ := hpe
    have hb256 := utf8Enc_lt b hb
    rw [pctEncByte, List.mem_cons] at hxpe
    rcases hxpe with rfl | hxpe
    · exact Or.inl (Or.inr (Or.inl rfl))
    rw [List.mem_cons, List.mem_singleton] at hxpe
    rcases hxpe with rfl | rfl
    · exact Or.inl (Or.inr (Or.inr ⟨b / 16, by omega, rfl⟩))
    · exact Or.inl (Or.inr (Or.inr ⟨b % 16, by omega, rfl⟩))

theorem quotePlus_chars {s : String} : ∀ x ∈ (quotePlus s).data, qpCh x = true := by
  intro x hx
  rw [quotePlus] at hx
  split at hx
  · rw [List.mem_map] at hx
    obtain ⟨y, hy, rfl⟩ := hx
    rw [quotePy, List.mem_flatten] at hy
    obtain ⟨pe, hpe, hype⟩ := hy
    rw [List.mem_map] at hpe
    obtain ⟨c, hcm, rfl⟩ := hpe
    rcases quoteCh_chars y hype with (h | rfl | ⟨n, hn, rfl⟩) | ⟨rfl, hysafe⟩
    · have hyne : y ≠ ' ' := by
        intro h2
        subst h2
        exact absurd h (by decide)
      rw [if_neg hyne, qpCh, h]
      rfl
    · rw [if_neg (by decide), qpCh]
      simp
    · have hq := hexUpper_qp hn
      have hyne : hexUpper n ≠ ' ' := by
        intro h2
        have h3 := congrArg Char.toNat h2
        rw [(by decide : Char.toNat ' ' = 32)] at h3
        rw [qpCh_iff] at hq
        omega
      rw [if_neg hyne]
      exact hq
    · rw [List.mem_singleton] at hysafe
      subst hysafe
      rw [if_pos rfl, qpCh]
      simp
  · rw [quotePy, List.mem_flatten] at hx
    obtain ⟨pe, hpe, hxpe⟩ := hx
    rw [List.mem_map] at hpe
    obtain ⟨c, hcm, rfl⟩ := hpe
    rcases quoteCh_chars x hxpe with (h | rfl | ⟨n, hn, rfl⟩) | ⟨rfl, hxsafe⟩
    · rw [qpCh, h]; rfl
    · rw [qpCh]; simp
    · exact hexUpper_qp hn
    · simp at hxsafe

theorem intercalate_cons_cons {sep a b : List Char} {L : List (List Char)} :
    List.intercalate sep (a :: b :: L) = a ++ (sep ++ List.intercalate sep (b :: L)) := by
  simp [List.intercalate]

theorem mem_intercalate_amp {x : Char} : ∀ {L : List (List Char)},
    x ∈ List.intercalate ['&'] L → x = '&' ∨ ∃ l ∈ L, x ∈ l := by
  intro L
  induction L with
  | nil => intro h; simp [List.intercalate] at h
  | cons a L ih =>
    match L with
    | [] =>
      intro h
      simp only [List.intercalate, List.intersperse_single, List.flatten,
        List.append_nil] at h
      exact Or.inr ⟨a, by simp, by simpa using h⟩
    | b :: L' =>
      intro h
      rw [intercalate_cons_cons] at h
      rcases List.mem_append.mp h with h2 | h2
      · exact Or.inr ⟨a, by simp, h2⟩
      rcases List.mem_append.mp h2 with h3 | h3
      · rw [List.mem_singleton] at h3
        exact Or.inl h3
      · rcases ih h3 with h4 | ⟨l, hl, hxl⟩
        · exact Or.inl h4
        · exact Or.inr ⟨l, List.mem_cons_of_mem a hl, hxl⟩

theorem urlencode_chars {m : List (String × List String)} :
    ∀ x ∈ (urlencodePy m).data, qGoodCh x = true := by
  intro x hx
  rw [urlencodePy] at hx
  rcases mem_intercalate_amp hx with rfl | ⟨l, hl, hxl⟩
  · decide
  · rw [List.mem_flatten] at hl
    obtain ⟨pieces, hp, hlp⟩ := hl
    rw [List.mem_map] at hp
    obtain ⟨kv, hkv, rfl⟩ := hp
    rw [List.mem_map] at hlp
    obtain ⟨v, hv, rfl⟩ := hlp
    rcases List.mem_append.mp hxl with h2 | h2
    · exact qpCh_qGood (quotePlus_chars x h2)
    rw [List.mem_cons] at h2
    rcases h2 with rfl | h2
    · decide
    · exact qpCh_qGood (quotePlus_chars x h2)

/-! ### The `quote_plus` / `unquote` round trip (C5) -/

theorem hexVal?_hexUpper : ∀ n : Nat, n < 16 → hexVal? (hexUpper n) = some n := by
  decide

theorem unquoteBytes_cons_notpct {c : Char} (h : c ≠ '%') (cs : List Char) :
    unquoteBytes (c :: cs) = utf8Enc c ++ unquoteBytes cs := by
  rw [unquoteBytes.eq_3 c cs (fun c1 c2 rest hc _ => h hc)]

theorem unquoteBytes_pct {b : Nat} (hb : b < 256) (rest : List Char) :
    unquoteBytes ('%' :: hexUpper (b / 16) :: hexUpper (b % 16) :: rest) =
      b :: unquoteBytes rest := by
  have h1 := hexVal?_hexUpper (b / 16) (by omega)
  have h2 := hexVal?_hexUpper (b % 16) (by omega)
  rw [unquoteBytes.eq_2, h1, h2]
  show (b / 16 * 16 + b % 16) :: unquoteBytes rest = b :: unquoteBytes rest
  congr 1
  omega

theorem unquoteBytes_encTriples : ∀ {bs : List Nat}, (∀ b ∈ bs, b < 256) →
    ∀ rest, unquoteBytes ((bs.map pctEncByte).flatten ++ rest) = bs ++ unquoteBytes rest := by
  intro bs
  induction bs with
  | nil => intro _ rest; simp
  | cons b bs ih =>
    intro hlt rest
    rw [List.map_cons, List.flatten_cons, List.append_assoc, pctEncByte]
    rw [show ('%' :: [hexUpper (b / 16), hexUpper (b % 16)]) ++
      ((bs.map pctEncByte).flatten ++ rest) = '%' :: hexUpper (b / 16) ::
        hexUpper (b % 16) :: ((bs.map pctEncByte).flatten ++ rest) from rfl]
    rw [unquoteBytes_pct (hlt b (List.mem_cons_self b bs))]
    rw [ih (fun x hx => hlt x (List.mem_cons_of_mem b hx))]
    rfl

theorem utf8Enc_ne_nil (c : Char) : utf8Enc c ≠ [] := by
  rw [utf8Enc]
  split
  · simp
  · split
    · simp
    · split
      · simp
      · simp

theorem unquoteBytes_quote {safe : List Char} (hp : '%' ∉ safe) :
    ∀ s : List Char, unquoteBytes ((s.map (quoteCh safe)).flatten) = utf8EncL s := by
  intro s
  induction s with
  | nil => rfl
  | cons c cs ih =>
    rw [List.map_cons, List.flatten_cons, utf8EncL, List.map_cons, List.flatten_cons]
    rw [quoteCh]
    split
    · rename_i hcond
      have hcp : c ≠ '%' := by
        intro h0
        subst h0
        rw [Bool.or_eq_true] at hcond
        rcases hcond with h2 | h2
        · exact absurd h2 (by decide)
        · exact hp (by simpa using h2)
      rw [List.singleton_append, unquoteBytes_cons_notpct hcp]
      rw [ih]
      rfl
    · rw [unquoteBytes_encTriples utf8Enc_lt ((cs.map (quoteCh safe)).flatten)]
      rw [ih]
      rfl

/-- One-step unfolding of the UTF-8 `replace` decoder on a cons cell, with
the `lo`/`hi` ranges inlined. -/
theorem utf8DecodeReplace_cons (b : Nat) (bs : List Nat) :
    utf8DecodeReplace (b :: bs) =
      (if b < 128 then Char.ofNat b :: utf8DecodeReplace bs
       else if (decide (194 ≤ b) && decide (b ≤ 223)) = true then
         match bs with
         | b1 :: bs1 =>
           if utf8ContB b1 = true then
             Char.ofNat ((b - 192) * 64 + (b1 - 128)) :: utf8DecodeReplace bs1
           else replCh :: utf8DecodeReplace (b1 :: bs1)
         | [] => [replCh]
       else if (decide (224 ≤ b) && decide (b ≤ 239)) = true then
         match bs with
         | b1 :: bs1 =>
           if (decide ((if b = 224 then 160 else 128) ≤ b1) &&
               decide (b1 ≤ if b = 237 then 159 else 191)) = true then
             match bs1 with
             | b2 :: bs2 =>
               if utf8ContB b2 = true then
                 Char.ofNat ((b - 224) * 4096 + (b1 - 128) * 64 + (b2 - 128)) ::
                   utf8DecodeReplace bs2
               else replCh :: utf8DecodeReplace (b2 :: bs2)
             | [] => [replCh]
           else replCh :: utf8DecodeReplace (b1 :: bs1)
         | [] => [replCh]
       else if (decide (240 ≤ b) && decide (b ≤ 244)) = true then
         match bs with
         | b1 :: bs1 =>
           if (decide ((if b = 240 then 144 else 128) ≤ b1) &&
               decide (b1 ≤ if b = 244 then 143 else 191)) = true then
             match bs1 with
             | b2 :: bs2 =>
               if utf8ContB b2 = true then
                 match bs2 with
                 | b3 :: bs3 =>
                   if utf8ContB b3 = true then
                     Char.ofNat ((b - 240) * 262144 + (b1 - 128) * 4096 +
                       (b2 - 128) * 64 + (b3 - 128)) :: utf8DecodeReplace bs3
                   else replCh :: utf8DecodeReplace (b3 :: bs3)
                 | [] => [replCh]
               else replCh :: utf8DecodeReplace (b2 :: bs2)
             | [] => [replCh]
           else replCh :: utf8DecodeReplace (b1 :: bs1)
         | [] => [replCh]
       else replCh :: utf8DecodeReplace bs) := by
  match bs with
  | [] => rfl
  | [b1] => rfl
  | [b1, b2] => rfl
  | b1 :: b2 :: b3 :: bs3 => rfl

theorem utf8Dec_one {b : Nat} (h : b < 128) (bs : List Nat) :
    utf8DecodeReplace (b :: bs) = Char.ofNat b :: utf8DecodeReplace bs := by
  rw [utf8DecodeReplace_cons, if_pos h]

theorem utf8Dec_two {b b1 : Nat} (h : 194 ≤ b ∧ b ≤ 223) (hc : utf8ContB b1 = true)
    (bs : List Nat) :
    utf8DecodeReplace (b :: b1 :: bs) =
      Char.ofNat ((b - 192) * 64 + (b1 - 128)) :: utf8DecodeReplace bs := by
  rw [utf8DecodeReplace_cons]
  rw [if_neg (by omega), if_pos (by simp only [Bool.and_eq_true, decide_eq_true_eq]; omega)]
  show (if utf8ContB b1 = true then
      Char.ofNat ((b - 192) * 64 + (b1 - 128)) :: utf8DecodeReplace bs
    else replCh :: utf8DecodeReplace (b1 :: bs)) = _
  rw [if_pos hc]

theorem utf8Dec_three {b b1 b2 : Nat} (h : 224 ≤ b ∧ b ≤ 239)
    (h1 : (decide ((if b = 224 then 160 else 128) ≤ b1) &&
      decide (b1 ≤ if b = 237 then 159 else 191)) = true)
    (h2 : utf8ContB b2 = true) (bs : List Nat) :
    utf8DecodeReplace (b :: b1 :: b2 :: bs) =
      Char.ofNat ((b - 224) * 4096 + (b1 - 128) * 64 + (b2 - 128)) ::
        utf8DecodeReplace bs := by
  rw [utf8DecodeReplace_cons]
  rw [if_neg (by omega), if_neg (by simp only [Bool.and_eq_true, decide_eq_true_eq]; omega)]
  rw [if_pos (by simp only [Bool.and_eq_true, decide_eq_true_eq]; omega)]
  show (if (decide ((if b = 224 then 160 else 128) ≤ b1) &&
      decide (b1 ≤ if b = 237 then 159 else 191)) = true then
      (if utf8ContB b2 = true then
        Char.ofNat ((b - 224) * 4096 + (b1 - 128) * 64 + (b2 - 128)) ::
          utf8DecodeReplace bs
      else replCh :: utf8DecodeReplace (b2 :: bs))
    else replCh :: utf8DecodeReplace (b1 :: b2 :: bs)) = _
  rw [if_pos h1, if_pos h2]

theorem utf8Dec_four {b b1 b2 b3 : Nat} (h : 240 ≤ b ∧ b ≤ 244)
    (h1 : (decide ((if b = 240 then 144 else 128) ≤ b1) &&
      decide (b1 ≤ if b = 244 then 143 else 191)) = true)
    (h2 : utf8ContB b2 = true) (h3 : utf8ContB b3 = true) (bs : List Nat) :
    utf8DecodeReplace (b :: b1 :: b2 :: b3 :: bs) =
      Char.ofNat ((b - 240) * 262144 + (b1 - 128) * 4096 + (b2 - 128) * 64 +
        (b3 - 128)) :: utf8DecodeReplace bs := by
  rw [utf8DecodeReplace_cons]
  rw [if_neg (by omega), if_neg (by simp only [Bool.and_eq_true, decide_eq_true_eq]; omega)]
  rw [if_neg (by simp only [Bool.and_eq_true, decide_eq_true_eq]; omega)]
  rw [if_pos (by simp only [Bool.and_eq_true, decide_eq_true_eq]; omega)]
  show (if (decide ((if b = 240 then 144 else 128) ≤ b1) &&
      decide (b1 ≤ if b = 244 then 143 else 191)) = true then
      (if utf8ContB b2 = true then
        (if utf8ContB b3 = true then
          Char.ofNat ((b - 240) * 262144 + (b1 - 128) * 4096 + (b2 - 128) * 64 +
            (b3 - 128)) :: utf8DecodeReplace bs
        else replCh :: utf8DecodeReplace (b3 :: bs))
      else replCh :: utf8DecodeReplace (b2 :: b3 :: bs))
    else replCh :: utf8DecodeReplace (b1 :: b2 :: b3 :: bs)) = _
  rw [if_pos h1, if_pos h2, if_pos h3]

theorem utf8_decode_enc (c : Char) (rest : List Nat) :
    utf8DecodeReplace (utf8Enc c ++ rest) = c :: utf8DecodeReplace rest := by
  have hv := char_toNat_valid c
  have hvn : c.toNat < 0xd800 ∨ (0xdfff < c.toNat ∧ c.toNat < 0x110000) := hv
  rw [utf8Enc]
  by_cases h1 : c.toNat < 0x80
  · rw [if_pos h1, List.cons_append, List.nil_append, utf8Dec_one h1, Char.ofNat_toNat]
  · rw [if_neg h1]
    by_cases h2 : c.toNat < 0x800
    · rw [if_pos h2]
      rw [show ([0xC0 + c.toNat / 64, 0x80 + c.toNat % 64] : List Nat) ++ rest =
        (0xC0 + c.toNat / 64) :: (0x80 + c.toNat % 64) :: rest from rfl]
      rw [utf8Dec_two (by omega) (by rw [utf8ContB]
                                     simp only [Bool.and_eq_true, decide_eq_true_eq]
                                     omega)]
      have hval : (0xC0 + c.toNat / 64 - 192) * 64 + (0x80 + c.toNat % 64 - 128) =
          c.toNat := by omega
      rw [hval, Char.ofNat_toNat]
    · rw [if_neg h2]
      by_cases h3 : c.toNat < 0x10000
      · rw [if_pos h3]
        rw [show ([0xE0 + c.toNat / 4096, 0x80 + c.toNat / 64 % 64,
          0x80 + c.toNat % 64] : List Nat) ++ rest = (0xE0 + c.toNat / 4096) ::
            (0x80 + c.toNat / 64 % 64) :: (0x80 + c.toNat % 64) :: rest from rfl]
        rw [utf8Dec_three (by omega)
          (by simp only [Bool.and_eq_true, decide_eq_true_eq]
              split_ifs <;> omega)
          (by rw [utf8ContB]
              simp only [Bool.and_eq_true, decide_eq_true_eq]
              omega)]
        have hval : (0xE0 + c.toNat / 4096 - 224) * 4096 +
            (0x80 + c.toNat / 64 % 64 - 128) * 64 + (0x80 + c.toNat % 64 - 128) =
            c.toNat := by omega
        rw [hval, Char.ofNat_toNat]
      · rw [if_neg h3]
        rw [show ([0xF0 + c.toNat / 0x40000, 0x80 + c.toNat / 4096 % 64,
          0x80 + c.toNat / 64 % 64, 0x80 + c.toNat % 64] : List Nat) ++ rest =
            (0xF0 + c.toNat / 0x40000) :: (0x80 + c.toNat / 4096 % 64) ::
            (0x80 + c.toNat / 64 % 64) :: (0x80 + c.toNat % 64) :: rest from rfl]
        rw [utf8Dec_four (by omega)
          (by simp only [Bool.and_eq_true, decide_eq_true_eq]
              split_ifs <;> omega)
          (by rw [utf8ContB]
              simp only [Bool.and_eq_true, decide_eq_true_eq]
              omega)
          (by rw [utf8ContB]
              simp only [Bool.and_eq_true, decide_eq_true_eq]
              omega)]
        have hval : (0xF0 + c.toNat / 0x40000 - 240) * 262144 +
            (0x80 + c.toNat / 4096 % 64 - 128) * 4096 +
            (0x80 + c.toNat / 64 % 64 - 128) * 64 + (0x80 + c.toNat % 64 - 128) =
            c.toNat := by omega
        rw [hval, Char.ofNat_toNat]

theorem utf8_decode_encL (s : List Char) : utf8DecodeReplace (utf8EncL s) = s := by
  induction s with
  | nil => rfl
  | cons c cs ih =>
    rw [utf8EncL, List.map_cons, List.flatten_cons]
    rw [show ((cs.map utf8Enc).flatten) = utf8EncL cs from rfl]
    rw [utf8_decode_enc, ih]

/-! ### `quote_plus` round trip at the string level, and non-emptiness (C5) -/

theorem hexUpper_toNat {n : Nat} (h : n < 16) :
    (48 ≤ (hexUpper n).toNat ∧ (hexUpper n).toNat ≤ 57) ∨
      (65 ≤ (hexUpper n).toNat ∧ (hexUpper n).toNat ≤ 70) := by
  rw [hexUpper]
  by_cases h10 : n < 10
  · rw [if_pos h10, char_toNat_ofNat (Or.inl (by omega))]
    omega
  · rw [if_neg h10, char_toNat_ofNat (Or.inl (by omega))]
    omega

theorem quotePy_no_plus {safe : List Char} (hs : '+' ∉ safe) (s : String) :
    ∀ x ∈ (s.data.map (quoteCh safe)).flatten, x ≠ '+' := by
  intro x hx
  rw [List.mem_flatten] at hx
  obtain ⟨pe, hpe, hxpe⟩ := hx
  rw [List.mem_map] at hpe
  obtain ⟨c, hcm, rfl⟩ := hpe
  rcases quoteCh_chars x hxpe with (h | rfl | ⟨n, hn, rfl⟩) | ⟨rfl, hxsafe⟩
  · intro h0
    subst h0
    rw [alwaysSafeCh_iff] at h
    revert h
    decide
  · decide
  · intro h0
    have h2 := congrArg Char.toNat h0
    rw [(by decide : Char.toNat '+' = 43)] at h2
    rcases hexUpper_toNat hn with h3 | h3 <;> omega
  · intro h0
    subst h0
    exact hs hxsafe

theorem plusToSpace_swap {l : List Char} (hnp : ∀ x ∈ l, x ≠ '+') :
    plusToSpace (l.map (fun c => if c = ' ' then '+' else c)) = l := by
  rw [plusToSpace, List.map_map]
  have h2 : ∀ a ∈ l, ((fun c => if c = '+' then ' ' else c) ∘
      (fun c => if c = ' ' then '+' else c)) a = a := by
    intro a ha
    by_cases hsp : a = ' '
    · subst hsp; simp
    · show (if (if a = ' ' then '+' else a) = '+' then ' '
        else (if a = ' ' then '+' else a)) = a
      rw [if_neg hsp, if_neg (hnp a ha)]
  rw [List.map_congr_left h2]
  exact List.map_id l

theorem plusToSpace_id {l : List Char} (hnp : ∀ x ∈ l, x ≠ '+') :
    plusToSpace l = l := by
  rw [plusToSpace]
  have h2 : ∀ a ∈ l, (fun c => if c = '+' then ' ' else c) a = a := by
    intro a ha
    show (if a = '+' then ' ' else a) = a
    rw [if_neg (hnp a ha)]
  rw [List.map_congr_left h2]
  exact List.map_id l

theorem unquote_quotePlus (s : String) :
    unquotePy ⟨plusToSpace (quotePlus s).data⟩ = s := by
  rw [quotePlus]
  split
  · show (⟨utf8DecodeReplace (unquoteBytes (plusToSpace
      ((s.data.map (quoteCh [' '])).flatten.map (fun c => if c = ' ' then '+' else c))))⟩ :
        String) = s
    rw [plusToSpace_swap (quotePy_no_plus (by decide) s)]
    rw [unquoteBytes_quote (by decide), utf8_decode_encL]
  · show (⟨utf8DecodeReplace (unquoteBytes (plusToSpace
      ((s.data.map (quoteCh [])).flatten)))⟩ : String) = s
    rw [plusToSpace_id (quotePy_no_plus (by decide) s)]
    rw [unquoteBytes_quote (by decide), utf8_decode_encL]

theorem quoteCh_ne_nil (safe : List Char) (c : Char) : quoteCh safe c ≠ [] := by
  rw [quoteCh]
  split
  · simp
  · rcases hu : utf8Enc c with _ | ⟨b, bs⟩
    · exact absurd hu (utf8Enc_ne_nil c)
    · rw [List.map_cons, List.flatten_cons, pctEncByte]
      simp

theorem flatten_quote_ne_nil {safe : List Char} {s : String} (h : s.data ≠ []) :
    (s.data.map (quoteCh safe)).flatten ≠ [] := by
  rcases hd : s.data with _ | ⟨c, cs⟩
  · exact absurd hd h
  · rw [List.map_cons, List.flatten_cons]
    intro h0
    rcases List.append_eq_nil.mp h0 with ⟨h1, h2⟩
    exact quoteCh_ne_nil safe c h1

theorem quotePlus_ne_nil {s : String} (h : s.data ≠ []) : (quotePlus s).data ≠ [] := by
  rw [quotePlus]
  split
  · show (s.data.map (quoteCh [' '])).flatten.map _ ≠ []
    intro h0
    rw [List.map_eq_nil_iff] at h0
    exact flatten_quote_ne_nil h h0
  · exact flatten_quote_ne_nil h

theorem unquoteBytes_ne_nil {l : List Char} (h : l ≠ []) : unquoteBytes l ≠ [] := by
  rcases l with _ | ⟨c, cs⟩
  · exact absurd rfl h
  by_cases hc : c = '%'
  · subst hc
    rcases cs with _ | ⟨c1, cs1⟩
    · rw [unquoteBytes.eq_3 '%' [] (fun c1 c2 rest _ h2 => by cases h2)]
      intro h0
      rcases List.append_eq_nil.mp h0 with ⟨h1, h2⟩
      exact utf8Enc_ne_nil '%' h1
    rcases cs1 with _ | ⟨c2, cs2⟩
    · rw [unquoteBytes.eq_3 '%' [c1] (fun c1 c2 rest _ h2 => by cases h2)]
      intro h0
      rcases List.append_eq_nil.mp h0 with ⟨h1, h2⟩
      exact utf8Enc_ne_nil '%' h1
    · rw [unquoteBytes.eq_2]
      split
      · simp
      · intro h0
        rcases List.append_eq_nil.mp h0 with ⟨h1, h2⟩
        exact utf8Enc_ne_nil '%' h1
  · rw [unquoteBytes_cons_notpct hc]
    intro h0
    rcases List.append_eq_nil.mp h0 with ⟨h1, h2⟩
    exact utf8Enc_ne_nil c h1

theorem utf8DecodeReplace_ne_nil {l : List Nat} (h : l ≠ []) :
    utf8DecodeReplace l ≠ [] := by
  rcases l with _ | ⟨b, bs⟩
  · exact absurd rfl h
  rw [utf8DecodeReplace_cons]
  repeat' split
  all_goals simp

theorem unquotePy_ne_empty {s : String} (h : s.data ≠ []) : unquotePy s ≠ "" := by
  intro h0
  rw [unquotePy, string_eq_empty_iff] at h0
  exact utf8DecodeReplace_ne_nil (unquoteBytes_ne_nil h) h0

theorem plusToSpace_ne_nil {l : List Char} (h : l ≠ []) : plusToSpace l ≠ [] := by
  rw [plusToSpace]
  intro h0
  rw [List.map_eq_nil_iff] at h0
  exact h h0

/-! ### `splitOnChar` inverts `intercalate` on separator-free pieces (C5) -/

theorem splitOnChar_ne_nil {c : Char} : ∀ l : List Char, splitOnChar c l ≠ [] := by
  intro l
  induction l with
  | nil => simp [splitOnChar]
  | cons x xs ih =>
    rw [splitOnChar]
    split
    · simp
    · split
      · simp
      · simp

theorem splitOnChar_no_sep {c : Char} : ∀ {a : List Char}, c ∉ a →
    splitOnChar c a = [a] := by
  intro a
  induction a with
  | nil => intro _; rfl
  | cons x xs ih =>
    intro h
    rw [List.mem_cons, not_or] at h
    rw [splitOnChar, if_neg (fun h0 => h.1 h0.symm), ih h.2]

theorem splitOnChar_sep_append {c : Char} : ∀ {a : List Char} (l : List Char), c ∉ a →
    splitOnChar c (a ++ c :: l) = a :: splitOnChar c l := by
  intro a
  induction a with
  | nil =>
    intro l _
    rw [List.nil_append, splitOnChar, if_pos rfl]
  | cons x xs ih =>
    intro l h
    rw [List.mem_cons, not_or] at h
    rw [List.cons_append, splitOnChar, if_neg (fun h0 => h.1 h0.symm), ih l h.2]

theorem splitOnChar_intercalate {c : Char} : ∀ {P : List (List Char)}, P ≠ [] →
    (∀ p ∈ P, c ∉ p) → splitOnChar c (List.intercalate [c] P) = P := by
  intro P
  induction P with
  | nil => intro h _; exact absurd rfl h
  | cons p P ih =>
    intro _ hall
    match P with
    | [] =>
      rw [show List.intercalate [c] [p] = p by simp [List.intercalate]]
      exact splitOnChar_no_sep (hall p (List.mem_cons_self p []))
    | q :: P' =>
      rw [intercalate_cons_cons]
      rw [show p ++ ([c] ++ List.intercalate [c] (q :: P')) =
        p ++ c :: List.intercalate [c] (q :: P') from rfl]
      rw [splitOnChar_sep_append _ (hall p (List.mem_cons_self p _))]
      rw [ih (by simp) (fun x hx => hall x (List.mem_cons_of_mem p hx))]

/-! ### `parse_qsl ∘ urlencode` is the identity on well-formed maps (C5) -/

theorem qslStep_piece (k v : String) (hv : v.data ≠ []) :
    (if ((quotePlus k).data ++ '=' :: (quotePlus v).data) = [] then none
     else match splitAtFirst '=' ((quotePlus k).data ++ '=' :: (quotePlus v).data) with
       | none => none
       | some (n, w) =>
         if w = [] then none
         else some (unquotePy ⟨plusToSpace n⟩, unquotePy ⟨plusToSpace w⟩)) = some (k, v) := by
  rw [if_neg (by simp)]
  rw [splitAtFirst_append_notin _ (fun hm => qpCh_ne_eqs (quotePlus_chars _ hm) rfl)]
  show (if (quotePlus v).data = [] then none
    else some (unquotePy ⟨plusToSpace (quotePlus k).data⟩,
      unquotePy ⟨plusToSpace (quotePlus v).data⟩)) = some (k, v)
  rw [if_neg (quotePlus_ne_nil hv), unquote_quotePlus, unquote_quotePlus]

theorem filterMap_congr_some {α β : Type} {F : α → Option β} {h : α → β} :
    ∀ {l : List α}, (∀ a ∈ l, F a = some (h a)) → List.filterMap F l = l.map h := by
  intro l
  induction l with
  | nil => intro _; rfl
  | cons a l ih =>
    intro hall
    rw [List.filterMap_cons, hall a (List.mem_cons_self a l), List.map_cons,
      ih (fun x hx => hall x (List.mem_cons_of_mem a hx))]

theorem filterMap_qsl_block (k : String) : ∀ (vs : List String),
    (∀ v ∈ vs, v.data ≠ []) →
    List.filterMap (fun nv =>
      if nv = [] then none
      else
        match splitAtFirst '=' nv with
        | none => none
        | some (n, v) =>
          if v = [] then none
          else some (unquotePy ⟨plusToSpace n⟩, unquotePy ⟨plusToSpace v⟩))
      (vs.map (fun v => (quotePlus k).data ++ '=' :: (quotePlus v).data)) =
      vs.map (fun v => (k, v)) := by
  intro vs hk
  rw [List.filterMap_map]
  exact filterMap_congr_some (fun v hv => qslStep_piece k v (hk v hv))

theorem filterMap_qsl_pieces : ∀ (m : List (String × List String)),
    (∀ kv ∈ m, ∀ v ∈ kv.2, v.data ≠ []) →
    List.filterMap (fun nv =>
      if nv = [] then none
      else
        match splitAtFirst '=' nv with
        | none => none
        | some (n, v) =>
          if v = [] then none
          else some (unquotePy ⟨plusToSpace n⟩, unquotePy ⟨plusToSpace v⟩))
      ((m.map (fun kv => kv.2.map
        (fun v => (quotePlus kv.1).data ++ '=' :: (quotePlus v).data))).flatten) =
      (m.map (fun kv => kv.2.map (fun v => (kv.1, v)))).flatten := by
  intro m
  induction m with
  | nil => intro _; rfl
  | cons kv0 m' ih =>
    intro hvne
    rw [List.map_cons, List.flatten_cons, List.filterMap_append, List.map_cons,
      List.flatten_cons]
    congr 1
    · exact filterMap_qsl_block kv0.1 kv0.2 (hvne kv0 (List.mem_cons_self kv0 m'))
    · exact ih (fun kv hkv w hw => hvne kv (List.mem_cons_of_mem kv0 hkv) w hw)

theorem intercalate_amp_ne_nil {p : List Char} {P : List (List Char)} (hp : p ≠ []) :
    List.intercalate ['&'] (p :: P) ≠ [] := by
  match P with
  | [] =>
    rw [show List.intercalate ['&'] [p] = p by simp [List.intercalate]]
    exact hp
  | q :: P' =>
    rw [intercalate_cons_cons]
    intro h0
    rcases List.append_eq_nil.mp h0 with ⟨h1, h2⟩
    exact hp h1

theorem parseQsl_urlencode {m : List (String × List String)}
    (hvals : ∀ kv ∈ m, kv.2 ≠ []) (hvne : ∀ kv ∈ m, ∀ v ∈ kv.2, v.data ≠ []) :
    parseQsl (urlencodePy m) =
      (m.map (fun kv => kv.2.map (fun v => (kv.1, v)))).flatten := by
  match m with
  | [] => rfl
  | kv0 :: m' =>
    have hpieces : ∀ p ∈ ((kv0 :: m').map (fun kv => kv.2.map
        (fun v => (quotePlus kv.1).data ++ '=' :: (quotePlus v).data))).flatten,
        '&' ∉ p := by
      intro p hp hamp
      rw [List.mem_flatten] at hp
      obtain ⟨blk, hblk, hpblk⟩ := hp
      rw [List.mem_map] at hblk
      obtain ⟨kv, hkv, rfl⟩ := hblk
      rw [List.mem_map] at hpblk
      obtain ⟨v, hv, rfl⟩ := hpblk
      rcases List.mem_append.mp hamp with hm | hm
      · exact qpCh_ne_amp (quotePlus_chars _ hm) rfl
      rw [List.mem_cons] at hm
      rcases hm with hm | hm
      · exact absurd hm (by decide)
      · exact qpCh_ne_amp (quotePlus_chars _ hm) rfl
    have hshape : ((kv0 :: m').map (fun kv => kv.2.map
        (fun v => (quotePlus kv.1).data ++ '=' :: (quotePlus v).data))).flatten ≠ [] := by
      rcases hvs : kv0.2 with _ | ⟨v0, vs⟩
      · exact absurd hvs (hvals kv0 (List.mem_cons_self kv0 m'))
      · rw [List.map_cons, List.flatten_cons, hvs, List.map_cons]
        simp
    rcases hP : ((kv0 :: m').map (fun kv => kv.2.map
        (fun v => (quotePlus kv.1).data ++ '=' :: (quotePlus v).data))).flatten
      with _ | ⟨p0, P'⟩
    · exact absurd hP hshape
    · have hqs : urlencodePy (kv0 :: m') ≠ "" := by
        intro h0
        rw [string_eq_empty_iff] at h0
        rw [show (urlencodePy (kv0 :: m')).data = List.intercalate ['&']
          (((kv0 :: m').map (fun kv => kv.2.map
            (fun v => (quotePlus kv.1).data ++ '=' :: (quotePlus v).data))).flatten)
          from rfl, hP] at h0
        have hp0 : p0 ≠ [] := by
          have : p0 ∈ p0 :: P' := List.mem_cons_self p0 P'
          rw [← hP] at this
          rw [List.mem_flatten] at this
          obtain ⟨blk, hblk, hpblk⟩ := this
          rw [List.mem_map] at hblk
          obtain ⟨kv, hkv, rfl⟩ := hblk
          rw [List.mem_map] at hpblk
          obtain ⟨v, hv, rfl⟩ := hpblk
          simp
        exact intercalate_amp_ne_nil hp0 h0
      rw [parseQsl, if_neg hqs]
      rw [show (urlencodePy (kv0 :: m')).data = List.intercalate ['&']
        (((kv0 :: m').map (fun kv => kv.2.map
          (fun v => (quotePlus kv.1).data ++ '=' :: (quotePlus v).data))).flatten)
        from rfl]
      rw [splitOnChar_intercalate (by rw [hP]; simp) hpieces]
      exact filterMap_qsl_pieces (kv0 :: m') hvne

/-! ### Regrouping: `parse_qs ∘ urlencode` is the identity (C5) -/

theorem foldl_addVal_run {k : String} : ∀ (vs : List String)
    (acc : List (String × List String)) (l : List String),
    (∀ kv ∈ acc, kv.1 ≠ k) →
    List.foldl (fun a p => alistAddVal a p.1 p.2) (acc ++ [(k, l)])
      (vs.map (fun v => (k, v))) = acc ++ [(k, l ++ vs)] := by
  intro vs
  induction vs with
  | nil => intro acc l h; simp
  | cons v vs ih =>
    intro acc l h
    rw [List.map_cons, List.foldl_cons]
    have hstep : alistAddVal (acc ++ [(k, l)]) k v = acc ++ [(k, l ++ [v])] := by
      rw [alistAddVal, if_pos]
      · rw [List.map_append]
        congr 1
        · have h2 : ∀ kv ∈ acc,
              (fun kv => if (kv.1 == k) = true then (kv.1, kv.2 ++ [v]) else kv) kv =
                id kv := by
            intro kv hkv
            show (if (kv.1 == k) = true then (kv.1, kv.2 ++ [v]) else kv) = kv
            rw [if_neg]
            intro h0
            exact h kv hkv (by simpa using h0)
          rw [List.map_congr_left h2, List.map_id]
        · simp
      · rw [List.any_append]
        have h2 : List.any [(k, l)] (fun kv => kv.1 == k) = true := by simp
        rw [h2, Bool.or_true]
    rw [hstep]
    rw [ih acc (l ++ [v]) h, List.append_assoc]
    rfl

theorem foldl_addVal_grouped : ∀ (m : List (String × List String))
    (acc : List (String × List String)),
    (m.map Prod.fst).Nodup → (∀ kv ∈ m, kv.2 ≠ []) →
    (∀ kv ∈ m, ∀ kv' ∈ acc, kv'.1 ≠ kv.1) →
    List.foldl (fun a p => alistAddVal a p.1 p.2) acc
      ((m.map (fun kv => kv.2.map (fun v => (kv.1, v)))).flatten) = acc ++ m := by
  intro m
  induction m with
  | nil => intro acc _ _ _; simp
  | cons kv0 m' ih =>
    intro acc hnd hvals hdis
    simp only [List.map_cons, List.flatten_cons, List.foldl_append]
    rcases hvs : kv0.2 with _ | ⟨v0, vs⟩
    · exact absurd hvs (hvals kv0 (List.mem_cons_self kv0 m'))
    rw [List.map_cons, List.foldl_cons]
    have hstep1 : alistAddVal acc kv0.1 v0 = acc ++ [(kv0.1, [v0])] := by
      rw [alistAddVal, if_neg]
      intro h0
      rw [List.any_eq_true] at h0
      obtain ⟨kv', hkv', hbeq⟩ := h0
      exact hdis kv0 (List.mem_cons_self kv0 m') kv' hkv' (by simpa using hbeq)
    rw [hstep1]
    rw [foldl_addVal_run vs acc [v0]
      (fun kv hkv => hdis kv0 (List.mem_cons_self kv0 m') kv hkv)]
    have hkv0 : (kv0.1, [v0] ++ vs) = kv0 := by
      rw [List.singleton_append, ← hvs]
    have hnd' : (m'.map Prod.fst).Nodup := by
      rw [List.map_cons, List.nodup_cons] at hnd
      exact hnd.2
    have hhead : kv0.1 ∉ m'.map Prod.fst := by
      rw [List.map_cons, List.nodup_cons] at hnd
      exact hnd.1
    have hdis' : ∀ kv ∈ m', ∀ kv' ∈ acc ++ [(kv0.1, [v0] ++ vs)], kv'.1 ≠ kv.1 := by
      intro kv hkv kv' hkv'
      rcases List.mem_append.mp hkv' with hm | hm
      · exact hdis kv (List.mem_cons_of_mem kv0 hkv) kv' hm
      · rw [List.mem_singleton] at hm
        subst hm
        show kv0.1 ≠ kv.1
        intro h0
        exact hhead (h0 ▸ List.mem_map_of_mem Prod.fst hkv)
    rw [ih (acc ++ [(kv0.1, [v0] ++ vs)]) hnd'
      (fun kv hkv => hvals kv (List.mem_cons_of_mem kv0 hkv)) hdis']
    rw [hkv0, List.append_assoc]
    rfl

theorem parseQs_urlencode {m : List (String × List String)}
    (hnd : (m.map Prod.fst).Nodup) (hvals : ∀ kv ∈ m, kv.2 ≠ [])
    (hvne : ∀ kv ∈ m, ∀ v ∈ kv.2, v.data ≠ []) :
    parseQs (urlencodePy m) = m := by
  rw [parseQs, parseQsl_urlencode hvals hvne]
  have h := foldl_addVal_grouped m [] hnd hvals (by intro kv _ kv' hkv'; simp at hkv')
  simpa using h

/-! ### Well-formedness of `parse_qs` output (C5) -/

theorem parseQsl_vals {qs : String} : ∀ p ∈ parseQsl qs, p.2.data ≠ [] := by
  intro p hp
  rw [parseQsl] at hp
  split at hp
  · simp at hp
  · rw [List.mem_filterMap] at hp
    obtain ⟨nv, hnv, hf⟩ := hp
    split at hf
    · exact absurd hf (by simp)
    · split at hf
      · exact absurd hf (by simp)
      · rename_i n v heq
        split at hf
        · exact absurd hf (by simp)
        · rename_i hv
          injection hf with hf
          subst hf
          show (unquotePy ⟨plusToSpace v⟩).data ≠ []
          intro h0
          exact unquotePy_ne_empty (plusToSpace_ne_nil hv) (string_eq_empty_iff.mpr h0)

theorem alistAddVal_wf {acc : List (String × List String)} {k v : String}
    (h1 : (acc.map Prod.fst).Nodup) (h2 : ∀ kv ∈ acc, kv.2 ≠ [])
    (h3 : ∀ kv ∈ acc, ∀ w ∈ kv.2, w.data ≠ []) (hv : v.data ≠ []) :
    ((alistAddVal acc k v).map Prod.fst).Nodup ∧
      (∀ kv ∈ alistAddVal acc k v, kv.2 ≠ []) ∧
      (∀ kv ∈ alistAddVal acc k v, ∀ w ∈ kv.2, w.data ≠ []) := by
  rw [alistAddVal]
  split
  · refine ⟨?_, ?_, ?_⟩
    · rw [mapUpd_keys acc k (fun l => l ++ [v])]
      exact h1
    · intro kv hkv
      rw [List.mem_map] at hkv
      obtain ⟨kv', hkv', rfl⟩ := hkv
      show (if (kv'.1 == k) = true then (kv'.1, kv'.2 ++ [v]) else kv').2 ≠ []
      split
      · simp
      · exact h2 kv' hkv'
    · intro kv hkv w hw
      rw [List.mem_map] at hkv
      obtain ⟨kv', hkv', rfl⟩ := hkv
      have hw2 : w ∈ (if (kv'.1 == k) = true then (kv'.1, kv'.2 ++ [v]) else kv').2 := hw
      by_cases hk : (kv'.1 == k) = true
      · rw [if_pos hk] at hw2
        have hw3 : w ∈ kv'.2 ++ [v] := hw2
        rcases List.mem_append.mp hw3 with hm | hm
        · exact h3 kv' hkv' w hm
        · rw [List.mem_singleton] at hm
          subst hm
          exact hv
      · rw [if_neg hk] at hw2
        exact h3 kv' hkv' w hw2
  · rename_i hany
    refine ⟨?_, ?_, ?_⟩
    · rw [List.map_append, List.nodup_append]
      refine ⟨h1, by simp, ?_⟩
      intro x hx hx2
      rw [List.mem_map] at hx
      obtain ⟨kv', hkv', rfl⟩ := hx
      have hx3 : kv'.1 = k := by simpa using hx2
      apply hany
      rw [List.any_eq_true]
      exact ⟨kv', hkv', by simpa using hx3⟩
    · intro kv hkv
      rcases List.mem_append.mp hkv with hm | hm
      · exact h2 kv hm
      · rw [List.mem_singleton] at hm
        subst hm
        simp
    · intro kv hkv w hw
      rcases List.mem_append.mp hkv with hm | hm
      · exact h3 kv hm w hw
      · rw [List.mem_singleton] at hm
        subst hm
        have hw2 : w ∈ [v] := hw
        rw [List.mem_singleton] at hw2
        subst hw2
        exact hv

theorem parseQs_fold_wf : ∀ (ps : List (String × String)) (acc : List (String × List String)),
    (∀ p ∈ ps, p.2.data ≠ []) →
    (acc.map Prod.fst).Nodup → (∀ kv ∈ acc, kv.2 ≠ []) →
    (∀ kv ∈ acc, ∀ w ∈ kv.2, w.data ≠ []) →
    ((List.foldl (fun a p => alistAddVal a p.1 p.2) acc ps).map Prod.fst).Nodup ∧
      (∀ kv ∈ List.foldl (fun a p => alistAddVal a p.1 p.2) acc ps, kv.2 ≠ []) ∧
      (∀ kv ∈ List.foldl (fun a p => alistAddVal a p.1 p.2) acc ps, ∀ w ∈ kv.2, w.data ≠ []) := by
  intro ps
  induction ps with
  | nil => intro acc _ h1 h2 h3; exact ⟨h1, h2, h3⟩
  | cons p ps ih =>
    intro acc hps h1 h2 h3
    rw [List.foldl_cons]
    obtain ⟨g1, g2, g3⟩ := alistAddVal_wf h1 h2 h3 (hps p (List.mem_cons_self p ps))
    exact ih _ (fun q hq => hps q (List.mem_cons_of_mem p hq)) g1 g2 g3

theorem parseQs_wf (qs : String) :
    ((parseQs qs).map Prod.fst).Nodup ∧ (∀ kv ∈ parseQs qs, kv.2 ≠ []) ∧
      (∀ kv ∈ parseQs qs, ∀ w ∈ kv.2, w.data ≠ []) := by
  rw [parseQs]
  exact parseQs_fold_wf (parseQsl qs) [] parseQsl_vals (by simp) (by simp) (by simp)

theorem filter_wf (pred : String × List String → Bool) {m : List (String × List String)}
    (h1 : (m.map Prod.fst).Nodup) (h2 : ∀ kv ∈ m, kv.2 ≠ [])
    (h3 : ∀ kv ∈ m, ∀ w ∈ kv.2, w.data ≠ []) :
    ((m.filter pred).map Prod.fst).Nodup ∧ (∀ kv ∈ m.filter pred, kv.2 ≠ []) ∧
      (∀ kv ∈ m.filter pred, ∀ w ∈ kv.2, w.data ≠ []) := by
  refine ⟨?_, ?_, ?_⟩
  · exact List.Nodup.sublist (List.Sublist.map Prod.fst (List.filter_sublist m)) h1
  · exact fun kv hkv => h2 kv (List.mem_of_mem_filter hkv)
  · exact fun kv hkv w hw => h3 kv (List.mem_of_mem_filter hkv) w hw

theorem filter_idem {α : Type} {pred : α → Bool} {l : List α} :
    (l.filter pred).filter pred = l.filter pred := by
  rw [List.filter_filter]
  apply List.filter_congr
  intro a _
  exact Bool.and_self _

/-! ### Re-cleaning a cleaned URL (C5) -/

theorem clean_branch_reparse {u : String} (q' : String)
    (hq : ∀ c ∈ q'.data, qGoodCh c = true) (hnd : (parseUrl u).netloc.data ≠ []) :
    parseUrl (unparseUrl { parseUrl u with query := q', fragment := "" }) =
      { parseUrl u with query := q', fragment := "" } := by
  apply parse_unparse
  · obtain ⟨hs, hn, hpp⟩ := parseUrl_good u
    exact ⟨hs, hn, fun _ => hpp hnd⟩
  · exact hnd
  · exact fun c hc => qGoodCh_pathCh (hq c hc)
  · rfl

theorem requery_filter {q : String} (pred : String × List String → Bool) :
    (parseQs (urlencodePy ((parseQs q).filter pred))).filter pred =
      (parseQs q).filter pred := by
  obtain ⟨w1, w2, w3⟩ := parseQs_wf q
  obtain ⟨f1, f2, f3⟩ := filter_wf pred w1 w2 w3
  rw [parseQs_urlencode f1 f2 f3]
  exact filter_idem

/-! ### C5: idempotence of `clean_url` -/

/-- C5 (counterexample): `clean_url` is not idempotent on every URL. For
`"http:////www.alz.org?x=1"` urlsplit finds an empty netloc (the authority is
absorbed into the path), so the first cleaning keeps the query (the generic
tracking-parameter branch runs, not the alz.org branch) while unparsing
resurrects `www.alz.org` as a netloc; the second cleaning then takes the
alz.org branch and strips the query, so the results differ. -/
theorem clean_url_idem_cex :
    cleanUrl (cleanUrl "http:////www.alz.org?x=1") ≠ cleanUrl "http:////www.alz.org?x=1" ∧
      cleanUrl "http:////www.alz.org?x=1" = "http://www.alz.org?x=1" ∧
      cleanUrl "http://www.alz.org?x=1" = "http://www.alz.org" := by
  refine ⟨by decide, by decide, by decide⟩

/-- C5: the spec claims `clean_url(clean_url(u)) = clean_url(u)` for every URL.
Corrected: idempotence holds whenever `urlparse` gives the URL a nonempty
netloc (which covers every well-formed absolute URL); cleaning re-assembles the
URL from scheme, netloc, path, params and a re-encoded filtered query with the
fragment dropped, reparsing that string recovers the same components, and
filtering an already-filtered query map is a no-op. For URLs that parse with an
empty netloc the unparse step can resurrect a netloc and change the branch
taken by the second cleaning (see the counterexample). -/
theorem clean_url_idempotent_on_netloc (u : String)
    (hnl : (parseUrl u).netloc ≠ "") :
    cleanUrl (cleanUrl u) = cleanUrl u := by
  have hnd : (parseUrl u).netloc.data ≠ [] := fun h0 => hnl (string_eq_empty_iff.mpr h0)
  by_cases halz : (parseUrl u).netloc = "www.alz.org"
  · have h1 : cleanUrl u = unparseUrl { parseUrl u with query := "", fragment := "" } := by
      simp only [cleanUrl]
      rw [if_pos halz]
    have hrep := clean_branch_reparse ""
      (by
        intro c hc
        rw [show ("" : String).data = [] from rfl] at hc
        simp at hc) hnd
    rw [h1]
    simp only [cleanUrl]
    rw [hrep]
    rw [if_pos (show ({ parseUrl u with query := "", fragment := "" } : UrlParts).netloc =
      "www.alz.org" from halz)]
  · by_cases hweb : (parseUrl u).netloc = "www.webmd.com"
    · have h1 : cleanUrl u = unparseUrl { parseUrl u with
          query := urlencodePy
            ((parseQs (parseUrl u).query).filter (fun kv => kv.1 == "pg")),
          fragment := "" } := by
        simp only [cleanUrl]
        rw [if_neg halz, if_pos hweb]
      have hrep := clean_branch_reparse
        (urlencodePy ((parseQs (parseUrl u).query).filter (fun kv => kv.1 == "pg")))
        urlencode_chars hnd
      rw [h1]
      simp only [cleanUrl]
      rw [hrep]
      rw [if_neg (show ¬(({ parseUrl u with
        query := urlencodePy
          ((parseQs (parseUrl u).query).filter (fun kv => kv.1 == "pg")),
        fragment := "" } : UrlParts).netloc = "www.alz.org") from halz)]
      rw [if_pos (show ({ parseUrl u with
        query := urlencodePy
          ((parseQs (parseUrl u).query).filter (fun kv => kv.1 == "pg")),
        fragment := "" } : UrlParts).netloc = "www.webmd.com" from hweb)]
      rw [show ({ parseUrl u with
        query := urlencodePy
          ((parseQs (parseUrl u).query).filter (fun kv => kv.1 == "pg")),
        fragment := "" } : UrlParts).query = urlencodePy
          ((parseQs (parseUrl u).query).filter (fun kv => kv.1 == "pg")) from rfl]
      rw [requery_filter (fun kv => kv.1 == "pg")]
    · have h1 : cleanUrl u = unparseUrl { parseUrl u with
          query := urlencodePy ((parseQs (parseUrl u).query).filter
            (fun kv => !trackingParams.contains (pyLower kv.1))),
          fragment := "" } := by
        simp only [cleanUrl]
        rw [if_neg halz, if_neg hweb]
      have hrep := clean_branch_reparse
        (urlencodePy ((parseQs (parseUrl u).query).filter
          (fun kv => !trackingParams.contains (pyLower kv.1))))
        urlencode_chars hnd
      rw [h1]
      simp only [cleanUrl]
      rw [hrep]
      rw [if_neg (show ¬(({ parseUrl u with
        query := urlencodePy ((parseQs (parseUrl u).query).filter
          (fun kv => !trackingParams.contains (pyLower kv.1))),
        fragment := "" } : UrlParts).netloc = "www.alz.org") from halz)]
      rw [if_neg (show ¬(({ parseUrl u with
        query := urlencodePy ((parseQs (parseUrl u).query).filter
          (fun kv => !trackingParams.contains (pyLower kv.1))),
        fragment := "" } : UrlParts).netloc = "www.webmd.com") from hweb)]
      rw [show ({ parseUrl u with
        query := urlencodePy ((parseQs (parseUrl u).query).filter
          (fun kv => !trackingParams.contains (pyLower kv.1))),
        fragment := "" } : UrlParts).query = urlencodePy
          ((parseQs (parseUrl u).query).filter
            (fun kv => !trackingParams.contains (pyLower kv.1))) from rfl]
      rw [requery_filter (fun kv => !trackingParams.contains (pyLower kv.1))]

theorem clean_url_idempotent_on_netloc_witness :
    (parseUrl "https://example.org/a?utm_source=x&pg=2").netloc ≠ "" ∧
      cleanUrl (cleanUrl "https://example.org/a?utm_source=x&pg=2") =
        cleanUrl "https://example.org/a?utm_source=x&pg=2" :=
  ⟨by decide,
    clean_url_idempotent_on_netloc "https://example.org/a?utm_source=x&pg=2" (by decide)⟩
